import Mathlib

/-!
The particle field of `Statics/script.js`.

A shallow embedding of the canvas particle simulation (the block guarded by
`if (canvas && ctx)` in `script.js`) and proofs about it.

Numbers are modelled in two ways.  In the exact model every definition is
generic in a linearly ordered field `α` (instantiate `ℚ` to run a definition,
`ℝ` to reason with real square roots) and arithmetic is exact.  In the rounded
model (the definitions whose names end in `F` or `D`) the same operations are
followed by the rounding to the nearest IEEE 754 double, `toDouble`, and a store
into the `Float32Array` by the rounding to a single, `toFloat32`; it covers
`Particle.update` and the smoothing of `pairAlpha`, the two places where an
inequality proved below depends on the rounding.  Overflow to infinity is not
modelled; the theorems about the rounded model bound their inputs so that none
occurs.

The functions of the JavaScript `Math` object are not part of the source file,
so they are passed in as a `MathLib α` record; theorems state the facts about
them that they use as hypotheses.  `Math.random()` is modelled by passing the
drawn numbers in explicitly.
-/

namespace NeuralBg

/-- The functions of the JavaScript `Math` object used by the simulation. -/
structure MathLib (α : Type) where
  sqrt : α → α
  cos : α → α
  sin : α → α
  pow : α → α → α

/-- The exact square root: non-negative, and squaring gives the argument back. -/
def SqrtExact {α : Type} [LinearOrderedField α] (sqrt : α → α) : Prop :=
  ∀ x : α, 0 ≤ x → 0 ≤ sqrt x ∧ sqrt x * sqrt x = x

/-- What the range invariant needs of `Math.pow`: a base in `[0,1]` raised to a
non-negative exponent stays in `[0,1]`. -/
def PowUnit {α : Type} [LinearOrderedField α] (pow : α → α → α) : Prop :=
  ∀ b e : α, 0 ≤ b → b ≤ 1 → 0 ≤ e → 0 ≤ pow b e ∧ pow b e ≤ 1

/-- What the unprojection needs of `Math.cos` and `Math.sin`: cosine is even,
sine is odd, and the squares add up to 1. -/
def TrigExact {α : Type} [LinearOrderedField α] (cos sin : α → α) : Prop :=
  (∀ x : α, cos (-x) = cos x) ∧ (∀ x : α, sin (-x) = -sin x) ∧
    ∀ x : α, cos x * cos x + sin x * sin x = 1

/-- The constant fields of the `CFG` object (`count` and `connectDist3D` are the
two mutable fields; they live in the scene state). -/
structure Cfg (α : Type) where
  baseCount : ℕ
  baseConnectDist3D : α
  fov : α
  speed : α
  drag : α
  depth : α
  mouseRadius : α
  mouseStrength : α
  repelRadius : α
  repelStrength : α
  turbulence : α
  wobbleStrength : α
  lightX : α
  lightY : α

section Model

variable {α : Type} [LinearOrderedField α]

/-- The `CFG` literal of the source. -/
def CFG : Cfg α where
  baseCount := 150
  baseConnectDist3D := 350
  fov := 520
  speed := 0.5
  drag := 0.965
  depth := 700
  mouseRadius := 230
  mouseStrength := 2.2
  repelRadius := 340
  repelStrength := 16
  turbulence := 0.016
  wobbleStrength := 0.009
  lightX := 0.62
  lightY := -0.38

/-- The `mouse3D` object. -/
structure Mouse3D (α : Type) where
  x : α
  y : α
  z : α
  active : Bool

/-- The fields of a `Particle`. -/
structure Particle (α : Type) where
  x : α
  y : α
  z : α
  vx : α
  vy : α
  vz : α
  tx : α
  ty : α
  tz : α
  retarget : α
  baseSize : α
  phase : α
  pulseSpd : α

/-- The four `Math.random()` results consumed by one call of `_newTarget`. -/
structure TargetDraws (α : Type) where
  rx : α
  ry : α
  rz : α
  rr : α

/-- The `Math.random()` results one `update()` may consume: those of
`_newTarget` (used only when the retarget counter runs out) and the three
turbulence draws. -/
structure UpdateDraws (α : Type) where
  target : TargetDraws α
  turbX : α
  turbY : α
  turbZ : α

/-- The method `Particle._newTarget`. -/
def Particle.newTarget (W H : α) (r : TargetDraws α) (p : Particle α) : Particle α :=
  { p with
    tx := (r.rx - 0.5) * W * 2.0
    ty := (r.ry - 0.5) * H * 2.0
    tz := (r.rz - 0.5) * (CFG : Cfg α).depth * 2.8
    retarget := 130 + r.rr * 220 }

/-- Step "Wander" of `update`: decrement the counter, retarget when it is
used up, then pull the velocity toward the target. -/
def Particle.wander (W H : α) (r : TargetDraws α) (p : Particle α) : Particle α :=
  let p1 := { p with retarget := p.retarget - 1 }
  let p2 := if p1.retarget ≤ 0 then p1.newTarget W H r else p1
  { p2 with
    vx := p2.vx + (p2.tx - p2.x) * 0.00007
    vy := p2.vy + (p2.ty - p2.y) * 0.00007
    vz := p2.vz + (p2.tz - p2.z) * 0.00005 }

/-- Step "Turbulence" of `update`. -/
def Particle.turbulence (d : UpdateDraws α) (p : Particle α) : Particle α :=
  { p with
    vx := p.vx + (d.turbX - 0.5) * (CFG : Cfg α).turbulence
    vy := p.vy + (d.turbY - 0.5) * (CFG : Cfg α).turbulence
    vz := p.vz + (d.turbZ - 0.5) * (CFG : Cfg α).turbulence * 0.5 }

/-- Step "Mouse attraction" of `update`. -/
def Particle.attract (M : MathLib α) (m : Mouse3D α) (p : Particle α) : Particle α :=
  if m.active then
    let dx := m.x - p.x
    let dy := m.y - p.y
    let dz := m.z - p.z
    let d := M.sqrt (dx * dx + dy * dy + dz * dz)
    if d < (CFG : Cfg α).mouseRadius ∧ d > 1 then
      let f := (1 - d / (CFG : Cfg α).mouseRadius) * (CFG : Cfg α).mouseStrength * 0.013
      { p with
        vx := p.vx + dx / d * f
        vy := p.vy + dy / d * f
        vz := p.vz + dz / d * f * 0.45 }
    else p
  else p

/-- Step "Drag" of `update`. -/
def Particle.applyDrag (p : Particle α) : Particle α :=
  { p with
    vx := p.vx * (CFG : Cfg α).drag
    vy := p.vy * (CFG : Cfg α).drag
    vz := p.vz * (CFG : Cfg α).drag }

/-- Step "Speed cap" of `update` in exact arithmetic (`Particle.capSpeedF` has
the roundings). -/
def Particle.capSpeed (M : MathLib α) (p : Particle α) : Particle α :=
  let spd := M.sqrt (p.vx * p.vx + p.vy * p.vy + p.vz * p.vz)
  let max := (CFG : Cfg α).speed * 3.5
  if spd > max then
    let r := max / spd
    { p with vx := p.vx * r, vy := p.vy * r, vz := p.vz * r }
  else p

/-- The integration lines of `update`: position by velocity, phase by pulse speed. -/
def Particle.integrate (p : Particle α) : Particle α :=
  { p with
    x := p.x + p.vx
    y := p.y + p.vy
    z := p.z + p.vz
    phase := p.phase + p.pulseSpd }

/-- One pair of wrap lines of `update`: `if (c > b) c = -b; if (c < -b) c = b;`. -/
def wrapCoord (b c : α) : α :=
  let c1 := if c > b then -b else c
  if c1 < -b then b else c1

/-- Step "Wrap" of `update`. -/
def Particle.wrap (W H : α) (p : Particle α) : Particle α :=
  let bx := W * 1.3
  let by_ := H * 1.3
  let bz := (CFG : Cfg α).depth * 1.7
  { p with x := wrapCoord bx p.x, y := wrapCoord by_ p.y, z := wrapCoord bz p.z }

/-- The method `Particle.update`, with the viewport `W`, `H`, the pointer
`mouse3D` and the random draws of this call made explicit. -/
def Particle.update (M : MathLib α) (W H : α) (m : Mouse3D α) (d : UpdateDraws α)
    (p : Particle α) : Particle α :=
  Particle.wrap W H
    (Particle.integrate
      (Particle.capSpeed M
        (Particle.applyDrag
          (Particle.attract M m
            (Particle.turbulence d
              (Particle.wander W H d.target p))))))

/-- The velocity magnitude `sqrt(vx² + vy² + vz²)` of a particle. -/
def Particle.speedOf (M : MathLib α) (p : Particle α) : α :=
  M.sqrt (p.vx * p.vx + p.vy * p.vy + p.vz * p.vz)

/-- The bounding box of the wrap step: `|x| ≤ 1.3 W`, `|y| ≤ 1.3 H`, `|z| ≤ 1.7 depth`. -/
def Particle.InBox (W H : α) (p : Particle α) : Prop :=
  (-(1.3 * W) ≤ p.x ∧ p.x ≤ 1.3 * W) ∧ (-(1.3 * H) ≤ p.y ∧ p.y ≤ 1.3 * H) ∧
    (-(1.7 * (CFG : Cfg α).depth) ≤ p.z ∧ p.z ≤ 1.7 * (CFG : Cfg α).depth)

/-- The object returned by `Particle.project`. -/
structure Projection (α : Type) where
  sx : α
  sy : α
  scale : α
  fz : α

/-- The mutable variables of the simulation: the viewport (`W`, `H`, `cx`,
`cy`), the two mutable `CFG` fields, the particle array, the `pairAlpha` table
and the scene state (`rotX`, `rotY`, `zoom`, `frame`, `lastMouseFrame`,
`mouseSCR`, `mouse3D`, `cursorPos`).  The table is a `Float32Array` in the
source; the exact model leaves its rounding to 32 bits out, `blendF` has it. -/
structure Scene (α : Type) where
  W : α
  H : α
  cx : α
  cy : α
  count : ℕ
  connectDist3D : α
  particles : List (Particle α)
  pairAlpha : List α
  rotX : α
  rotY : α
  zoom : α
  frame : ℤ
  lastMouseFrame : ℤ
  mouseSCRx : α
  mouseSCRy : α
  mouse3D : Mouse3D α
  cursorPosx : α
  cursorPosy : α

/-- The `Math.random()` results consumed by one `new Particle()`, in call
order: position, velocity, the `_newTarget` call, then `retarget`, `baseSize`,
`phase` and `pulseSpd`. -/
structure ParticleSeed (α : Type) where
  rx : α
  ry : α
  rz : α
  rvx : α
  rvy : α
  rvz : α
  target : TargetDraws α
  rretarget : α
  rsize : α
  rphase : α
  rpulse : α

/-- The constructor of `Particle`; `pi` stands for `Math.PI`. -/
def Particle.create (W H pi : α) (r : ParticleSeed α) : Particle α :=
  let p0 : Particle α :=
    { x := (r.rx - 0.5) * W * 2.4
      y := (r.ry - 0.5) * H * 2.4
      z := (r.rz - 0.5) * (CFG : Cfg α).depth * 3.2
      vx := (r.rvx - 0.5) * (CFG : Cfg α).speed
      vy := (r.rvy - 0.5) * (CFG : Cfg α).speed
      vz := (r.rvz - 0.5) * (CFG : Cfg α).speed * 0.6
      tx := 0, ty := 0, tz := 0, retarget := 0, baseSize := 0, phase := 0, pulseSpd := 0 }
  let p1 := p0.newTarget W H r.target
  { p1 with
    retarget := r.rretarget * 180
    baseSize := 1.6 + r.rsize * 2.4
    phase := r.rphase * pi * 2
    pulseSpd := 0.015 + r.rpulse * 0.028 }

/-- The method `Particle.project`, reading `rotX`, `rotY`, `zoom`, `cx`, `cy`
from the scene. -/
def Particle.project (M : MathLib α) (s : Scene α) (p : Particle α) : Projection α :=
  let cY := M.cos s.rotY
  let sY := M.sin s.rotY
  let rx := p.x * cY - p.z * sY
  let rz := p.x * sY + p.z * cY
  let cX := M.cos s.rotX
  let sX := M.sin s.rotX
  let ry := p.y * cX - rz * sX
  let fz := p.y * sX + rz * cX
  let fx := rx
  let fy := ry
  let fov := (CFG : Cfg α).fov * s.zoom
  let persp := fov + fz + (CFG : Cfg α).depth
  let scale := if persp > 1 then fov / persp else 0.001
  { sx := s.cx + fx * scale, sy := s.cy + fy * scale, scale := scale, fz := fz }

/-- The helper `dist3D`. -/
def dist3D (M : MathLib α) (a b : Particle α) : α :=
  let dx := a.x - b.x
  let dy := a.y - b.y
  let dz := a.z - b.z
  M.sqrt (dx * dx + dy * dy + dz * dz)

/-- The function `updateMouse3D`. -/
def updateMouse3D (M : MathLib α) (s : Scene α) : Scene α :=
  let sx := s.mouseSCRx - s.cx
  let sy := s.mouseSCRy - s.cy
  let cY := M.cos (-s.rotY)
  let sY := M.sin (-s.rotY)
  let cX := M.cos (-s.rotX)
  let sX := M.sin (-s.rotX)
  let uy := sy * cX - 0 * sX
  let uz := sy * sX + 0 * cX
  let ux := sx * cY - uz * sY
  let uuz := sx * sY + uz * cY
  { s with mouse3D := { s.mouse3D with x := ux, y := uy, z := uuz } }

/-- The body of the `forEach` callback of `repelBurst` for one particle. -/
def repelOne (M : MathLib α) (m : Mouse3D α) (p : Particle α) : Particle α :=
  let dx := p.x - m.x
  let dy := p.y - m.y
  let dz := p.z - m.z
  let d := M.sqrt (dx * dx + dy * dy + dz * dz)
  if d < (CFG : Cfg α).repelRadius ∧ d > 1 then
    let f := (1 - d / (CFG : Cfg α).repelRadius) * (CFG : Cfg α).repelStrength
    { p with vx := p.vx + dx / d * f, vy := p.vy + dy / d * f, vz := p.vz + dz / d * f * 0.55 }
  else p

/-- The function `repelBurst`. -/
def repelBurst (M : MathLib α) (s : Scene α) : Scene α :=
  { s with particles := s.particles.map (repelOne M s.mouse3D) }

/-- The `fz` of entry `a` of the projection array `PJ` (0 outside the array,
which the index lists built from the array never reach). -/
def fzAt (PJ : List (Projection α)) (a : ℕ) : α :=
  match PJ[a]? with
  | some q => q.fz
  | none => 0

/-- The comparator `(a, b) => PJ[a].fz - PJ[b].fz` puts `a` no later than `b`
when the difference is not positive. -/
def fzLE (PJ : List (Projection α)) (a b : ℕ) : Prop := fzAt PJ a ≤ fzAt PJ b

instance fzLE_decidable (PJ : List (Projection α)) : DecidableRel (fzLE PJ) :=
  fun a b => inferInstanceAs (Decidable (fzAt PJ a ≤ fzAt PJ b))

instance fzLE_total (PJ : List (Projection α)) : IsTotal ℕ (fzLE PJ) :=
  ⟨fun a b => le_total (fzAt PJ a) (fzAt PJ b)⟩

instance fzLE_trans (PJ : List (Projection α)) : IsTrans ℕ (fzLE PJ) :=
  ⟨fun a b c (h1 : fzAt PJ a ≤ fzAt PJ b) (h2 : fzAt PJ b ≤ fzAt PJ c) => le_trans h1 h2⟩

/-- The array `order` of `draw`: the indices `0 .. n-1` sorted with the
comparator `PJ[a].fz - PJ[b].fz`.  `Array.prototype.sort` is a stable sort; it
is modelled by the stable insertion sort.  The connection loops walk this
array, and `order.forEach(i => drawOrb(particles[i], PJ[i]))` paints the orbs
in this order, so an earlier index is painted under a later one. -/
def drawOrder (PJ : List (Projection α)) : List ℕ :=
  (List.range PJ.length).insertionSort (fzLE PJ)

/-- The pairs `(order[ii], order[jj])`, `ii < jj`, in the order in which the
two nested `for` loops of `draw` visit them. -/
def loopPairs : List ℕ → List (ℕ × ℕ)
  | [] => []
  | i :: rest => rest.map (fun j => (i, j)) ++ loopPairs rest

/-- The target alpha of a pair at 3D distance `d`. -/
def targetAlpha (M : MathLib α) (connectDist3D d : α) : α :=
  if d < connectDist3D then M.pow (1 - d / connectDist3D) 1.8 else 0

/-- The smoothing step `pairAlpha[key] += (target - pairAlpha[key]) * rate`
with `rate = target > pairAlpha[key] ? 0.10 : 0.038`, as a function of the
target and the current table value, in exact arithmetic (`blendF` has the
roundings). -/
def blend (target cur : α) : α :=
  let rate : α := if target > cur then 0.10 else 0.038
  cur + (target - cur) * rate

/-- The body of the inner connection loop of `draw` for the pair `(i, j)`,
as far as it changes `pairAlpha`.  (A write outside a typed array does
nothing; the indices produced by `drawOrder` are always inside `particles`.) -/
def connectPair (M : MathLib α) (count : ℕ) (connectDist3D : α) (ps : List (Particle α))
    (pairAlpha : List α) (ij : ℕ × ℕ) : List α :=
  match ps[ij.1]?, ps[ij.2]? with
  | some a, some b =>
    let d := dist3D M a b
    let key := ij.1 * count + ij.2
    let target := targetAlpha M connectDist3D d
    match pairAlpha[key]? with
    | some cur => pairAlpha.set key (blend target cur)
    | none => pairAlpha
  | _, _ => pairAlpha

/-- The two nested connection loops of `draw`, as far as they change `pairAlpha`. -/
def connectAll (M : MathLib α) (count : ℕ) (connectDist3D : α) (ps : List (Particle α))
    (order : List ℕ) (pairAlpha : List α) : List α :=
  (loopPairs order).foldl (connectPair M count connectDist3D ps) pairAlpha

/-- Whether the `draw` call that starts from scene `s` takes the idle branch:
`frame` is incremented first, then `idle = frame - lastMouseFrame > 180`. -/
def idleTick (s : Scene α) : Bool := decide (s.frame + 1 - s.lastMouseFrame > 180)

/-- The rotation lines of `draw` (after `frame++`). -/
def rotateCamera (s : Scene α) : Scene α :=
  if s.frame - s.lastMouseFrame > 180 then
    { s with rotY := s.rotY + 0.00028, rotX := s.rotX + 0.00011 }
  else
    let tX := 0.18 + (s.mouseSCRy / s.H - 0.5) * 0.65
    let tY := (s.mouseSCRx / s.W - 0.5) * 1.3
    let rotX1 := s.rotX + (tX - s.rotX) * 0.014
    { s with rotX := rotX1, rotY := s.rotY + (tY - s.rotY) * 0.014 }

/-- The state change of one call of `draw` (painting is not modelled):
`frame++`, the rotation, `updateMouse3D`, the update of every particle (`rnd i`
are the random draws of particle `i`), projection and sort, and the connection
loops. -/
def draw (M : MathLib α) (rnd : ℕ → UpdateDraws α) (s : Scene α) : Scene α :=
  let s1 := { s with frame := s.frame + 1 }
  let s2 := rotateCamera s1
  let s3 := updateMouse3D M s2
  let ps := s3.particles.mapIdx (fun i p => p.update M s3.W s3.H s3.mouse3D (rnd i))
  let s4 := { s3 with particles := ps }
  let PJ := ps.map (Particle.project M s4)
  let order := drawOrder PJ
  { s4 with pairAlpha := connectAll M s4.count s4.connectDist3D ps order s4.pairAlpha }

/-- Run `draw` once per element of `rnds` (the random draws of each frame), as
the `requestAnimationFrame` chain does when no event arrives in between. -/
def runFrames (M : MathLib α) (rnds : List (ℕ → UpdateDraws α)) (s : Scene α) : Scene α :=
  rnds.foldl (fun st rnd => draw M rnd st) s

/-- A sample particle: at `(30, 0, 40)` (distance 50 from the origin), moving
fast along `x`, with its wander target at its own position. -/
def sampleParticle : Particle α :=
  { x := 30, y := 0, z := 40, vx := 100, vy := 0, vz := 0, tx := 30, ty := 0, tz := 40
    retarget := 200, baseSize := 2, phase := 0, pulseSpd := 0.02 }

/-- Sample random draws: every `Math.random()` returns `0.5`. -/
def sampleDraws : UpdateDraws α :=
  { target := { rx := 0.5, ry := 0.5, rz := 0.5, rr := 0.5 }
    turbX := 0.5, turbY := 0.5, turbZ := 0.5 }

/-- Sample random draws for every particle of a frame. -/
def sampleRnd : ℕ → UpdateDraws α := fun _ => sampleDraws

/-- A sample pointer: active, at the origin. -/
def sampleMouse : Mouse3D α := { x := 0, y := 0, z := 0, active := true }

/-- A sample scene: an 800 x 600 viewport holding `sampleParticle` twice, with
the scene state at its initial values. -/
def sampleScene : Scene α :=
  { W := 800, H := 600, cx := 400, cy := 300, count := 2, connectDist3D := 350
    particles := [sampleParticle, sampleParticle], pairAlpha := List.replicate 4 0
    rotX := 0.18, rotY := 0.0, zoom := 1.75, frame := 0, lastMouseFrame := -9999
    mouseSCRx := 400, mouseSCRy := 300
    mouse3D := { x := 0, y := 0, z := 0, active := false }
    cursorPosx := 400, cursorPosy := 300 }

/-- A sample scene for the reallocation check: 60 particles (the mobile count)
and a table whose first entry is not zero. -/
def mobileScene : Scene α :=
  { (sampleScene : Scene α) with
    count := 60, connectDist3D := 210
    particles := List.replicate 60 sampleParticle
    pairAlpha := 0.5 :: List.replicate 3599 0 }

/-- For a particle `p` at distance 50 from the origin and its state `q` after
an update: the dot product of the velocity change `q.v - p.v` with the unit
vector `(0 - p) / 50` that points from `p` toward the origin. -/
def gainTowardOrigin (p q : Particle α) : α :=
  (q.vx - p.vx) * ((0 - p.x) / 50) + (q.vy - p.vy) * ((0 - p.y) / 50) +
    (q.vz - p.vz) * ((0 - p.z) / 50)

/-- A particle at `(50, 0, 0)` already moving toward the origin with speed 1,
its wander target at its own position. -/
def approachingParticle : Particle α :=
  { x := 50, y := 0, z := 0, vx := -1, vy := 0, vz := 0, tx := 50, ty := 0, tz := 0
    retarget := 200, baseSize := 2, phase := 0, pulseSpd := 0.02 }

/-- A particle at rest at `(0, 0, 50)` whose wander target `(0, 0, 900)` lies on
the far side from the origin. -/
def pulledParticle : Particle α :=
  { x := 0, y := 0, z := 50, vx := 0, vy := 0, vz := 0, tx := 0, ty := 0, tz := 900
    retarget := 200, baseSize := 2, phase := 0, pulseSpd := 0.02 }

/-- A particle at rest at `(30, 0, 40)` with its wander target at its own position. -/
def restingParticle : Particle α :=
  { x := 30, y := 0, z := 40, vx := 0, vy := 0, vz := 0, tx := 30, ty := 0, tz := 40
    retarget := 200, baseSize := 2, phase := 0, pulseSpd := 0.02 }

/-- The sample scene with the camera rotation set to zero. -/
def flatScene : Scene α := { (sampleScene : Scene α) with rotX := 0, rotY := 0 }

/-- A particle at the origin. -/
def nearOrb : Particle α := { (restingParticle : Particle α) with x := 0, y := 0, z := 0 }

/-- A particle at `(0, 0, 100)`, 100 units farther from the camera than `nearOrb`. -/
def farOrb : Particle α := { (restingParticle : Particle α) with x := 0, y := 0, z := 100 }

/-- The rotated coordinates `(fx, fy, fz)` that `Particle.project` computes
before the perspective divide: rotation about the Y axis, then about the X axis. -/
def Particle.rotated (M : MathLib α) (s : Scene α) (p : Particle α) : α × α × α :=
  let cY := M.cos s.rotY
  let sY := M.sin s.rotY
  let rx := p.x * cY - p.z * sY
  let rz := p.x * sY + p.z * cY
  let cX := M.cos s.rotX
  let sX := M.sin s.rotX
  let ry := p.y * cX - rz * sX
  let fz := p.y * sX + rz * cX
  (rx, ry, fz)

/-- The `mousemove` listener; `clientX`, `clientY` are the event's coordinates. -/
def onMouseMove (clientX clientY : α) (s : Scene α) : Scene α :=
  { s with
    mouseSCRx := clientX, mouseSCRy := clientY
    cursorPosx := clientX, cursorPosy := clientY
    mouse3D := { s.mouse3D with active := true }
    lastMouseFrame := s.frame }

/-- The `mouseleave` listener. -/
def onMouseLeave (s : Scene α) : Scene α :=
  { s with mouse3D := { s.mouse3D with active := false } }

/-- The `click` listener, which is `repelBurst` itself. -/
def onClick (M : MathLib α) (s : Scene α) : Scene α := repelBurst M s

/-- The `wheel` listener; `deltaY` is the event's `deltaY`. -/
def onWheel (deltaY : α) (s : Scene α) : Scene α :=
  { s with zoom := max 0.4 (min 2.2 (s.zoom - deltaY * 0.0008)) }

/-- The `touchmove` listener; `clientX`, `clientY` are those of `e.touches[0]`. -/
def onTouchMove (clientX clientY : α) (s : Scene α) : Scene α :=
  { s with
    mouseSCRx := clientX, mouseSCRy := clientY
    cursorPosx := clientX, cursorPosy := clientY
    mouse3D := { s.mouse3D with active := true }
    lastMouseFrame := s.frame }

/-- The `touchstart` listener: it stores the touch point in `mouseSCR` and
calls `repelBurst()`; `clientX`, `clientY` are those of `e.touches[0]`. -/
def onTouchStart (M : MathLib α) (clientX clientY : α) (s : Scene α) : Scene α :=
  repelBurst M { s with mouseSCRx := clientX, mouseSCRy := clientY }

/-- The position `(tx, ty)` of a traveling photon of `drawConnection` with
parameter `t` on the line from `pjA` to `pjB`. -/
def photonPos (pjA pjB : Projection α) (t : α) : α × α :=
  (pjA.sx + (pjB.sx - pjA.sx) * t, pjA.sy + (pjB.sy - pjA.sy) * t)

/-- A particle at `(60, 0, 0)` at rest. -/
def burstTarget : Particle α := { (restingParticle : Particle α) with x := 60, y := 0, z := 0 }

/-- The sample scene (pointer at the viewport centre, `mouse3D` at the origin as
`updateMouse3D` leaves it for that pointer) holding `burstTarget` only. -/
def touchScene : Scene α :=
  { (sampleScene : Scene α) with count := 1, particles := [burstTarget], pairAlpha := [0] }

/-- A projected endpoint at screen position `(0, 0)`. -/
def endA : Projection α := { sx := 0, sy := 0, scale := 1, fz := 0 }

/-- A projected endpoint at screen position `(100, 0)`. -/
def endB : Projection α := { sx := 100, sy := 0, scale := 1, fz := 0 }

/-- The sample scene with the pointer at screen position `(500, 350)`. -/
def pointerScene : Scene α := { (sampleScene : Scene α) with mouseSCRx := 500, mouseSCRy := 350 }

/-- A particle placed at the point that `updateMouse3D` computes in scene `s`. -/
def pointerParticle (M : MathLib α) (s : Scene α) : Particle α :=
  { (restingParticle : Particle α) with
    x := (updateMouse3D M s).mouse3D.x
    y := (updateMouse3D M s).mouse3D.y
    z := (updateMouse3D M s).mouse3D.z }

/-- For a particle `p` at distance 50 from the origin: the component of the
velocity of `q` along the unit vector `(0 - p) / 50` that points from `p` toward
the origin. -/
def towardOrigin (p q : Particle α) : α :=
  q.vx * ((0 - p.x) / 50) + q.vy * ((0 - p.y) / 50) + q.vz * ((0 - p.z) / 50)

/-- For a particle `p` at distance `d = 50` from an active pointer at the
origin: the component toward the origin of the attraction increment
`(dx / d * f, dy / d * f, dz / d * f * 0.45)`, where `f = (1 - 50/230) * 2.2 * 0.013`. -/
def pullTowardOrigin (p : Particle α) : α :=
  (1 - 50 / 230) * 2.2 * 0.013 * (p.x * p.x + p.y * p.y + 0.45 * (p.z * p.z)) / 2500

/-- The state of a particle in `update` just before the speed cap: after the
steps wander, turbulence, mouse attraction and drag. -/
def Particle.preCap (M : MathLib α) (W H : α) (m : Mouse3D α) (d : UpdateDraws α)
    (p : Particle α) : Particle α :=
  Particle.applyDrag (Particle.attract M m (Particle.turbulence d (Particle.wander W H d.target p)))

/-- The factor by which the speed cap of `update` multiplies the velocity:
`max / spd` when `spd > max`, and 1 (no change) otherwise. -/
def Particle.capFactor (M : MathLib α) (p : Particle α) : α :=
  let spd := M.sqrt (p.vx * p.vx + p.vy * p.vy + p.vz * p.vz)
  let max := (CFG : Cfg α).speed * 3.5
  if spd > max then max / spd else 1

/-- A particle at `(50, 0, 0)` moving away from the origin with speed 1, its
wander target at its own position. -/
def recedingParticle : Particle α :=
  { x := 50, y := 0, z := 0, vx := 1, vy := 0, vz := 0, tx := 50, ty := 0, tz := 0
    retarget := 200, baseSize := 2, phase := 0, pulseSpd := 0.02 }

/-- A particle at the origin just after a burst: velocity `(10, 0, 0)`, wander
target at its own position. -/
def burstParticle : Particle α :=
  { x := 0, y := 0, z := 0, vx := 10, vy := 0, vz := 0, tx := 0, ty := 0, tz := 0
    retarget := 200, baseSize := 2, phase := 0, pulseSpd := 0.02 }

/-- A pointer that is not active. -/
def idleMouse : Mouse3D α := { x := 0, y := 0, z := 0, active := false }

/-- The velocity components of a particle have magnitude at most `B`. -/
def Particle.VelLe (B : α) (p : Particle α) : Prop := |p.vx| ≤ B ∧ |p.vy| ≤ B ∧ |p.vz| ≤ B

/-- The position components of a particle have magnitude at most `B`. -/
def Particle.PosLe (B : α) (p : Particle α) : Prop := |p.x| ≤ B ∧ |p.y| ≤ B ∧ |p.z| ≤ B

/-- The components of the wander target of a particle have magnitude at most `B`. -/
def Particle.TargetLe (B : α) (p : Particle α) : Prop := |p.tx| ≤ B ∧ |p.ty| ≤ B ∧ |p.tz| ≤ B

/-- Every `Math.random()` result of an update lies in `[0, 1]`. -/
def UpdateDraws.InUnit (d : UpdateDraws α) : Prop :=
  (0 ≤ d.target.rx ∧ d.target.rx ≤ 1) ∧ (0 ≤ d.target.ry ∧ d.target.ry ≤ 1) ∧
    (0 ≤ d.target.rz ∧ d.target.rz ≤ 1) ∧ (0 ≤ d.target.rr ∧ d.target.rr ≤ 1) ∧
    (0 ≤ d.turbX ∧ d.turbX ≤ 1) ∧ (0 ≤ d.turbY ∧ d.turbY ≤ 1) ∧ (0 ≤ d.turbZ ∧ d.turbZ ≤ 1)

section Config

variable [FloorRing α]

/-- The tier selection at the head of `adjustConfig`: the assignments to
`CFG.count` and `CFG.connectDist3D`; `innerWidth` is `window.innerWidth`. -/
def setTier (innerWidth : α) (s : Scene α) : Scene α :=
  if innerWidth < 768 then
    { s with
      count := Int.toNat ⌊((CFG : Cfg α).baseCount : α) * 0.4⌋
      connectDist3D := ((⌊(CFG : Cfg α).baseConnectDist3D * 0.6⌋ : ℤ) : α) }
  else if innerWidth < 1200 then
    { s with
      count := Int.toNat ⌊((CFG : Cfg α).baseCount : α) * 0.7⌋
      connectDist3D := ((⌊(CFG : Cfg α).baseConnectDist3D * 0.8⌋ : ℤ) : α) }
  else
    { s with
      count := (CFG : Cfg α).baseCount
      connectDist3D := (CFG : Cfg α).baseConnectDist3D }

/-- The function `adjustConfig`: the tier selection, then the reallocation of
`particles` and `pairAlpha` when the count changed or on the first run.  `pi`
is `Math.PI` and `seeds i` are the random draws of the `i`-th new particle;
`new Particle()` is modelled by `Particle.create`, that is, with the class
declaration already evaluated. -/
def adjustConfig (innerWidth pi : α) (seeds : ℕ → ParticleSeed α) (s : Scene α) : Scene α :=
  let s1 := setTier innerWidth s
  if s1.particles.length = 0 ∨ s1.particles.length ≠ s1.count then
    { s1 with
      particles := (List.range s1.count).map (fun i => Particle.create s1.W s1.H pi (seeds i))
      pairAlpha := List.replicate (s1.count * s1.count) 0 }
  else s1

/-- The function `resize`. -/
def resize (innerWidth innerHeight pi : α) (seeds : ℕ → ParticleSeed α) (s : Scene α) :
    Scene α :=
  adjustConfig innerWidth pi seeds
    { s with W := innerWidth, H := innerHeight, cx := innerWidth / 2, cy := innerHeight / 2 }

/-- The JavaScript remainder `x % 1`: `x` minus its integer part truncated
toward zero. -/
def jsRem1 (x : α) : α := if 0 ≤ x then x - (⌊x⌋ : α) else x - (⌈x⌉ : α)

/-- The parameter `t = (frame * speed + o * 0.5) % 1` (with `speed = 0.008`) of
photon `o` (`o = 0` or `o = 1`) in `drawConnection`. -/
def photonT (frame : ℤ) (o : ℕ) : α := jsRem1 ((frame : α) * 0.008 + (o : α) * 0.5)

end Config

section Rounded

variable [FloorRing α]

/-- Rounding of a number to the nearest integer, ties to the even integer. -/
def roundHalfEven (m : α) : ℤ :=
  if m - (⌊m⌋ : α) < 1 / 2 then ⌊m⌋
  else if 1 / 2 < m - (⌊m⌋ : α) then ⌊m⌋ + 1
  else if ⌊m⌋ % 2 = 0 then ⌊m⌋ else ⌊m⌋ + 1

/-- The exponent of the unit in the last place of `x` in a binary format with
`t` fraction bits and least normal exponent `emin`. -/
def ulpExp (t : ℕ) (emin : ℤ) (x : α) : ℤ := max (Int.log 2 |x|) emin - (t : ℤ)

/-- Rounding to nearest, ties to even, in a binary floating-point format with
`t` fraction bits (`t + 1` significant bits) and least normal exponent `emin`,
subnormal numbers included.  Overflow to infinity is not modelled. -/
def roundBits (t : ℕ) (emin : ℤ) (x : α) : α :=
  (roundHalfEven (x / 2 ^ ulpExp t emin x) : α) * 2 ^ ulpExp t emin x

/-- Rounding to an IEEE 754 double, the result of every JavaScript arithmetic
operation (while it does not overflow). -/
def toDouble (x : α) : α := roundBits 52 (-1022) x

/-- Rounding to an IEEE 754 single, the conversion applied by a store into a
`Float32Array`. -/
def toFloat32 (x : α) : α := roundBits 23 (-126) x

/-- The JavaScript `a + b` on doubles: the exact sum, rounded. -/
def addD (a b : α) : α := toDouble (a + b)

/-- The JavaScript `a - b` on doubles: the exact difference, rounded. -/
def subD (a b : α) : α := toDouble (a - b)

/-- The JavaScript `a * b` on doubles: the exact product, rounded. -/
def mulD (a b : α) : α := toDouble (a * b)

/-- The JavaScript `a / b` on doubles: the exact quotient, rounded. -/
def divD (a b : α) : α := toDouble (a / b)

/-- A correctly rounded square root, as IEEE 754 specifies it: the double
nearest to the exact square root. -/
def SqrtRounded (sqrt : α → α) : Prop :=
  ∀ x : α, 0 ≤ x → ∃ s : α, 0 ≤ s ∧ s * s = x ∧ sqrt x = toDouble s

/-- The smoothing step as the engine runs it: the table is a `Float32Array`,
so the value read is a single; the subtraction, the product with the rate and
the sum are rounded to doubles, and the store rounds the sum to a single.
The rates are the doubles nearest to the decimal literals. -/
def blendF (target cur : α) : α :=
  let rate : α := if target > cur then toDouble 0.10 else toDouble 0.038
  toFloat32 (toDouble (cur + toDouble (toDouble (target - cur) * rate)))

/-- The method `Particle._newTarget` in double arithmetic. -/
def Particle.newTargetF (W H : α) (r : TargetDraws α) (p : Particle α) : Particle α :=
  { p with
    tx := mulD (mulD (subD r.rx (toDouble 0.5)) W) (toDouble 2.0)
    ty := mulD (mulD (subD r.ry (toDouble 0.5)) H) (toDouble 2.0)
    tz := mulD (mulD (subD r.rz (toDouble 0.5)) (toDouble (CFG : Cfg α).depth)) (toDouble 2.8)
    retarget := addD (toDouble 130) (mulD r.rr (toDouble 220)) }

/-- Step "Wander" of `update` in double arithmetic. -/
def Particle.wanderF (W H : α) (r : TargetDraws α) (p : Particle α) : Particle α :=
  let p1 := { p with retarget := subD p.retarget 1 }
  let p2 := if p1.retarget ≤ 0 then p1.newTargetF W H r else p1
  { p2 with
    vx := addD p2.vx (mulD (subD p2.tx p2.x) (toDouble 0.00007))
    vy := addD p2.vy (mulD (subD p2.ty p2.y) (toDouble 0.00007))
    vz := addD p2.vz (mulD (subD p2.tz p2.z) (toDouble 0.00005)) }

/-- Step "Turbulence" of `update` in double arithmetic. -/
def Particle.turbulenceF (d : UpdateDraws α) (p : Particle α) : Particle α :=
  { p with
    vx := addD p.vx (mulD (subD d.turbX (toDouble 0.5)) (toDouble (CFG : Cfg α).turbulence))
    vy := addD p.vy (mulD (subD d.turbY (toDouble 0.5)) (toDouble (CFG : Cfg α).turbulence))
    vz := addD p.vz
      (mulD (mulD (subD d.turbZ (toDouble 0.5)) (toDouble (CFG : Cfg α).turbulence))
        (toDouble 0.5)) }

/-- Step "Mouse attraction" of `update` in double arithmetic. -/
def Particle.attractF (M : MathLib α) (m : Mouse3D α) (p : Particle α) : Particle α :=
  if m.active then
    let dx := subD m.x p.x
    let dy := subD m.y p.y
    let dz := subD m.z p.z
    let d := M.sqrt (addD (addD (mulD dx dx) (mulD dy dy)) (mulD dz dz))
    if d < toDouble (CFG : Cfg α).mouseRadius ∧ d > 1 then
      let f := mulD (mulD (subD 1 (divD d (toDouble (CFG : Cfg α).mouseRadius)))
        (toDouble (CFG : Cfg α).mouseStrength)) (toDouble 0.013)
      { p with
        vx := addD p.vx (mulD (divD dx d) f)
        vy := addD p.vy (mulD (divD dy d) f)
        vz := addD p.vz (mulD (mulD (divD dz d) f) (toDouble 0.45)) }
    else p
  else p

/-- Step "Drag" of `update` in double arithmetic. -/
def Particle.applyDragF (p : Particle α) : Particle α :=
  { p with
    vx := mulD p.vx (toDouble (CFG : Cfg α).drag)
    vy := mulD p.vy (toDouble (CFG : Cfg α).drag)
    vz := mulD p.vz (toDouble (CFG : Cfg α).drag) }

/-- Step "Speed cap" of `update` in double arithmetic. -/
def Particle.capSpeedF (M : MathLib α) (p : Particle α) : Particle α :=
  let spd := M.sqrt (addD (addD (mulD p.vx p.vx) (mulD p.vy p.vy)) (mulD p.vz p.vz))
  let max := mulD (toDouble (CFG : Cfg α).speed) (toDouble 3.5)
  if spd > max then
    let r := divD max spd
    { p with vx := mulD p.vx r, vy := mulD p.vy r, vz := mulD p.vz r }
  else p

/-- The integration lines of `update` in double arithmetic. -/
def Particle.integrateF (p : Particle α) : Particle α :=
  { p with
    x := addD p.x p.vx
    y := addD p.y p.vy
    z := addD p.z p.vz
    phase := addD p.phase p.pulseSpd }

/-- Step "Wrap" of `update` in double arithmetic (a negation is exact). -/
def Particle.wrapF (W H : α) (p : Particle α) : Particle α :=
  let bx := mulD W (toDouble 1.3)
  let by_ := mulD H (toDouble 1.3)
  let bz := mulD (toDouble (CFG : Cfg α).depth) (toDouble 1.7)
  { p with x := wrapCoord bx p.x, y := wrapCoord by_ p.y, z := wrapCoord bz p.z }

/-- The state of a particle in `update` just before the speed cap, in double
arithmetic: after the steps wander, turbulence, mouse attraction and drag. -/
def Particle.preCapF (M : MathLib α) (W H : α) (m : Mouse3D α) (d : UpdateDraws α)
    (p : Particle α) : Particle α :=
  Particle.applyDragF
    (Particle.attractF M m (Particle.turbulenceF d (Particle.wanderF W H d.target p)))

/-- The method `Particle.update` in double arithmetic: every arithmetic
operation is followed by a rounding to a double, every decimal literal stands
for the double nearest to it, and `M.sqrt` is the engine's `Math.sqrt`. -/
def Particle.updateF (M : MathLib α) (W H : α) (m : Mouse3D α) (d : UpdateDraws α)
    (p : Particle α) : Particle α :=
  Particle.wrapF W H (Particle.integrateF (Particle.capSpeedF M (p.preCapF M W H m d)))

end Rounded

end Model

section Lemmas

variable {α : Type} [LinearOrderedField α]

theorem wrapCoord_mem (b c : α) (hb : 0 ≤ b) : -b ≤ wrapCoord b c ∧ wrapCoord b c ≤ b := by
  unfold wrapCoord
  by_cases h1 : c > b
  · simp only [h1, if_true, lt_self_iff_false, if_false]
    constructor <;> linarith
  · by_cases h2 : c < -b
    · simp only [h1, if_false, h2, if_true]
      constructor <;> linarith
    · simp only [h1, if_false, h2]
      constructor <;> linarith

theorem update_inBox (M : MathLib α) (W H : α) (hW : 0 ≤ W) (hH : 0 ≤ H) (m : Mouse3D α)
    (d : UpdateDraws α) (p : Particle α) : (Particle.update M W H m d p).InBox W H := by
  have hx := wrapCoord_mem (W * 1.3) (Particle.integrate (Particle.capSpeed M
    (Particle.applyDrag (Particle.attract M m (Particle.turbulence d
      (Particle.wander W H d.target p)))))).x (by positivity)
  have hy := wrapCoord_mem (H * 1.3) (Particle.integrate (Particle.capSpeed M
    (Particle.applyDrag (Particle.attract M m (Particle.turbulence d
      (Particle.wander W H d.target p)))))).y (by positivity)
  have hz := wrapCoord_mem ((CFG : Cfg α).depth * 1.7) (Particle.integrate (Particle.capSpeed M
    (Particle.applyDrag (Particle.attract M m (Particle.turbulence d
      (Particle.wander W H d.target p)))))).z (by simp only [CFG]; norm_num)
  simp only [Particle.InBox, Particle.update, Particle.wrap]
  rw [mul_comm (1.3 : α) W, mul_comm (1.3 : α) H, mul_comm (1.7 : α)]
  exact ⟨hx, hy, hz⟩

theorem sqrt_mul_self_of_nonneg (sqrt : α → α) (hs : SqrtExact sqrt) (a : α) (ha : 0 ≤ a) :
    sqrt (a * a) = a := by
  obtain ⟨hr0, hrr⟩ := hs (a * a) (mul_self_nonneg a)
  rcases (mul_self_eq_mul_self_iff.mp hrr) with h1 | h1
  · exact h1
  · have : a = 0 := by linarith
    rw [this] at h1 ⊢
    simpa using h1

theorem capSpeed_le (M : MathLib α) (hs : SqrtExact M.sqrt) (p : Particle α) :
    (Particle.capSpeed M p).speedOf M ≤ (CFG : Cfg α).speed * 3.5 := by
  have hmax : (0 : α) < (CFG : Cfg α).speed * 3.5 := by simp only [CFG]; norm_num
  unfold Particle.capSpeed
  by_cases h : M.sqrt (p.vx * p.vx + p.vy * p.vy + p.vz * p.vz) > (CFG : Cfg α).speed * 3.5
  · simp only [h, if_true, Particle.speedOf]
    set s := p.vx * p.vx + p.vy * p.vy + p.vz * p.vz with hsdef
    set mx := (CFG : Cfg α).speed * 3.5 with hmx
    have hs0 : 0 ≤ s := by
      have h1 := mul_self_nonneg p.vx
      have h2 := mul_self_nonneg p.vy
      have h3 := mul_self_nonneg p.vz
      linarith
    obtain ⟨hq0, hqq⟩ := hs s hs0
    have hqpos : 0 < M.sqrt s := lt_trans hmax h
    have hne : M.sqrt s ≠ 0 := ne_of_gt hqpos
    have harg : p.vx * (mx / M.sqrt s) * (p.vx * (mx / M.sqrt s)) +
        p.vy * (mx / M.sqrt s) * (p.vy * (mx / M.sqrt s)) +
        p.vz * (mx / M.sqrt s) * (p.vz * (mx / M.sqrt s)) = mx * mx := by
      have : p.vx * (mx / M.sqrt s) * (p.vx * (mx / M.sqrt s)) +
          p.vy * (mx / M.sqrt s) * (p.vy * (mx / M.sqrt s)) +
          p.vz * (mx / M.sqrt s) * (p.vz * (mx / M.sqrt s)) =
          s * (mx * mx) / (M.sqrt s * M.sqrt s) := by
        rw [hsdef]; field_simp; ring
      rw [this, hqq]
      have hs1 : s ≠ 0 := by
        rw [← hqq]; exact mul_ne_zero hne hne
      field_simp
    rw [harg]
    exact le_of_eq (sqrt_mul_self_of_nonneg M.sqrt hs mx (le_of_lt hmax))
  · simp only [h, if_false, Particle.speedOf]
    exact le_of_not_gt h

theorem rotateCamera_frame (s : Scene α) :
    (rotateCamera s).W = s.W ∧ (rotateCamera s).H = s.H ∧
      (rotateCamera s).particles = s.particles ∧ (rotateCamera s).frame = s.frame ∧
      (rotateCamera s).lastMouseFrame = s.lastMouseFrame ∧
      (rotateCamera s).count = s.count ∧ (rotateCamera s).connectDist3D = s.connectDist3D ∧
      (rotateCamera s).pairAlpha = s.pairAlpha := by
  unfold rotateCamera
  split <;> simp

theorem draw_W (M : MathLib α) (rnd : ℕ → UpdateDraws α) (s : Scene α) :
    (draw M rnd s).W = s.W ∧ (draw M rnd s).H = s.H := by
  have h := rotateCamera_frame { s with frame := s.frame + 1 }
  simp only [draw, updateMouse3D]
  exact ⟨h.1, h.2.1⟩

theorem draw_particles_inBox (M : MathLib α) (rnd : ℕ → UpdateDraws α) (s : Scene α)
    (hW : 0 ≤ s.W) (hH : 0 ≤ s.H) : ∀ p ∈ (draw M rnd s).particles, p.InBox s.W s.H := by
  have h := rotateCamera_frame { s with frame := s.frame + 1 }
  intro p hp
  simp only [draw, updateMouse3D, List.mem_mapIdx] at hp
  obtain ⟨i, hi, rfl⟩ := hp
  rw [h.1, h.2.1]
  exact update_inBox M s.W s.H hW hH _ _ _

theorem runFrames_inBox (M : MathLib α) (W H : α) (hW : 0 ≤ W) (hH : 0 ≤ H) :
    ∀ (rnds : List (ℕ → UpdateDraws α)) (s : Scene α), s.W = W → s.H = H →
      (rnds ≠ [] ∨ ∀ p ∈ s.particles, p.InBox W H) →
      ∀ p ∈ (runFrames M rnds s).particles, p.InBox W H := by
  intro rnds
  induction rnds with
  | nil =>
    intro s _ _ h
    rcases h with h | h
    · exact absurd rfl h
    · exact h
  | cons rnd rest ih =>
    intro s hsW hsH _
    have hd := draw_W M rnd s
    have hb := draw_particles_inBox M rnd s (hsW ▸ hW) (hsH ▸ hH)
    rw [hsW, hsH] at hb
    exact ih (draw M rnd s) (hd.1.trans hsW) (hd.2.trans hsH) (Or.inr hb)

theorem blend_mem_unit (T V : α) (hT0 : 0 ≤ T) (hT1 : T ≤ 1) (hV0 : 0 ≤ V) (hV1 : V ≤ 1) :
    0 ≤ blend T V ∧ blend T V ≤ 1 := by
  unfold blend
  by_cases h : T > V
  · simp only [h, if_true]
    constructor <;> norm_num <;> linarith
  · simp only [h, if_false]
    constructor <;> norm_num <;> linarith

theorem dist3D_nonneg (M : MathLib α) (hs : SqrtExact M.sqrt) (a b : Particle α) :
    0 ≤ dist3D M a b := by
  unfold dist3D
  refine (hs _ ?_).1
  have h1 := mul_self_nonneg (a.x - b.x)
  have h2 := mul_self_nonneg (a.y - b.y)
  have h3 := mul_self_nonneg (a.z - b.z)
  linarith

theorem targetAlpha_mem_unit (M : MathLib α) (hp : PowUnit M.pow) (cd d : α) (hd : 0 ≤ d) :
    0 ≤ targetAlpha M cd d ∧ targetAlpha M cd d ≤ 1 := by
  unfold targetAlpha
  by_cases h : d < cd
  · simp only [h, if_true]
    have hcd : 0 < cd := lt_of_le_of_lt hd h
    have h1 : 0 ≤ d / cd := div_nonneg hd (le_of_lt hcd)
    have h2 : d / cd ≤ 1 := (div_le_one hcd).mpr (le_of_lt h)
    exact hp (1 - d / cd) 1.8 (by linarith) (by linarith) (by norm_num)
  · simp only [h, if_false]
    exact ⟨le_refl 0, zero_le_one⟩

theorem connectPair_mem_unit (M : MathLib α) (hs : SqrtExact M.sqrt) (hp : PowUnit M.pow)
    (count : ℕ) (cd : α) (ps : List (Particle α)) (pa : List α) (ij : ℕ × ℕ)
    (hpa : ∀ v ∈ pa, 0 ≤ v ∧ v ≤ 1) :
    ∀ v ∈ connectPair M count cd ps pa ij, 0 ≤ v ∧ v ≤ 1 := by
  unfold connectPair
  split
  · rename_i a b _ _
    simp only []
    split
    · rename_i cur hcur
      intro v hv
      rcases List.mem_or_eq_of_mem_set hv with h | h
      · exact hpa v h
      · have hmem : cur ∈ pa := List.getElem?_mem hcur
        have ht := targetAlpha_mem_unit M hp cd (dist3D M a b) (dist3D_nonneg M hs a b)
        rw [h]
        exact blend_mem_unit _ _ ht.1 ht.2 (hpa cur hmem).1 (hpa cur hmem).2
    · exact hpa
  · exact hpa

theorem connectAll_mem_unit (M : MathLib α) (hs : SqrtExact M.sqrt) (hp : PowUnit M.pow)
    (count : ℕ) (cd : α) (ps : List (Particle α)) (order : List ℕ) (pa : List α)
    (hpa : ∀ v ∈ pa, 0 ≤ v ∧ v ≤ 1) :
    ∀ v ∈ connectAll M count cd ps order pa, 0 ≤ v ∧ v ≤ 1 := by
  unfold connectAll
  generalize loopPairs order = pairs
  induction pairs generalizing pa with
  | nil => exact hpa
  | cons ij rest ih =>
    rw [List.foldl_cons]
    exact ih _ (connectPair_mem_unit M hs hp count cd ps pa ij hpa)

theorem draw_pairAlpha_mem_unit (M : MathLib α) (hs : SqrtExact M.sqrt) (hp : PowUnit M.pow)
    (rnd : ℕ → UpdateDraws α) (s : Scene α) (hpa : ∀ v ∈ s.pairAlpha, 0 ≤ v ∧ v ≤ 1) :
    ∀ v ∈ (draw M rnd s).pairAlpha, 0 ≤ v ∧ v ≤ 1 := by
  have h := rotateCamera_frame { s with frame := s.frame + 1 }
  simp only [draw, updateMouse3D]
  apply connectAll_mem_unit M hs hp
  rw [h.2.2.2.2.2.2.2]
  exact hpa

theorem runFrames_pairAlpha_mem_unit (M : MathLib α) (hs : SqrtExact M.sqrt)
    (hp : PowUnit M.pow) (rnds : List (ℕ → UpdateDraws α)) :
    ∀ s : Scene α, (∀ v ∈ s.pairAlpha, 0 ≤ v ∧ v ≤ 1) →
      ∀ v ∈ (runFrames M rnds s).pairAlpha, 0 ≤ v ∧ v ≤ 1 := by
  induction rnds with
  | nil => intro s h; exact h
  | cons rnd rest ih =>
    intro s h
    exact ih (draw M rnd s) (draw_pairAlpha_mem_unit M hs hp rnd s h)

theorem draw_camera (M : MathLib α) (rnd : ℕ → UpdateDraws α) (s : Scene α) :
    (draw M rnd s).frame = s.frame + 1 ∧ (draw M rnd s).lastMouseFrame = s.lastMouseFrame ∧
      (draw M rnd s).rotX = (rotateCamera { s with frame := s.frame + 1 }).rotX ∧
      (draw M rnd s).rotY = (rotateCamera { s with frame := s.frame + 1 }).rotY := by
  have h := rotateCamera_frame { s with frame := s.frame + 1 }
  exact ⟨h.2.2.2.1, h.2.2.2.2.1, rfl, rfl⟩

theorem draw_idle (M : MathLib α) (rnd : ℕ → UpdateDraws α) (s : Scene α)
    (hi : idleTick s = true) :
    (draw M rnd s).rotY = s.rotY + 0.00028 ∧ (draw M rnd s).rotX = s.rotX + 0.00011 := by
  have h := draw_camera M rnd s
  have hc : s.frame + 1 - s.lastMouseFrame > 180 := by simpa [idleTick] using hi
  rw [h.2.2.1, h.2.2.2, rotateCamera, if_pos hc]
  exact ⟨rfl, rfl⟩

theorem runFrames_idle (M : MathLib α) (rnds : List (ℕ → UpdateDraws α)) :
    ∀ s : Scene α, 0 ≤ s.frame → s.lastMouseFrame = -9999 →
      (runFrames M rnds s).frame = s.frame + rnds.length ∧
      (runFrames M rnds s).lastMouseFrame = -9999 ∧
      (runFrames M rnds s).rotY = s.rotY + (rnds.length : α) * 0.00028 ∧
      (runFrames M rnds s).rotX = s.rotX + (rnds.length : α) * 0.00011 := by
  induction rnds with
  | nil => intro s _ h; simp [runFrames, h]
  | cons rnd rest ih =>
    intro s hf hl
    have hi : idleTick s = true := by
      simp only [idleTick, hl, decide_eq_true_eq]; omega
    have hc := draw_camera M rnd s
    have hd := draw_idle M rnd s hi
    have h := ih (draw M rnd s) (by rw [hc.1]; omega) (by rw [hc.2.1]; exact hl)
    have e : runFrames M (rnd :: rest) s = runFrames M rest (draw M rnd s) := rfl
    rw [e, h.1, h.2.1, h.2.2.1, h.2.2.2, hc.1, hd.1, hd.2]
    refine ⟨?_, rfl, ?_, ?_⟩
    · simp only [List.length_cons]; push_cast; ring
    · simp only [List.length_cons]; push_cast; ring
    · simp only [List.length_cons]; push_cast; ring

theorem sqrt_le_of_le_mul_self (sqrt : α → α) (hs : SqrtExact sqrt) (x b : α) (hx : 0 ≤ x)
    (hb : 0 ≤ b) (h : x ≤ b * b) : sqrt x ≤ b := by
  obtain ⟨_, h1⟩ := hs x hx
  by_contra hc
  push_neg at hc
  have h2 : b * b < sqrt x * sqrt x := mul_self_lt_mul_self hb hc
  linarith

theorem capSpeed_of_small (M : MathLib α) (hs : SqrtExact M.sqrt) (p : Particle α)
    (h : p.vx * p.vx + p.vy * p.vy + p.vz * p.vz ≤ 3) : Particle.capSpeed M p = p := by
  have h0 : 0 ≤ p.vx * p.vx + p.vy * p.vy + p.vz * p.vz := by
    have h1 := mul_self_nonneg p.vx
    have h2 := mul_self_nonneg p.vy
    have h3 := mul_self_nonneg p.vz
    linarith
  have hle : M.sqrt (p.vx * p.vx + p.vy * p.vy + p.vz * p.vz) ≤ (CFG : Cfg α).speed * 3.5 := by
    apply sqrt_le_of_le_mul_self M.sqrt hs _ _ h0
    · simp only [CFG]; norm_num
    · simp only [CFG]; norm_num; linarith
  unfold Particle.capSpeed
  simp only []
  rw [if_neg (not_lt.mpr hle)]

theorem attract_at_50 (M : MathLib α) (hs : SqrtExact M.sqrt) (m : Mouse3D α) (p : Particle α)
    (hm : m.active = true)
    (hd : (m.x - p.x) * (m.x - p.x) + (m.y - p.y) * (m.y - p.y) + (m.z - p.z) * (m.z - p.z)
      = 50 * 50) :
    Particle.attract M m p =
      { p with
        vx := p.vx + (m.x - p.x) / 50 * ((1 - 50 / 230) * 2.2 * 0.013)
        vy := p.vy + (m.y - p.y) / 50 * ((1 - 50 / 230) * 2.2 * 0.013)
        vz := p.vz + (m.z - p.z) / 50 * ((1 - 50 / 230) * 2.2 * 0.013) * 0.45 } := by
  have h50 : M.sqrt ((m.x - p.x) * (m.x - p.x) + (m.y - p.y) * (m.y - p.y) +
      (m.z - p.z) * (m.z - p.z)) = 50 := by
    rw [hd]; exact sqrt_mul_self_of_nonneg M.sqrt hs 50 (by norm_num)
  unfold Particle.attract
  rw [if_pos hm]
  simp only [h50]
  rw [if_pos (by simp only [CFG]; norm_num)]
  simp only [CFG]

theorem wander_no_retarget (W H : α) (r : TargetDraws α) (p : Particle α)
    (hret : 1 < p.retarget) :
    Particle.wander W H r p =
      { p with
        retarget := p.retarget - 1
        vx := p.vx + (p.tx - p.x) * 0.00007
        vy := p.vy + (p.ty - p.y) * 0.00007
        vz := p.vz + (p.tz - p.z) * 0.00005 } := by
  unfold Particle.wander
  simp only []
  rw [if_neg (by linarith)]

/-- The velocity after one `update()` of a particle at distance 50 from an
active pointer at the origin, when the wander target is not renewed and the
speed cap is not reached. -/
theorem update_velocity_near_pointer (M : MathLib α) (hs : SqrtExact M.sqrt) (W H : α)
    (m : Mouse3D α) (d : UpdateDraws α) (p : Particle α)
    (hm : m.active = true) (hmx : m.x = 0) (hmy : m.y = 0) (hmz : m.z = 0)
    (hdist : p.x * p.x + p.y * p.y + p.z * p.z = 50 * 50) (hret : 1 < p.retarget)
    (ax ay az : α)
    (hax : ax = (p.vx + (p.tx - p.x) * 0.00007 + (d.turbX - 0.5) * 0.016 +
      (0 - p.x) / 50 * ((1 - 50 / 230) * 2.2 * 0.013)) * 0.965)
    (hay : ay = (p.vy + (p.ty - p.y) * 0.00007 + (d.turbY - 0.5) * 0.016 +
      (0 - p.y) / 50 * ((1 - 50 / 230) * 2.2 * 0.013)) * 0.965)
    (haz : az = (p.vz + (p.tz - p.z) * 0.00005 + (d.turbZ - 0.5) * 0.016 * 0.5 +
      (0 - p.z) / 50 * ((1 - 50 / 230) * 2.2 * 0.013) * 0.45) * 0.965)
    (hsmall : ax * ax + ay * ay + az * az ≤ 3) :
    (p.update M W H m d).vx = ax ∧ (p.update M W H m d).vy = ay ∧
      (p.update M W H m d).vz = az := by
  have hd : (m.x - (Particle.turbulence d (Particle.wander W H d.target p)).x) *
      (m.x - (Particle.turbulence d (Particle.wander W H d.target p)).x) +
      (m.y - (Particle.turbulence d (Particle.wander W H d.target p)).y) *
      (m.y - (Particle.turbulence d (Particle.wander W H d.target p)).y) +
      (m.z - (Particle.turbulence d (Particle.wander W H d.target p)).z) *
      (m.z - (Particle.turbulence d (Particle.wander W H d.target p)).z) = 50 * 50 := by
    rw [wander_no_retarget W H d.target p hret, hmx, hmy, hmz]
    simp only [Particle.turbulence]
    linear_combination hdist
  have hvx : (Particle.applyDrag (Particle.attract M m
      (Particle.turbulence d (Particle.wander W H d.target p)))).vx = ax := by
    rw [attract_at_50 M hs m _ hm hd, wander_no_retarget W H d.target p hret, hmx, hax]
    simp only [Particle.applyDrag, Particle.turbulence, CFG]
  have hvy : (Particle.applyDrag (Particle.attract M m
      (Particle.turbulence d (Particle.wander W H d.target p)))).vy = ay := by
    rw [attract_at_50 M hs m _ hm hd, wander_no_retarget W H d.target p hret, hmy, hay]
    simp only [Particle.applyDrag, Particle.turbulence, CFG]
  have hvz : (Particle.applyDrag (Particle.attract M m
      (Particle.turbulence d (Particle.wander W H d.target p)))).vz = az := by
    rw [attract_at_50 M hs m _ hm hd, wander_no_retarget W H d.target p hret, hmz, haz]
    simp only [Particle.applyDrag, Particle.turbulence, CFG]
  have hcap := capSpeed_of_small M hs (Particle.applyDrag (Particle.attract M m
      (Particle.turbulence d (Particle.wander W H d.target p)))) (by rw [hvx, hvy, hvz]; exact hsmall)
  simp only [Particle.update, Particle.wrap, Particle.integrate, hcap]
  exact ⟨hvx, hvy, hvz⟩

/-- The draw order is ascending in `fz`: an index drawn earlier has the
smaller (or equal) post-rotation depth. -/
theorem drawOrder_fz_ascending (PJ : List (Projection α)) (i j a b : ℕ) (hij : i < j)
    (ha : (drawOrder PJ)[i]? = some a) (hb : (drawOrder PJ)[j]? = some b) :
    fzAt PJ a ≤ fzAt PJ b := by
  have hsorted : (drawOrder PJ).Sorted (fzLE PJ) := List.sorted_insertionSort (fzLE PJ) _
  obtain ⟨hi, rfl⟩ := List.getElem?_eq_some.mp ha
  obtain ⟨hj, rfl⟩ := List.getElem?_eq_some.mp hb
  exact (List.pairwise_iff_getElem.mp hsorted) i j hi hj hij

/-- The draw order holds every particle index exactly once. -/
theorem drawOrder_perm (PJ : List (Projection α)) :
    (drawOrder PJ).Perm (List.range PJ.length) :=
  List.perm_insertionSort (fzLE PJ) _

/-- The scale returned by `project` as a function of the returned `fz`. -/
theorem project_scale (M : MathLib α) (s : Scene α) (p : Particle α) :
    (p.project M s).scale =
      if (CFG : Cfg α).fov * s.zoom + (p.project M s).fz + (CFG : Cfg α).depth > 1 then
        (CFG : Cfg α).fov * s.zoom /
          ((CFG : Cfg α).fov * s.zoom + (p.project M s).fz + (CFG : Cfg α).depth)
      else 0.001 := rfl

/-- Orbs are painted front to back: when index `a` comes before index `b` in
the draw order and both perspective denominators exceed 1 (zoom not negative),
the projected scale of `a` is at least that of `b`. -/
theorem drawOrder_scale_descending (M : MathLib α) (s : Scene α) (ps : List (Particle α))
    (hzoom : 0 ≤ s.zoom) (i j a b : ℕ) (pa pb : Particle α) (hij : i < j)
    (ha : (drawOrder (ps.map (Particle.project M s)))[i]? = some a)
    (hb : (drawOrder (ps.map (Particle.project M s)))[j]? = some b)
    (hpa : ps[a]? = some pa) (hpb : ps[b]? = some pb)
    (hda : (CFG : Cfg α).fov * s.zoom + (pa.project M s).fz + (CFG : Cfg α).depth > 1)
    (hdb : (CFG : Cfg α).fov * s.zoom + (pb.project M s).fz + (CFG : Cfg α).depth > 1) :
    (pb.project M s).scale ≤ (pa.project M s).scale := by
  have h := drawOrder_fz_ascending (ps.map (Particle.project M s)) i j a b hij ha hb
  have e1 : fzAt (ps.map (Particle.project M s)) a = (pa.project M s).fz := by
    simp [fzAt, List.getElem?_map, hpa]
  have e2 : fzAt (ps.map (Particle.project M s)) b = (pb.project M s).fz := by
    simp [fzAt, List.getElem?_map, hpb]
  rw [e1, e2] at h
  rw [project_scale M s pa, project_scale M s pb, if_pos hda, if_pos hdb]
  have hfov : 0 ≤ (CFG : Cfg α).fov * s.zoom := by
    simp only [CFG]; positivity
  apply div_le_div_of_nonneg_left hfov (by linarith) (by linarith)

/-- With `cos 0 = 1`, `sin 0 = 0` and both rotation angles zero, `project`
leaves the coordinates unrotated. -/
theorem project_flat (M : MathLib α) (hcos : M.cos 0 = 1) (hsin : M.sin 0 = 0) (s : Scene α)
    (p : Particle α) (hX : s.rotX = 0) (hY : s.rotY = 0) :
    (p.project M s).fz = p.z ∧
      (p.project M s).sx = s.cx + p.x * (p.project M s).scale ∧
      (p.project M s).sy = s.cy + p.y * (p.project M s).scale := by
  simp only [Particle.project, hX, hY, hcos, hsin]
  refine ⟨by ring, ?_, ?_⟩
  · congr 1; congr 1; ring
  · congr 1; congr 1; ring

/-- `project` is the perspective divide applied to the rotated coordinates. -/
theorem project_eq_rotated (M : MathLib α) (s : Scene α) (p : Particle α) :
    (p.project M s).fz = (p.rotated M s).2.2 ∧
      (p.project M s).sx = s.cx + (p.rotated M s).1 * (p.project M s).scale ∧
      (p.project M s).sy = s.cy + (p.rotated M s).2.1 * (p.project M s).scale :=
  ⟨rfl, rfl, rfl⟩

/-- The forward rotation of `project` undoes `updateMouse3D`. -/
theorem rotated_updateMouse3D (M : MathLib α) (ht : TrigExact M.cos M.sin) (s : Scene α)
    (p : Particle α) (hx : p.x = (updateMouse3D M s).mouse3D.x)
    (hy : p.y = (updateMouse3D M s).mouse3D.y) (hz : p.z = (updateMouse3D M s).mouse3D.z) :
    p.rotated M s = (s.mouseSCRx - s.cx, s.mouseSCRy - s.cy, 0) := by
  obtain ⟨hc, hsn, h1⟩ := ht
  have hX := h1 s.rotX
  have hY := h1 s.rotY
  simp only [updateMouse3D, hc, hsn] at hx hy hz
  simp only [Particle.rotated, hx, hy, hz, Prod.mk.injEq]
  refine ⟨?_, ?_, ?_⟩
  · linear_combination (s.mouseSCRx - s.cx) * hY
  · linear_combination (s.mouseSCRy - s.cy) * hX +
      (s.mouseSCRy - s.cy) * (M.sin s.rotX * M.sin s.rotX) * hY
  · linear_combination -((s.mouseSCRy - s.cy) * M.cos s.rotX * M.sin s.rotX) * hY

theorem wheel_zoom_range (deltaY : α) (s : Scene α) :
    0.4 ≤ (onWheel deltaY s).zoom ∧ (onWheel deltaY s).zoom ≤ 2.2 := by
  simp only [onWheel]
  constructor
  · exact le_max_left _ _
  · exact max_le (by norm_num) (min_le_left _ _)

/-- The touch handler bursts around the `mouse3D` it finds: the new `mouseSCR`
does not enter the burst. -/
theorem onTouchStart_centre (M : MathLib α) (clientX clientY : α) (s : Scene α) :
    (onTouchStart M clientX clientY s).particles = s.particles.map (repelOne M s.mouse3D) ∧
      (onTouchStart M clientX clientY s).mouse3D = s.mouse3D :=
  ⟨rfl, rfl⟩

/-- The burst impulse on a particle at distance `r` (`1 < r < 340`) from the centre. -/
theorem repelOne_at (M : MathLib α) (hs : SqrtExact M.sqrt) (m : Mouse3D α) (p : Particle α)
    (r : α) (hr1 : 1 < r) (hr2 : r < 340)
    (hd : (p.x - m.x) * (p.x - m.x) + (p.y - m.y) * (p.y - m.y) + (p.z - m.z) * (p.z - m.z)
      = r * r) :
    repelOne M m p =
      { p with
        vx := p.vx + (p.x - m.x) / r * ((1 - r / 340) * 16)
        vy := p.vy + (p.y - m.y) / r * ((1 - r / 340) * 16)
        vz := p.vz + (p.z - m.z) / r * ((1 - r / 340) * 16) * 0.55 } := by
  have hrr : M.sqrt ((p.x - m.x) * (p.x - m.x) + (p.y - m.y) * (p.y - m.y) +
      (p.z - m.z) * (p.z - m.z)) = r := by
    rw [hd]; exact sqrt_mul_self_of_nonneg M.sqrt hs r (by linarith)
  unfold repelOne
  simp only [hrr]
  rw [if_pos (by simp only [CFG]; exact ⟨hr2, hr1⟩)]
  simp only [CFG]

/-- Powers of two are positive. -/
theorem two_zpow_pos (q : ℤ) : (0 : α) < 2 ^ q := zpow_pos (by norm_num) q

/-- A power of two with a difference as exponent. -/
theorem two_zpow_sub (a b : ℤ) : (2 : α) ^ (a - b) = 2 ^ a * 2 ^ (-b) := by
  rw [← zpow_add₀ (by norm_num : (2 : α) ≠ 0)]
  congr 1

/-- Half of a power of two. -/
theorem two_zpow_half (q : ℤ) : (2 : α) ^ q / 2 = 2 ^ (q - 1) := by
  rw [zpow_sub_one₀ (by norm_num : (2 : α) ≠ 0), div_eq_mul_inv]

/-- The powers of two that size the error of a store into the table. -/
theorem two_zpow_facts :
    (2 : α) ^ (-144 : ℤ) = 64 * 2 ^ (-150 : ℤ) ∧ (2 : α) ^ (-149 : ℤ) = 2 * 2 ^ (-150 : ℤ) ∧
      (2 : α) ^ (-1075 : ℤ) ≤ 2 ^ (-150 : ℤ) / 1024 := by
  refine ⟨?_, ?_, ?_⟩
  · rw [show (-144 : ℤ) = 6 + (-150) by norm_num, zpow_add₀ (by norm_num : (2 : α) ≠ 0)]
    norm_num
  · rw [show (-149 : ℤ) = 1 + (-150) by norm_num, zpow_add₀ (by norm_num : (2 : α) ≠ 0)]
    norm_num
  · have h1 : (2 : α) ^ (-1075 : ℤ) ≤ 2 ^ (-160 : ℤ) :=
      zpow_le_zpow_right₀ (by norm_num) (by norm_num)
    have h2 : (2 : α) ^ (-160 : ℤ) = 2 ^ (-150 : ℤ) / 1024 := by
      rw [show (-160 : ℤ) = (-150) + (-10) by norm_num, zpow_add₀ (by norm_num : (2 : α) ≠ 0)]
      norm_num
    rw [← h2]; exact h1

/-- Numeric facts about the least subnormal step of a double. -/
theorem eta_facts : (0 : α) < 2 ^ (-1075 : ℤ) ∧ (2 : α) ^ (-1075 : ℤ) ≤ 1 / 2 ^ 200 ∧
    (2 : α) ^ (-1075 : ℤ) * 2 ^ 502 ≤ 1 / 2 ^ 200 := by
  refine ⟨two_zpow_pos _, ?_, ?_⟩
  · have h1 : (2 : α) ^ (-1075 : ℤ) ≤ 2 ^ (-200 : ℤ) :=
      zpow_le_zpow_right₀ (by norm_num) (by norm_num)
    have h2 : (2 : α) ^ (-200 : ℤ) = 1 / 2 ^ 200 := by
      rw [zpow_neg, one_div]; norm_cast
    rw [← h2]; exact h1
  · have h1 : (2 : α) ^ (-1075 : ℤ) * 2 ^ 502 = 2 ^ (-573 : ℤ) := by
      rw [← zpow_natCast (2 : α) 502, ← zpow_add₀ (by norm_num : (2 : α) ≠ 0)]
      norm_num
    have h2 : (2 : α) ^ (-573 : ℤ) ≤ 2 ^ (-200 : ℤ) :=
      zpow_le_zpow_right₀ (by norm_num) (by norm_num)
    have h3 : (2 : α) ^ (-200 : ℤ) = 1 / 2 ^ 200 := by
      rw [zpow_neg, one_div]; norm_cast
    rw [h1, ← h3]; exact h2

/-- The square of a rounded product against the square of the exact one. -/
theorem sq_rounded (v z η : α) (hη0 : 0 ≤ η) (hη1 : η ≤ 1) (hz : |z| ≤ 2)
    (h : |v - z| ≤ |z| / 2 ^ 53 + η) :
    v * v ≤ (1 + 1 / 2 ^ 53) * (1 + 1 / 2 ^ 53) * (z * z) + 6 * η := by
  have hz0 : 0 ≤ |z| := abs_nonneg z
  have h1 : |v| ≤ |z| * (1 + 1 / 2 ^ 53) + η := by
    have := abs_sub_abs_le_abs_sub v z
    linarith
  have h2 : |v| * |v| ≤ (|z| * (1 + 1 / 2 ^ 53) + η) * (|z| * (1 + 1 / 2 ^ 53) + η) :=
    mul_self_le_mul_self (abs_nonneg v) h1
  rw [abs_mul_abs_self] at h2
  have h3 : |z| * η ≤ 2 * η := mul_le_mul_of_nonneg_right hz hη0
  have h4 : η * η ≤ 1 * η := mul_le_mul_of_nonneg_right hη1 hη0
  have h5 : (|z| * (1 + 1 / 2 ^ 53) + η) * (|z| * (1 + 1 / 2 ^ 53) + η) =
      (1 + 1 / 2 ^ 53) * (1 + 1 / 2 ^ 53) * (|z| * |z|) + 2 * (1 + 1 / 2 ^ 53) * (|z| * η) +
        η * η := by ring
  rw [h5, abs_mul_abs_self] at h2
  have h6 : 2 * (1 + 1 / 2 ^ 53) * (|z| * η) ≤ 2 * (1 + 1 / 2 ^ 53) * (2 * η) :=
    mul_le_mul_of_nonneg_left h3 (by norm_num)
  have h7 : 2 * (1 + 1 / 2 ^ 53) * (2 * η) ≤ 5 * η := by
    have : (2 : α) * (1 + 1 / 2 ^ 53) * 2 ≤ 5 := by norm_num
    have := mul_le_mul_of_nonneg_right this hη0
    linarith
  linarith

/-- A number whose square is at most `P ≤ 4` has magnitude at most 2. -/
theorem abs_le_two_of_sq (z P : α) (h : z * z ≤ P) (hP : P ≤ 4) : |z| ≤ 2 := by
  have h1 : z * z ≤ 2 * 2 := by linarith only [h, hP]
  have h2 := abs_le_iff_mul_self_le.mpr h1
  rwa [abs_of_pos (by norm_num : (0 : α) < 2)] at h2

/-- Scaling by `r` with `r * s ≤ K` turns a sum of squares of at most
`k * s² + 10 η` into one of at most `k * K² + 11 η`. -/
theorem scaled_sumsq (a b e r s spd k K c η : α) (hη0 : 0 ≤ η) (hk : 0 ≤ k) (hc : 0 ≤ c)
    (hs0 : 0 ≤ s) (hr0 : 0 ≤ r) (hspd : 1.75 < spd)
    (hN : a * a + b * b + e * e ≤ k * (s * s) + 10 * η)
    (hsle : s ≤ spd * c) (hrs : r * spd ≤ 1.75 * c) (hK : 1.75 * c * c = K)
    (hc1 : 1.75 * c ≤ 1.76) :
    (a * r) * (a * r) + (b * r) * (b * r) + (e * r) * (e * r) ≤ k * (K * K) + 11 * η := by
  have hr1 : r * 1.75 ≤ r * spd := mul_le_mul_of_nonneg_left (le_of_lt hspd) hr0
  have hr2 : r ≤ 1.02 := by linarith only [hr1, hrs, hc1]
  have hrr : r * r ≤ 1.05 := by
    have h1 := mul_self_le_mul_self hr0 hr2
    have e2 : (1.02 : α) * 1.02 ≤ 1.05 := by norm_num
    linarith only [h1, e2]
  have ht0 : 0 ≤ r * s := mul_nonneg hr0 hs0
  have ht1 : r * s ≤ r * (spd * c) := mul_le_mul_of_nonneg_left hsle hr0
  have ht2 : r * spd * c ≤ 1.75 * c * c := mul_le_mul_of_nonneg_right hrs hc
  have ht : r * s ≤ K := by
    have e3 : r * (spd * c) = r * spd * c := by ring
    linarith only [ht1, ht2, e3, hK]
  have htt := mul_self_le_mul_self ht0 ht
  have hP1 : r * r * (a * a + b * b + e * e) ≤ r * r * (k * (s * s) + 10 * η) :=
    mul_le_mul_of_nonneg_left hN (mul_self_nonneg r)
  have hP2 : r * r * (k * (s * s) + 10 * η) = k * (r * s * (r * s)) + 10 * (r * r * η) := by
    ring
  have hP3 : r * r * η ≤ 1.05 * η := mul_le_mul_of_nonneg_right hrr hη0
  have hK2 : k * (r * s * (r * s)) ≤ k * (K * K) := mul_le_mul_of_nonneg_left htt hk
  have e4 : (a * r) * (a * r) + (b * r) * (b * r) + (e * r) * (e * r) =
      r * r * (a * a + b * b + e * e) := by ring
  rw [e4]
  linarith only [hP1, hP2, hP3, hK2, hη0]

/-- Three rounded products against their exact values, in squares. -/
theorem rounded_sumsq (za zb ze va vb ve Z η : α) (hη0 : 0 ≤ η) (hη1 : η ≤ 1)
    (hZ : za * za + zb * zb + ze * ze ≤ Z) (hZ4 : Z ≤ 4)
    (ha : |va - za| ≤ |za| / 2 ^ 53 + η) (hb : |vb - zb| ≤ |zb| / 2 ^ 53 + η)
    (he : |ve - ze| ≤ |ze| / 2 ^ 53 + η) :
    va * va + vb * vb + ve * ve ≤ (1 + 1 / 2 ^ 53) * (1 + 1 / 2 ^ 53) * Z + 18 * η := by
  have pa := mul_self_nonneg za
  have pb := mul_self_nonneg zb
  have pe := mul_self_nonneg ze
  have qa := sq_rounded va za η hη0 hη1
    (abs_le_two_of_sq _ _ (by linarith only [hZ, pb, pe]) hZ4) ha
  have qb := sq_rounded vb zb η hη0 hη1
    (abs_le_two_of_sq _ _ (by linarith only [hZ, pa, pe]) hZ4) hb
  have qe := sq_rounded ve ze η hη0 hη1
    (abs_le_two_of_sq _ _ (by linarith only [hZ, pa, pb]) hZ4) he
  have hsum : (1 + 1 / 2 ^ 53) * (1 + 1 / 2 ^ 53) * (za * za + zb * zb + ze * ze) ≤
      (1 + 1 / 2 ^ 53) * (1 + 1 / 2 ^ 53) * Z :=
    mul_le_mul_of_nonneg_left hZ (by norm_num)
  have e : (1 + 1 / 2 ^ 53) * (1 + 1 / 2 ^ 53) * (za * za + zb * zb + ze * ze) =
      (1 + 1 / 2 ^ 53) * (1 + 1 / 2 ^ 53) * (za * za) +
      (1 + 1 / 2 ^ 53) * (1 + 1 / 2 ^ 53) * (zb * zb) +
      (1 + 1 / 2 ^ 53) * (1 + 1 / 2 ^ 53) * (ze * ze) := by ring
  linarith only [qa, qb, qe, hsum, e]

/-- The numbers of the bound. -/
theorem cap_numbers (η : α) (hη0 : 0 ≤ η) (hη1 : η ≤ 1 / 2 ^ 200) :
    (1 + 1 / 2 ^ 53) * (1 + 1 / 2 ^ 53) *
        ((1 + 301 / 100 / 2 ^ 53) *
          (1.75 * (1 + 101 / 100 / 2 ^ 53) * (1 + 101 / 100 / 2 ^ 53) *
           (1.75 * (1 + 101 / 100 / 2 ^ 53) * (1 + 101 / 100 / 2 ^ 53))) + 11 * η) +
        18 * η ≤ ((1.75 : α) * (1 + 1 / 2 ^ 50)) ^ 2 ∧
      (1 + 301 / 100 / 2 ^ 53) *
          (1.75 * (1 + 101 / 100 / 2 ^ 53) * (1 + 101 / 100 / 2 ^ 53) *
           (1.75 * (1 + 101 / 100 / 2 ^ 53) * (1 + 101 / 100 / 2 ^ 53))) + 11 * η ≤ 4 := by
  have h1 : (1 + 1 / 2 ^ 53) * (1 + 1 / 2 ^ 53) *
        ((1 + 301 / 100 / 2 ^ 53) *
          (1.75 * (1 + 101 / 100 / 2 ^ 53) * (1 + 101 / 100 / 2 ^ 53) *
           (1.75 * (1 + 101 / 100 / 2 ^ 53) * (1 + 101 / 100 / 2 ^ 53)))) +
        30 * (1 / 2 ^ 200) ≤ ((1.75 : α) * (1 + 1 / 2 ^ 50)) ^ 2 := by norm_num
  have h2 : (1 + 301 / 100 / 2 ^ 53) *
          (1.75 * (1 + 101 / 100 / 2 ^ 53) * (1 + 101 / 100 / 2 ^ 53) *
           (1.75 * (1 + 101 / 100 / 2 ^ 53) * (1 + 101 / 100 / 2 ^ 53))) +
             11 * (1 / 2 ^ 200) ≤ (4 : α) := by norm_num
  have h3 : (1 + 1 / 2 ^ 53) * (1 + 1 / 2 ^ 53) * (11 * η) ≤ 12 * η := by
    have h4 : ((1 : α) + 1 / 2 ^ 53) * (1 + 1 / 2 ^ 53) * 11 ≤ 12 := by norm_num
    have h5 := mul_le_mul_of_nonneg_right h4 hη0
    linarith only [h5]
  constructor
  · rw [mul_add]
    linarith only [h1, h3, hη1]
  · linarith only [h2, hη1]

/-- The numbers of the bound when the cap does not fire. -/
theorem uncapped_numbers (η : α) (hη1 : η ≤ 1 / 2 ^ 200) :
    (1 + 301 / 100 / 2 ^ 53) *
        (1.75 * (1 + 101 / 100 / 2 ^ 53) * (1.75 * (1 + 101 / 100 / 2 ^ 53))) + 10 * η ≤
      ((1.75 : α) * (1 + 1 / 2 ^ 50)) ^ 2 := by
  have h1 : (1 + 301 / 100 / 2 ^ 53) *
        (1.75 * (1 + 101 / 100 / 2 ^ 53) * (1.75 * (1 + 101 / 100 / 2 ^ 53))) +
          10 * (1 / 2 ^ 200) ≤ ((1.75 : α) * (1 + 1 / 2 ^ 50)) ^ 2 := by norm_num
  linarith only [h1, hη1]

/-- The numbers that bound the computed speed when every velocity component has
magnitude at most `2^500`. -/
theorem range_numbers (η : α) (hη1 : η ≤ 1 / 2 ^ 200) :
    (1 + 301 / 100 / 2 ^ 53) * (2 ^ 500 * 2 ^ 500 + 2 ^ 500 * 2 ^ 500 + 2 ^ 500 * 2 ^ 500) +
        10 * η ≤ (2 : α) ^ 501 * 2 ^ 501 ∧
      (2 : α) ^ 501 + 2 ^ 501 / 2 ^ 53 + η ≤ 2 ^ 502 := by
  have h1 : (1 + 301 / 100 / 2 ^ 53) *
      (2 ^ 500 * 2 ^ 500 + 2 ^ 500 * 2 ^ 500 + 2 ^ 500 * 2 ^ 500) + 10 * (1 / 2 ^ 200) ≤
      (2 : α) ^ 501 * 2 ^ 501 := by norm_num
  have h2 : (2 : α) ^ 501 + 2 ^ 501 / 2 ^ 53 + 1 / 2 ^ 200 ≤ 2 ^ 502 := by norm_num
  constructor
  · linarith only [h1, hη1]
  · linarith only [h2, hη1]

/-- A draw in `[0, 1]` has magnitude at most 1. -/
theorem abs_le_one_of_unit (r : α) (h : 0 ≤ r ∧ r ≤ 1) : |r| ≤ 1 :=
  abs_le.mpr ⟨by linarith only [h.1], h.2⟩

/-- The speed cap multiplies every velocity component by `capFactor`. -/
theorem capSpeed_eq_capFactor (M : MathLib α) (p : Particle α) :
    (Particle.capSpeed M p).vx = p.vx * Particle.capFactor M p ∧
      (Particle.capSpeed M p).vy = p.vy * Particle.capFactor M p ∧
      (Particle.capSpeed M p).vz = p.vz * Particle.capFactor M p := by
  unfold Particle.capSpeed Particle.capFactor
  by_cases h : M.sqrt (p.vx * p.vx + p.vy * p.vy + p.vz * p.vz) > (CFG : Cfg α).speed * 3.5
  · simp only [h, if_true, and_self]
  · simp only [h, if_false, mul_one, and_self]

/-- The factor of the speed cap lies in `(0, 1]`. -/
theorem capFactor_mem (M : MathLib α) (p : Particle α) :
    0 < Particle.capFactor M p ∧ Particle.capFactor M p ≤ 1 := by
  have hmax : (0 : α) < (CFG : Cfg α).speed * 3.5 := by simp only [CFG]; norm_num
  unfold Particle.capFactor
  by_cases h : M.sqrt (p.vx * p.vx + p.vy * p.vy + p.vz * p.vz) > (CFG : Cfg α).speed * 3.5
  · simp only [h, if_true]
    have hpos : 0 < M.sqrt (p.vx * p.vx + p.vy * p.vy + p.vz * p.vz) := lt_trans hmax h
    exact ⟨div_pos hmax hpos, (div_le_one hpos).mpr (le_of_lt h)⟩
  · simp only [h, if_false]
    exact ⟨one_pos, le_refl 1⟩

/-- The wander and turbulence steps leave the position alone. -/
theorem wander_turbulence_position (W H : α) (d : UpdateDraws α) (p : Particle α) :
    (Particle.turbulence d (Particle.wander W H d.target p)).x = p.x ∧
      (Particle.turbulence d (Particle.wander W H d.target p)).y = p.y ∧
      (Particle.turbulence d (Particle.wander W H d.target p)).z = p.z := by
  unfold Particle.turbulence Particle.wander
  by_cases h : p.retarget - 1 ≤ 0
  · simp only [h, if_true, Particle.newTarget, and_self]
  · simp only [h, if_false, and_self]

/-- The velocity after `update` is the velocity before the cap times the factor
of the cap. -/
theorem update_velocity (M : MathLib α) (W H : α) (m : Mouse3D α) (d : UpdateDraws α)
    (p : Particle α) :
    (p.update M W H m d).vx = (p.preCap M W H m d).vx * Particle.capFactor M (p.preCap M W H m d) ∧
      (p.update M W H m d).vy =
        (p.preCap M W H m d).vy * Particle.capFactor M (p.preCap M W H m d) ∧
      (p.update M W H m d).vz =
        (p.preCap M W H m d).vz * Particle.capFactor M (p.preCap M W H m d) := by
  obtain ⟨h1, h2, h3⟩ := capSpeed_eq_capFactor M (p.preCap M W H m d)
  simp only [Particle.update, Particle.wrap, Particle.integrate]
  exact ⟨h1, h2, h3⟩

/-- The velocity before the speed cap of a particle at distance 50 from an
active pointer at the origin. -/
theorem preCap_at_50 (M : MathLib α) (hs : SqrtExact M.sqrt) (W H : α)
    (m : Mouse3D α) (d : UpdateDraws α) (p : Particle α)
    (hm : m.active = true) (hmx : m.x = 0) (hmy : m.y = 0) (hmz : m.z = 0)
    (hdist : p.x * p.x + p.y * p.y + p.z * p.z = 50 * 50) :
    (p.preCap M W H m d).vx =
        ((Particle.turbulence d (Particle.wander W H d.target p)).vx +
          (0 - p.x) / 50 * ((1 - 50 / 230) * 2.2 * 0.013)) * 0.965 ∧
      (p.preCap M W H m d).vy =
        ((Particle.turbulence d (Particle.wander W H d.target p)).vy +
          (0 - p.y) / 50 * ((1 - 50 / 230) * 2.2 * 0.013)) * 0.965 ∧
      (p.preCap M W H m d).vz =
        ((Particle.turbulence d (Particle.wander W H d.target p)).vz +
          (0 - p.z) / 50 * ((1 - 50 / 230) * 2.2 * 0.013) * 0.45) * 0.965 := by
  obtain ⟨px, py, pz⟩ := wander_turbulence_position W H d p
  have hd : (m.x - (Particle.turbulence d (Particle.wander W H d.target p)).x) *
      (m.x - (Particle.turbulence d (Particle.wander W H d.target p)).x) +
      (m.y - (Particle.turbulence d (Particle.wander W H d.target p)).y) *
      (m.y - (Particle.turbulence d (Particle.wander W H d.target p)).y) +
      (m.z - (Particle.turbulence d (Particle.wander W H d.target p)).z) *
      (m.z - (Particle.turbulence d (Particle.wander W H d.target p)).z) = 50 * 50 := by
    rw [px, py, pz, hmx, hmy, hmz]
    linear_combination hdist
  unfold Particle.preCap
  rw [attract_at_50 M hs m _ hm hd, px, py, pz, hmx, hmy, hmz]
  simp only [Particle.applyDrag, CFG, and_self]

/-- At distance 50 the attraction's own component toward the origin lies between
`0.45 f` and `f`, where `f = (1 - 50/230) * 2.2 * 0.013`. -/
theorem pullTowardOrigin_mem (p : Particle α)
    (hdist : p.x * p.x + p.y * p.y + p.z * p.z = 50 * 50) :
    0.45 * ((1 - 50 / 230) * 2.2 * 0.013) ≤ pullTowardOrigin p ∧
      pullTowardOrigin p ≤ (1 - 50 / 230) * 2.2 * 0.013 := by
  have hxx := mul_self_nonneg p.x
  have hyy := mul_self_nonneg p.y
  have hzz := mul_self_nonneg p.z
  unfold pullTowardOrigin
  constructor
  · rw [le_div_iff₀ (by norm_num)]
    linarith only [hdist, hxx, hyy, hzz]
  · rw [div_le_iff₀ (by norm_num)]
    linarith only [hdist, hxx, hyy, hzz]

/-- The velocity gained toward the origin in one `update()` by a particle at
distance 50 from an active pointer at the origin. -/
theorem gain_formula (M : MathLib α) (hs : SqrtExact M.sqrt) (W H : α)
    (m : Mouse3D α) (d : UpdateDraws α) (p : Particle α)
    (hm : m.active = true) (hmx : m.x = 0) (hmy : m.y = 0) (hmz : m.z = 0)
    (hdist : p.x * p.x + p.y * p.y + p.z * p.z = 50 * 50) :
    gainTowardOrigin p (p.update M W H m d) =
      Particle.capFactor M (p.preCap M W H m d) * 0.965 *
        (towardOrigin p (Particle.turbulence d (Particle.wander W H d.target p)) +
          pullTowardOrigin p) - towardOrigin p p := by
  obtain ⟨ux, uy, uz⟩ := update_velocity M W H m d p
  obtain ⟨cx, cy, cz⟩ := preCap_at_50 M hs W H m d p hm hmx hmy hmz hdist
  unfold gainTowardOrigin towardOrigin pullTowardOrigin
  rw [ux, uy, uz, cx, cy, cz]
  ring

section ConfigLemmas

variable [FloorRing α]

theorem setTier_count (w : α) (s : Scene α) :
    (setTier w s).count =
      if w < 768 then Int.toNat ⌊((CFG : Cfg α).baseCount : α) * 0.4⌋
      else if w < 1200 then Int.toNat ⌊((CFG : Cfg α).baseCount : α) * 0.7⌋
      else (CFG : Cfg α).baseCount := by
  unfold setTier
  split_ifs <;> rfl

theorem setTier_connectDist3D (w : α) (s : Scene α) :
    (setTier w s).connectDist3D =
      if w < 768 then ((⌊(CFG : Cfg α).baseConnectDist3D * 0.6⌋ : ℤ) : α)
      else if w < 1200 then ((⌊(CFG : Cfg α).baseConnectDist3D * 0.8⌋ : ℤ) : α)
      else (CFG : Cfg α).baseConnectDist3D := by
  unfold setTier
  split_ifs <;> rfl

theorem setTier_rest (w : α) (s : Scene α) :
    (setTier w s).particles = s.particles ∧ (setTier w s).pairAlpha = s.pairAlpha := by
  unfold setTier
  split_ifs <;> exact ⟨rfl, rfl⟩

theorem adjustConfig_count (w pi : α) (seeds : ℕ → ParticleSeed α) (s : Scene α) :
    (adjustConfig w pi seeds s).count = (setTier w s).count := by
  unfold adjustConfig
  simp only []
  split_ifs <;> rfl

theorem adjustConfig_connectDist3D (w pi : α) (seeds : ℕ → ParticleSeed α) (s : Scene α) :
    (adjustConfig w pi seeds s).connectDist3D = (setTier w s).connectDist3D := by
  unfold adjustConfig
  simp only []
  split_ifs <;> rfl

theorem jsRem1_of_nonneg (x : α) (hx : 0 ≤ x) : jsRem1 x = x - (⌊x⌋ : α) := by
  unfold jsRem1
  rw [if_pos hx]

/-- While the integer part of `frame * 0.008 + o * 0.5` stays the same (no wrap
of the remainder), the photon parameter grows by `0.008` per frame, for both
photons. -/
theorem photonT_step (frame : ℤ) (o : ℕ) (hf : 0 ≤ frame)
    (hw : ⌊((frame + 1 : ℤ) : α) * 0.008 + (o : α) * 0.5⌋ = ⌊(frame : α) * 0.008 + (o : α) * 0.5⌋) :
    (photonT (frame + 1) o : α) = photonT frame o + 0.008 := by
  have hf' : (0 : α) ≤ (frame : α) := by exact_mod_cast hf
  have ho : (0 : α) ≤ (o : α) := Nat.cast_nonneg o
  have h1 : (0 : α) ≤ (frame : α) * 0.008 + (o : α) * 0.5 := by positivity
  have h2 : (0 : α) ≤ ((frame + 1 : ℤ) : α) * 0.008 + (o : α) * 0.5 := by
    push_cast; linarith
  unfold photonT
  rw [jsRem1_of_nonneg _ h1, jsRem1_of_nonneg _ h2, hw]
  push_cast
  ring

end ConfigLemmas

section RoundedLemmas

variable [FloorRing α]

/-- The rounding of `m` is the floor of `m` or the integer after it, whichever
side of the midpoint `m` lies on. -/
theorem roundHalfEven_cases (m : α) :
    (roundHalfEven m = ⌊m⌋ ∧ m - (⌊m⌋ : α) ≤ 1 / 2) ∨
      (roundHalfEven m = ⌊m⌋ + 1 ∧ 1 / 2 ≤ m - (⌊m⌋ : α)) := by
  unfold roundHalfEven
  by_cases h1 : m - (⌊m⌋ : α) < 1 / 2
  · left; rw [if_pos h1]; exact ⟨rfl, le_of_lt h1⟩
  · rw [if_neg h1]
    by_cases h2 : 1 / 2 < m - (⌊m⌋ : α)
    · right; rw [if_pos h2]; exact ⟨rfl, le_of_lt h2⟩
    · rw [if_neg h2]
      have h3 : m - (⌊m⌋ : α) = 1 / 2 := le_antisymm (not_lt.mp h2) (not_lt.mp h1)
      by_cases h4 : ⌊m⌋ % 2 = 0
      · left; rw [if_pos h4]; exact ⟨rfl, le_of_eq h3⟩
      · right; rw [if_neg h4]; exact ⟨rfl, le_of_eq h3.symm⟩

/-- The integer `roundHalfEven m` is nearest to `m`. -/
theorem roundHalfEven_nearest (m : α) (k : ℤ) :
    |((roundHalfEven m : ℤ) : α) - m| ≤ |(k : α) - m| := by
  have hf1 : (⌊m⌋ : α) ≤ m := Int.floor_le m
  have hf2 : m < (⌊m⌋ : α) + 1 := Int.lt_floor_add_one m
  rcases le_or_lt k ⌊m⌋ with hk | hk
  · have hk' : (k : α) ≤ (⌊m⌋ : α) := by exact_mod_cast hk
    rw [abs_of_nonpos (a := (k : α) - m) (by linarith)]
    rcases roundHalfEven_cases m with ⟨h, hr⟩ | ⟨h, hr⟩
    · rw [h, abs_of_nonpos (by linarith)]; linarith
    · rw [h]; push_cast
      rw [abs_of_nonneg (by linarith)]; linarith
  · have hk' : (⌊m⌋ : α) + 1 ≤ (k : α) := by exact_mod_cast hk
    rw [abs_of_nonneg (a := (k : α) - m) (by linarith)]
    rcases roundHalfEven_cases m with ⟨h, hr⟩ | ⟨h, hr⟩
    · rw [h, abs_of_nonpos (by linarith)]; linarith
    · rw [h]; push_cast
      rw [abs_of_nonneg (by linarith)]; linarith

/-- The rounding to an integer is off by at most one half. -/
theorem roundHalfEven_err (m : α) : |((roundHalfEven m : ℤ) : α) - m| ≤ 1 / 2 := by
  have hf1 : (⌊m⌋ : α) ≤ m := Int.floor_le m
  have hf2 : m < (⌊m⌋ : α) + 1 := Int.lt_floor_add_one m
  rcases roundHalfEven_cases m with ⟨h, hr⟩ | ⟨h, hr⟩
  · rw [h, abs_of_nonpos (by linarith)]; linarith
  · rw [h]; push_cast
    rw [abs_of_nonneg (by linarith)]; linarith

/-- An integer within less than one half of `m` is the rounding of `m`. -/
theorem roundHalfEven_eq (m : α) (k : ℤ) (h : |(k : α) - m| < 1 / 2) : roundHalfEven m = k := by
  have h1 := roundHalfEven_nearest m k
  have h2 : |((roundHalfEven m : ℤ) : α) - (k : α)| < 1 := by
    have e : ((roundHalfEven m : ℤ) : α) - (k : α) =
        (((roundHalfEven m : ℤ) : α) - m) - ((k : α) - m) := by ring
    rw [e]
    calc |(((roundHalfEven m : ℤ) : α) - m) - ((k : α) - m)|
        ≤ |((roundHalfEven m : ℤ) : α) - m| + |(k : α) - m| := abs_sub _ _
      _ < 1 := by linarith
  have h3 : |roundHalfEven m - k| < 1 := by
    have : ((|roundHalfEven m - k| : ℤ) : α) < 1 := by
      push_cast; exact h2
    exact_mod_cast this
  have h4 : roundHalfEven m - k = 0 := Int.abs_lt_one_iff.mp h3
  linarith

/-- An integer rounds to itself. -/
theorem roundHalfEven_intCast (k : ℤ) : roundHalfEven (k : α) = k :=
  roundHalfEven_eq (k : α) k (by simp)

theorem roundHalfEven_nonneg (m : α) (h : 0 ≤ m) : 0 ≤ roundHalfEven m := by
  have hf : 0 ≤ ⌊m⌋ := Int.floor_nonneg.mpr h
  rcases roundHalfEven_cases m with ⟨h1, _⟩ | ⟨h1, _⟩ <;> rw [h1] <;> linarith

theorem roundHalfEven_nonpos (m : α) (h : m ≤ 0) : roundHalfEven m ≤ 0 := by
  by_contra hc
  push_neg at hc
  have h1 : (1 : α) ≤ ((roundHalfEven m : ℤ) : α) := by exact_mod_cast hc
  have h2 := roundHalfEven_err m
  rw [abs_of_nonneg (by linarith)] at h2
  linarith

/-- The rounding error is at most half a unit in the last place. -/
theorem roundBits_err (t : ℕ) (emin : ℤ) (x : α) :
    |roundBits t emin x - x| ≤ 2 ^ ulpExp t emin x / 2 := by
  have hs : (0 : α) < 2 ^ ulpExp t emin x := two_zpow_pos _
  have h := roundHalfEven_err (x / 2 ^ ulpExp t emin x)
  have e : roundBits t emin x - x =
      (((roundHalfEven (x / 2 ^ ulpExp t emin x) : ℤ) : α) - x / 2 ^ ulpExp t emin x) *
        2 ^ ulpExp t emin x := by
    unfold roundBits
    field_simp
  rw [e, abs_mul, abs_of_pos hs]
  calc |((roundHalfEven (x / 2 ^ ulpExp t emin x) : ℤ) : α) - x / 2 ^ ulpExp t emin x| *
        2 ^ ulpExp t emin x ≤ 1 / 2 * 2 ^ ulpExp t emin x :=
        mul_le_mul_of_nonneg_right h (le_of_lt hs)
    _ = 2 ^ ulpExp t emin x / 2 := by ring

/-- Zero rounds to zero. -/
theorem roundBits_zero (t : ℕ) (emin : ℤ) : roundBits t emin (0 : α) = 0 := by
  unfold roundBits
  rw [zero_div]
  have : roundHalfEven (0 : α) = 0 := by
    have := roundHalfEven_intCast (α := α) 0
    simpa using this
  rw [this]; simp

/-- Rounding keeps the sign: a non-negative number rounds to a non-negative one. -/
theorem roundBits_nonneg (t : ℕ) (emin : ℤ) (x : α) (h : 0 ≤ x) : 0 ≤ roundBits t emin x := by
  unfold roundBits
  have hs : (0 : α) < 2 ^ ulpExp t emin x := two_zpow_pos _
  have h1 := roundHalfEven_nonneg (x / 2 ^ ulpExp t emin x) (div_nonneg h (le_of_lt hs))
  have h2 : (0 : α) ≤ ((roundHalfEven (x / 2 ^ ulpExp t emin x) : ℤ) : α) := by exact_mod_cast h1
  exact mul_nonneg h2 (le_of_lt hs)

/-- Rounding keeps the sign: a non-positive number rounds to a non-positive one. -/
theorem roundBits_nonpos (t : ℕ) (emin : ℤ) (x : α) (h : x ≤ 0) : roundBits t emin x ≤ 0 := by
  unfold roundBits
  have hs : (0 : α) < 2 ^ ulpExp t emin x := two_zpow_pos _
  have h1 := roundHalfEven_nonpos (x / 2 ^ ulpExp t emin x)
    (div_nonpos_of_nonpos_of_nonneg h (le_of_lt hs))
  have h2 : ((roundHalfEven (x / 2 ^ ulpExp t emin x) : ℤ) : α) ≤ 0 := by exact_mod_cast h1
  exact mul_nonpos_of_nonpos_of_nonneg h2 (le_of_lt hs)

/-- The binary exponent of a number in a known binade. -/
theorem log_two_eq (x : α) (e : ℤ) (h1 : 2 ^ e ≤ |x|) (h2 : |x| < 2 ^ (e + 1)) :
    Int.log 2 |x| = e := by
  have hx : 0 < |x| := lt_of_lt_of_le (two_zpow_pos e) h1
  have c : ((2 : ℕ) : α) = 2 := by norm_num
  have a1 : e ≤ Int.log 2 |x| := by
    rw [← Int.zpow_le_iff_le_log (by norm_num) hx, c]; exact h1
  have a2 : Int.log 2 |x| < e + 1 := by
    rw [← Int.lt_zpow_iff_log_lt (by norm_num) hx, c]; exact h2
  omega

/-- Evaluation of a rounding: for `x` in the binade `[2^e, 2^(e+1))` with
`e ≥ emin`, an integer `n` within less than one half of `x / 2^(e - t)` gives
the rounded value `n * 2^(e - t)`. -/
theorem roundBits_eval (t : ℕ) (emin : ℤ) (x : α) (e n : ℤ) (he : emin ≤ e)
    (h1 : 2 ^ e ≤ |x|) (h2 : |x| < 2 ^ (e + 1))
    (hn : |(n : α) - x / 2 ^ (e - (t : ℤ))| < 1 / 2) :
    roundBits t emin x = (n : α) * 2 ^ (e - (t : ℤ)) := by
  have hq : ulpExp t emin x = e - (t : ℤ) := by
    unfold ulpExp
    rw [log_two_eq x e h1 h2, max_eq_left he]
  unfold roundBits
  rw [hq, roundHalfEven_eq _ n hn]

/-- Evaluation of a rounding in the subnormal range. -/
theorem roundBits_eval_subnormal (t : ℕ) (emin : ℤ) (x : α) (n : ℤ) (h0 : x ≠ 0)
    (h2 : |x| < 2 ^ emin) (hn : |(n : α) - x / 2 ^ (emin - (t : ℤ))| < 1 / 2) :
    roundBits t emin x = (n : α) * 2 ^ (emin - (t : ℤ)) := by
  have hx : 0 < |x| := abs_pos.mpr h0
  have c : ((2 : ℕ) : α) = 2 := by norm_num
  have hl : Int.log 2 |x| < emin := by
    rw [← Int.lt_zpow_iff_log_lt (by norm_num) hx, c]; exact h2
  have hq : ulpExp t emin x = emin - (t : ℤ) := by
    unfold ulpExp
    rw [max_eq_right (le_of_lt hl)]
  unfold roundBits
  rw [hq, roundHalfEven_eq _ n hn]

/-- The power of two at the binary exponent of `x` is at most `|x|`. -/
theorem two_zpow_log_le (x : α) (hx : 0 < |x|) : (2 : α) ^ Int.log 2 |x| ≤ |x| := by
  have c : ((2 : ℕ) : α) = 2 := by norm_num
  have := Int.zpow_log_le_self (b := 2) (r := |x|) (by norm_num) hx
  rwa [c] at this

/-- For a non-zero `x`, the unit in the last place is at most `2^(-t) * |x|` in
the normal range and `2^(emin - t)` below it. -/
theorem ulp_le (t : ℕ) (emin : ℤ) (x : α) (hx : x ≠ 0) :
    (2 : α) ^ ulpExp t emin x ≤ 2 ^ (-(t : ℤ)) * |x| ∨
      (2 : α) ^ ulpExp t emin x = 2 ^ (emin - (t : ℤ)) := by
  have hx' : 0 < |x| := abs_pos.mpr hx
  unfold ulpExp
  rcases le_or_lt (Int.log 2 |x|) emin with h | h
  · right; rw [max_eq_right h]
  · left
    rw [max_eq_left (le_of_lt h), two_zpow_sub, mul_comm]
    exact mul_le_mul_of_nonneg_left (two_zpow_log_le x hx') (le_of_lt (two_zpow_pos _))

/-- The standard error bound of a rounding: relative error `2^(-(t+1))` plus
the absolute error `2^(emin - t - 1)` of the subnormal range. -/
theorem roundBits_err_bound (t : ℕ) (emin : ℤ) (x : α) :
    |roundBits t emin x - x| ≤ 2 ^ (-(t : ℤ)) * |x| / 2 + 2 ^ (emin - (t : ℤ)) / 2 := by
  have p1 : (0 : α) ≤ 2 ^ (-(t : ℤ)) * |x| :=
    mul_nonneg (le_of_lt (two_zpow_pos _)) (abs_nonneg x)
  have p2 : (0 : α) < 2 ^ (emin - (t : ℤ)) := two_zpow_pos _
  by_cases hx : x = 0
  · rw [hx, roundBits_zero]; simp only [sub_self, abs_zero]
    rw [hx, abs_zero] at p1
    linarith
  · have h := roundBits_err t emin x
    rcases ulp_le t emin x hx with h1 | h1
    · linarith
    · rw [h1] at h; linarith

/-- In the normal range the error of a rounding is relative. -/
theorem roundBits_err_normal (t : ℕ) (emin : ℤ) (x : α) (hx : 2 ^ emin ≤ |x|) :
    |roundBits t emin x - x| ≤ 2 ^ (-(t : ℤ)) * |x| / 2 := by
  have hx' : 0 < |x| := lt_of_lt_of_le (two_zpow_pos emin) hx
  have c : ((2 : ℕ) : α) = 2 := by norm_num
  have hl : emin ≤ Int.log 2 |x| := by
    rw [← Int.zpow_le_iff_le_log (by norm_num) hx', c]; exact hx
  have h := roundBits_err t emin x
  have hq : (2 : α) ^ ulpExp t emin x ≤ 2 ^ (-(t : ℤ)) * |x| := by
    unfold ulpExp
    rw [max_eq_left hl, two_zpow_sub, mul_comm]
    exact mul_le_mul_of_nonneg_left (two_zpow_log_le x hx') (le_of_lt (two_zpow_pos _))
  linarith

/-- A number of size below half the least subnormal rounds to zero. -/
theorem roundBits_small (t : ℕ) (emin : ℤ) (x : α) (hx : |x| < 2 ^ (emin - (t : ℤ)) / 2) :
    roundBits t emin x = 0 := by
  by_cases h0 : x = 0
  · rw [h0]; exact roundBits_zero t emin
  · have hpos : (0 : α) < 2 ^ (emin - (t : ℤ)) := two_zpow_pos _
    have hlt : |x| < 2 ^ emin := by
      have : (2 : α) ^ (emin - (t : ℤ)) ≤ 2 ^ emin :=
        zpow_le_zpow_right₀ (by norm_num) (by omega)
      linarith
    have h := roundBits_eval_subnormal t emin x 0 h0 hlt (by
      rw [Int.cast_zero, zero_sub, abs_neg, abs_div, abs_of_pos hpos, div_lt_iff₀ hpos]
      linarith)
    rw [h]; simp

/-- A representable number is an integer multiple of every unit in the last
place that is not larger than its own. -/
theorem representable_multiple (t : ℕ) (emin : ℤ) (V : α) (hV : roundBits t emin V = V)
    (q : ℤ) (hq : q ≤ ulpExp t emin V) : ∃ k : ℤ, V = (k : α) * 2 ^ q := by
  obtain ⟨d, hd⟩ : ∃ d : ℕ, ulpExp t emin V = q + (d : ℤ) :=
    ⟨(ulpExp t emin V - q).toNat, by omega⟩
  refine ⟨roundHalfEven (V / 2 ^ ulpExp t emin V) * 2 ^ d, ?_⟩
  have e : (2 : α) ^ ulpExp t emin V = 2 ^ d * 2 ^ q := by
    rw [hd, zpow_add₀ (by norm_num : (2 : α) ≠ 0), zpow_natCast, mul_comm]
  conv_lhs => rw [← hV]
  unfold roundBits
  rw [e]
  push_cast
  ring

/-- Rounding goes to a nearest representable number: no representable `V ≥ 0`
is closer to `x ≥ 0` than the rounding of `x`. -/
theorem roundBits_nearest (t : ℕ) (emin : ℤ) (x V : α) (hx : 0 ≤ x) (hV0 : 0 ≤ V)
    (hV : roundBits t emin V = V) : |roundBits t emin x - x| ≤ |V - x| := by
  have hs : (0 : α) < 2 ^ ulpExp t emin x := two_zpow_pos _
  have key : ∀ k : ℤ, |roundBits t emin x - x| ≤ |(k : α) * 2 ^ ulpExp t emin x - x| := by
    intro k
    have h := roundHalfEven_nearest (x / 2 ^ ulpExp t emin x) k
    have e1 : roundBits t emin x - x =
        (((roundHalfEven (x / 2 ^ ulpExp t emin x) : ℤ) : α) - x / 2 ^ ulpExp t emin x) *
          2 ^ ulpExp t emin x := by
      unfold roundBits; field_simp
    have e2 : (k : α) * 2 ^ ulpExp t emin x - x =
        ((k : α) - x / 2 ^ ulpExp t emin x) * 2 ^ ulpExp t emin x := by
      field_simp
    rw [e1, e2, abs_mul, abs_mul]
    exact mul_le_mul_of_nonneg_right h (abs_nonneg _)
  rcases eq_or_lt_of_le hx with hx0 | hxpos
  · rw [← hx0, roundBits_zero]; simp
  rcases eq_or_lt_of_le hV0 with hV00 | hVpos
  · have := key 0
    rw [← hV00]
    simpa using this
  have hxa : 0 < |x| := abs_pos.mpr (ne_of_gt hxpos)
  have hVa : 0 < |V| := abs_pos.mpr (ne_of_gt hVpos)
  rcases le_or_lt (ulpExp t emin x) (ulpExp t emin V) with hq | hq
  · obtain ⟨k, hk⟩ := representable_multiple t emin V hV (ulpExp t emin x) hq
    rw [hk]; exact key k
  · -- `V` lies in a lower binade than `x`
    have hlog : Int.log 2 |V| < Int.log 2 |x| ∧ emin < Int.log 2 |x| := by
      unfold ulpExp at hq
      constructor
      · rcases le_or_lt (Int.log 2 |x|) emin with h | h
        · rw [max_eq_right h] at hq
          have := le_max_right (Int.log 2 |V|) emin
          omega
        · rw [max_eq_left (le_of_lt h)] at hq
          have := le_max_left (Int.log 2 |V|) emin
          omega
      · rcases le_or_lt (Int.log 2 |x|) emin with h | h
        · rw [max_eq_right h] at hq
          have := le_max_right (Int.log 2 |V|) emin
          omega
        · exact h
    have c : ((2 : ℕ) : α) = 2 := by norm_num
    have hVlt : |V| < 2 ^ Int.log 2 |x| := by
      have := (Int.lt_zpow_iff_log_lt (b := 2) (by norm_num) hVa).mpr hlog.1
      rwa [c] at this
    have hxge : (2 : α) ^ Int.log 2 |x| ≤ x :=
      (two_zpow_log_le x hxa).trans (le_of_eq (abs_of_pos hxpos))
    have hVlt' : V < 2 ^ Int.log 2 |x| := lt_of_le_of_lt (le_abs_self V) hVlt
    have hk := key (2 ^ t)
    have e : (((2 : ℤ) ^ t : ℤ) : α) * 2 ^ ulpExp t emin x = 2 ^ Int.log 2 |x| := by
      unfold ulpExp
      rw [max_eq_left (le_of_lt hlog.2)]
      push_cast
      rw [← zpow_natCast (2 : α) t, ← zpow_add₀ (by norm_num : (2 : α) ≠ 0)]
      congr 1; ring
    rw [e] at hk
    calc |roundBits t emin x - x| ≤ |(2 : α) ^ Int.log 2 |x| - x| := hk
      _ = x - 2 ^ Int.log 2 |x| := by rw [abs_of_nonpos (by linarith)]; ring
      _ ≤ x - V := by linarith
      _ = |V - x| := by rw [abs_of_nonpos (by linarith)]; ring

/-- Rounding does not cross a representable number from above:
`0 ≤ V ≤ x` and `V` representable give `V ≤ round x ≤ x + (x - V)`. -/
theorem roundBits_above (t : ℕ) (emin : ℤ) (x V : α) (hV0 : 0 ≤ V) (hVx : V ≤ x)
    (hV : roundBits t emin V = V) :
    V ≤ roundBits t emin x ∧ roundBits t emin x ≤ x + (x - V) := by
  have h := roundBits_nearest t emin x V (le_trans hV0 hVx) hV0 hV
  rw [abs_of_nonpos (a := V - x) (by linarith)] at h
  have h2 := abs_le.mp h
  constructor <;> linarith [h2.1, h2.2]

/-- Rounding does not cross a representable number from below:
`0 ≤ x ≤ V` and `V` representable give `x - (V - x) ≤ round x ≤ V`. -/
theorem roundBits_below (t : ℕ) (emin : ℤ) (x V : α) (hx0 : 0 ≤ x) (hxV : x ≤ V)
    (hV : roundBits t emin V = V) :
    x - (V - x) ≤ roundBits t emin x ∧ roundBits t emin x ≤ V := by
  have h := roundBits_nearest t emin x V hx0 (le_trans hx0 hxV) hV
  rw [abs_of_nonneg (a := V - x) (by linarith)] at h
  have h2 := abs_le.mp h
  constructor <;> linarith [h2.1, h2.2]

/-- Evaluation of a rounding to a double: for `x` in the binade `[2^e, 2^(e+1))`,
an integer `n` within less than one half of `x / 2^(e - 52)` gives `n * 2^(e - 52)`. -/
theorem toDouble_eval (x : α) (e n : ℤ) (he : -1022 ≤ e)
    (h1 : 2 ^ e ≤ |x|) (h2 : |x| < 2 ^ (e + 1))
    (hn : |(n : α) - x / 2 ^ (e - 52)| < 1 / 2) : toDouble x = (n : α) * 2 ^ (e - 52) :=
  roundBits_eval 52 (-1022) x e n he h1 h2 hn

/-- Evaluation of a rounding to a single: for `x` in the binade `[2^e, 2^(e+1))`,
an integer `n` within less than one half of `x / 2^(e - 23)` gives `n * 2^(e - 23)`. -/
theorem toFloat32_eval (x : α) (e n : ℤ) (he : -126 ≤ e)
    (h1 : 2 ^ e ≤ |x|) (h2 : |x| < 2 ^ (e + 1))
    (hn : |(n : α) - x / 2 ^ (e - 23)| < 1 / 2) : toFloat32 x = (n : α) * 2 ^ (e - 23) :=
  roundBits_eval 23 (-126) x e n he h1 h2 hn

/-- The double nearest to `0.10`. -/
theorem toDouble_rise : toDouble (0.10 : α) = 3602879701896397 / 36028797018963968 := by
  rw [toDouble_eval (0.10 : α) (-4) 7205759403792794 (by norm_num)
    (by rw [abs_of_pos (by norm_num)]; norm_num)
    (by rw [abs_of_pos (by norm_num)]; norm_num)
    (by norm_num [abs_lt])]
  norm_num

/-- The double nearest to `0.038`. -/
theorem toDouble_fall : toDouble (0.038 : α) = 5476377146882523 / 144115188075855872 := by
  rw [toDouble_eval (0.038 : α) (-5) 5476377146882523 (by norm_num)
    (by rw [abs_of_pos (by norm_num)]; norm_num)
    (by rw [abs_of_pos (by norm_num)]; norm_num)
    (by norm_num [abs_lt])]
  norm_num

/-- The error of a rounding to a double: relative `2^-53`, absolute `2^-1075`. -/
theorem toDouble_err (x : α) : |toDouble x - x| ≤ |x| / 2 ^ 53 + 2 ^ (-1075 : ℤ) := by
  have h := roundBits_err_bound 52 (-1022) x
  have e1 : (2 : α) ^ ((-1022 : ℤ) - ((52 : ℕ) : ℤ)) / 2 = 2 ^ (-1075 : ℤ) := by
    rw [two_zpow_half]; norm_num
  have e2 : (2 : α) ^ (-((52 : ℕ) : ℤ)) * |x| / 2 = |x| / 2 ^ 53 := by
    rw [zpow_neg, zpow_natCast]; ring
  rw [e1, e2] at h
  exact h

/-- The error of a rounding to a single: relative `2^-24`, absolute `2^-150`. -/
theorem toFloat32_err (x : α) : |toFloat32 x - x| ≤ |x| / 2 ^ 24 + 2 ^ (-150 : ℤ) := by
  have h := roundBits_err_bound 23 (-126) x
  have e1 : (2 : α) ^ ((-126 : ℤ) - ((23 : ℕ) : ℤ)) / 2 = 2 ^ (-150 : ℤ) := by
    rw [two_zpow_half]; norm_num
  have e2 : (2 : α) ^ (-((23 : ℕ) : ℤ)) * |x| / 2 = |x| / 2 ^ 24 := by
    rw [zpow_neg, zpow_natCast]; ring
  rw [e1, e2] at h
  exact h

/-- A number of magnitude below `2^-1075` rounds to the double zero. -/
theorem toDouble_small (x : α) (h : |x| < 2 ^ (-1075 : ℤ)) : toDouble x = 0 := by
  apply roundBits_small
  have e1 : (2 : α) ^ ((-1022 : ℤ) - ((52 : ℕ) : ℤ)) / 2 = 2 ^ (-1075 : ℤ) := by
    rw [two_zpow_half]; norm_num
  rw [e1]; exact h

/-- A number representable in a format is representable in every format whose
unit in the last place at that number is not larger. -/
theorem representable_of_ulp_le (t s : ℕ) (emin fmin : ℤ) (V : α)
    (hV : roundBits t emin V = V) (hq : ulpExp s fmin V ≤ ulpExp t emin V) :
    roundBits s fmin V = V := by
  obtain ⟨k, hk⟩ := representable_multiple t emin V hV (ulpExp s fmin V) hq
  have hs : (2 : α) ^ ulpExp s fmin V ≠ 0 := ne_of_gt (two_zpow_pos _)
  unfold roundBits
  have e : V / 2 ^ ulpExp s fmin V = (k : α) := by
    rw [div_eq_iff hs]; exact hk
  rw [e, roundHalfEven_intCast]
  exact hk.symm

/-- Every single is a double. -/
theorem toDouble_of_toFloat32 (V : α) (hV : toFloat32 V = V) : toDouble V = V := by
  apply representable_of_ulp_le 23 52 (-126) (-1022) V hV
  unfold ulpExp
  rcases le_total (Int.log 2 |V|) (-1022) with h | h
  · rw [max_eq_right h, max_eq_right (by omega)]; norm_num
  · rw [max_eq_left h]
    have := le_max_left (Int.log 2 |V|) (-126)
    push_cast
    omega

/-- Zero rounds to the double zero. -/
theorem toDouble_zero : toDouble (0 : α) = 0 := roundBits_zero 52 (-1022)

/-- The rising smoothing step neither falls below the stored value nor reaches
the target. -/
theorem blendF_rising (T V : α) (hV0 : 0 ≤ V) (hV : toFloat32 V = V) (hVT : V < T) :
    V ≤ blendF T V ∧ blendF T V < T := by
  have hVd : toDouble V = V := toDouble_of_toFloat32 V hV
  have hgt : T > V := hVT
  simp only [blendF, if_pos hgt]
  rw [toDouble_rise]
  have hD : 0 < T - V := by linarith
  have ha0 : 0 ≤ toDouble (T - V) := roundBits_nonneg _ _ _ (le_of_lt hD)
  have haerr := abs_le.mp (toDouble_err (T - V))
  rw [abs_of_pos hD] at haerr
  obtain ⟨a, ha⟩ : ∃ a, a = toDouble (T - V) := ⟨_, rfl⟩
  rw [← ha] at ha0 haerr ⊢
  have hη : (0 : α) < 2 ^ (-1075 : ℤ) := two_zpow_pos _
  obtain ⟨η, hηe⟩ : ∃ η : α, η = 2 ^ (-1075 : ℤ) := ⟨_, rfl⟩
  rw [← hηe] at haerr hη
  obtain ⟨w, hw⟩ : ∃ w, w = a * (3602879701896397 / 36028797018963968 : α) := ⟨_, rfl⟩
  rw [← hw]
  have hw0 : 0 ≤ w := by rw [hw]; exact mul_nonneg ha0 (by norm_num)
  rcases lt_or_le w η with hsm | hbig
  · have hb : toDouble w = 0 := by
      apply toDouble_small
      rw [abs_of_nonneg hw0, ← hηe]; exact hsm
    rw [hb, add_zero, hVd, hV]
    exact ⟨le_refl V, hVT⟩
  · have hb0 : 0 ≤ toDouble w := roundBits_nonneg _ _ _ hw0
    have hberr := abs_le.mp (toDouble_err w)
    rw [abs_of_nonneg hw0, ← hηe] at hberr
    obtain ⟨b, hb⟩ : ∃ b, b = toDouble w := ⟨_, rfl⟩
    rw [← hb] at hb0 hberr ⊢
    have hx := roundBits_above 52 (-1022) (V + b) V hV0 (by linarith) hVd
    have hx' : V ≤ toDouble (V + b) ∧ toDouble (V + b) ≤ V + b + (V + b - V) := hx
    obtain ⟨x, hxe⟩ : ∃ x, x = toDouble (V + b) := ⟨_, rfl⟩
    rw [← hxe] at hx' ⊢
    have hs := roundBits_above 23 (-126) x V hV0 hx'.1 hV
    have hs' : V ≤ toFloat32 x ∧ toFloat32 x ≤ x + (x - V) := hs
    refine ⟨hs'.1, ?_⟩
    have h1 := hberr.2
    have h2 := haerr.2
    have h3 := hx'.2
    have h4 := hs'.2
    linarith

/-- The falling smoothing step neither rises above the stored value nor
reaches the target. -/
theorem blendF_falling (T V : α) (hT0 : 0 ≤ T) (hV : toFloat32 V = V) (hTV : T < V) :
    T < blendF T V ∧ blendF T V ≤ V := by
  have hV0 : 0 ≤ V := by linarith
  have hVd : toDouble V = V := toDouble_of_toFloat32 V hV
  have hgt : ¬ T > V := not_lt.mpr (le_of_lt hTV)
  simp only [blendF, if_neg hgt]
  rw [toDouble_fall]
  have hD : T - V < 0 := by linarith
  have ha0 : toDouble (T - V) ≤ 0 := roundBits_nonpos _ _ _ (le_of_lt hD)
  have haerr := abs_le.mp (toDouble_err (T - V))
  rw [abs_of_neg hD] at haerr
  obtain ⟨a, ha⟩ : ∃ a, a = toDouble (T - V) := ⟨_, rfl⟩
  rw [← ha] at ha0 haerr ⊢
  have hη : (0 : α) < 2 ^ (-1075 : ℤ) := two_zpow_pos _
  obtain ⟨η, hηe⟩ : ∃ η : α, η = 2 ^ (-1075 : ℤ) := ⟨_, rfl⟩
  rw [← hηe] at haerr hη
  obtain ⟨w, hw⟩ : ∃ w, w = a * (5476377146882523 / 144115188075855872 : α) := ⟨_, rfl⟩
  rw [← hw]
  have hw0 : w ≤ 0 := by rw [hw]; exact mul_nonpos_of_nonpos_of_nonneg ha0 (by norm_num)
  rcases lt_or_le (-w) η with hsm | hbig
  · have hb : toDouble w = 0 := by
      apply toDouble_small
      rw [abs_of_nonpos hw0, ← hηe]; exact hsm
    rw [hb, add_zero, hVd, hV]
    exact ⟨hTV, le_refl V⟩
  · have hb0 : toDouble w ≤ 0 := roundBits_nonpos _ _ _ hw0
    have hberr := abs_le.mp (toDouble_err w)
    rw [abs_of_nonpos hw0, ← hηe] at hberr
    obtain ⟨b, hb⟩ : ∃ b, b = toDouble w := ⟨_, rfl⟩
    rw [← hb] at hb0 hberr ⊢
    have h1 := hberr.1
    have h2 := haerr.1
    have hy0 : 0 ≤ V + b := by linarith
    have hx := roundBits_below 52 (-1022) (V + b) V hy0 (by linarith) hVd
    have hx' : V + b - (V - (V + b)) ≤ toDouble (V + b) ∧ toDouble (V + b) ≤ V := hx
    obtain ⟨x, hxe⟩ : ∃ x, x = toDouble (V + b) := ⟨_, rfl⟩
    rw [← hxe] at hx' ⊢
    have h3 := hx'.1
    have hx0 : 0 ≤ x := by linarith
    have hs := roundBits_below 23 (-126) x V hx0 hx'.2 hV
    have hs' : x - (V - x) ≤ toFloat32 x ∧ toFloat32 x ≤ V := hs
    refine ⟨?_, hs'.2⟩
    have h4 := hs'.1
    linarith

/-- At the target the smoothing step changes nothing. -/
theorem blendF_at_target (V : α) (hV : toFloat32 V = V) : blendF V V = V := by
  have hVd : toDouble V = V := toDouble_of_toFloat32 V hV
  have hgt : ¬ V > V := lt_irrefl V
  simp only [blendF, if_neg hgt]
  rw [sub_self, toDouble_zero, zero_mul, toDouble_zero, add_zero, hVd, hV]

/-- The four roundings of one smoothing step with rate `R ≤ 1/8` and
difference `D = target - cur`: the stored value is within
`(V + |D|/4) * (2^-24 + 2^-50) + 2^-150 + 8 * 2^-1075` of `V + R * D`. -/
theorem blend_chain_err (V D R : α) (hV0 : 0 ≤ V) (hR0 : 0 ≤ R) (hR1 : R ≤ 1 / 8) :
    |toFloat32 (toDouble (V + toDouble (toDouble D * R))) - (V + R * D)| ≤
      (V + |D| / 4) * (1 / 2 ^ 24 + 1 / 2 ^ 50) + 2 ^ (-150 : ℤ) + 8 * 2 ^ (-1075 : ℤ) := by
  have hη : (0 : α) < 2 ^ (-1075 : ℤ) := two_zpow_pos _
  have ha := toDouble_err D
  obtain ⟨a, hae⟩ : ∃ a, a = toDouble D := ⟨_, rfl⟩
  rw [← hae] at ha ⊢
  have hb := toDouble_err (a * R)
  obtain ⟨b, hbe⟩ : ∃ b, b = toDouble (a * R) := ⟨_, rfl⟩
  rw [← hbe] at hb ⊢
  have hx := toDouble_err (V + b)
  obtain ⟨x, hxe⟩ : ∃ x, x = toDouble (V + b) := ⟨_, rfl⟩
  rw [← hxe] at hx ⊢
  have hs := toFloat32_err x
  obtain ⟨s, hse⟩ : ∃ s, s = toFloat32 x := ⟨_, rfl⟩
  rw [← hse] at hs ⊢
  obtain ⟨η, hηe⟩ : ∃ η : α, η = 2 ^ (-1075 : ℤ) := ⟨_, rfl⟩
  obtain ⟨ν, hνe⟩ : ∃ ν : α, ν = 2 ^ (-150 : ℤ) := ⟨_, rfl⟩
  rw [← hηe] at ha hb hx hη ⊢
  rw [← hνe] at hs ⊢
  -- magnitudes
  have hD0 : 0 ≤ |D| := abs_nonneg D
  have ea : |a| ≤ |D| + (|D| / 2 ^ 53 + η) := by
    have := abs_sub_abs_le_abs_sub a D
    linarith
  have ew : |a * R| = |a| * R := by rw [abs_mul, abs_of_nonneg hR0]
  have ew1 : |a| * R ≤ |a| / 8 := by
    have := mul_le_mul_of_nonneg_left hR1 (abs_nonneg a)
    linarith
  have ew0 : 0 ≤ |a| * R := mul_nonneg (abs_nonneg a) hR0
  rw [ew] at hb
  have eb : |b| ≤ |a| * R + (|a| * R / 2 ^ 53 + η) := by
    have := abs_sub_abs_le_abs_sub b (a * R)
    rw [ew] at this
    linarith
  have ey : |V + b| ≤ V + |b| := by
    have := abs_add V b
    rw [abs_of_nonneg hV0] at this
    exact this
  have ex : |x| ≤ |V + b| + (|V + b| / 2 ^ 53 + η) := by
    have := abs_sub_abs_le_abs_sub x (V + b)
    linarith
  -- the part of the error made before the first rounding is undone
  have ewd : |a * R - R * D| ≤ (|D| / 2 ^ 53 + η) / 8 := by
    have e : a * R - R * D = (a - D) * R := by ring
    rw [e, abs_mul, abs_of_nonneg hR0]
    have h1 := mul_le_mul_of_nonneg_left hR1 (abs_nonneg (a - D))
    linarith
  have split : s - (V + R * D) = (s - x) + (x - (V + b)) + (b - a * R) + (a * R - R * D) := by
    ring
  rw [split]
  have t1 := abs_add ((s - x) + (x - (V + b)) + (b - a * R)) (a * R - R * D)
  have t2 := abs_add ((s - x) + (x - (V + b))) (b - a * R)
  have t3 := abs_add (s - x) (x - (V + b))
  have hy0 : 0 ≤ |V + b| := abs_nonneg _
  have hb0 : 0 ≤ |b| := abs_nonneg _
  have ha0 : 0 ≤ |a| := abs_nonneg _
  linarith

/-- The changes stored by a rising and by a falling smoothing step of the same
size `delta`, bounded from below and from above. -/
theorem blendF_changes (V delta : α) (hV0 : 0 ≤ V) (hd : 0 < delta) :
    |blendF (V + delta) V - V - 3602879701896397 / 36028797018963968 * delta| ≤
        (V + delta / 4) * (1 / 2 ^ 24 + 1 / 2 ^ 50) + 2 ^ (-150 : ℤ) + 8 * 2 ^ (-1075 : ℤ) ∧
      |V - blendF (V - delta) V - 5476377146882523 / 144115188075855872 * delta| ≤
        (V + delta / 4) * (1 / 2 ^ 24 + 1 / 2 ^ 50) + 2 ^ (-150 : ℤ) + 8 * 2 ^ (-1075 : ℤ) := by
  have hgt : V + delta > V := by linarith
  have hng : ¬ V - delta > V := by
    intro h; linarith
  simp only [blendF, if_pos hgt, if_neg hng]
  rw [toDouble_rise, toDouble_fall, add_sub_cancel_left, sub_sub_cancel_left]
  have h1 := blend_chain_err V delta (3602879701896397 / 36028797018963968) hV0
    (by norm_num) (by norm_num)
  have h2 := blend_chain_err V (-delta) (5476377146882523 / 144115188075855872) hV0
    (by norm_num) (by norm_num)
  rw [abs_of_pos hd] at h1
  rw [abs_neg, abs_of_pos hd] at h2
  constructor
  · refine le_trans (le_of_eq ?_) h1
    congr 1; ring
  · refine le_trans (le_of_eq ?_) h2
    rw [← abs_neg]
    congr 1; ring

/-- The literal `0.5` is a double. -/
theorem toDouble_half : toDouble (0.5 : α) = 0.5 := by
  rw [toDouble_eval (0.5 : α) (-1) 4503599627370496 (by norm_num)
    (by rw [abs_of_pos (by norm_num)]; norm_num)
    (by rw [abs_of_pos (by norm_num)]; norm_num)
    (by norm_num [abs_lt])]
  norm_num

/-- The number `10` is a double. -/
theorem toDouble_ten : toDouble (10 : α) = 10 := by
  rw [toDouble_eval (10 : α) 3 5629499534213120 (by norm_num)
    (by rw [abs_of_pos (by norm_num)]; norm_num)
    (by rw [abs_of_pos (by norm_num)]; norm_num)
    (by norm_num [abs_lt])]
  norm_num

/-- The number `199` is a double. -/
theorem toDouble_199 : toDouble (199 : α) = 199 := by
  rw [toDouble_eval (199 : α) 7 7001690045677568 (by norm_num)
    (by rw [abs_of_pos (by norm_num)]; norm_num)
    (by rw [abs_of_pos (by norm_num)]; norm_num)
    (by norm_num [abs_lt])]
  norm_num

/-- The speed limit `CFG.speed * 3.5` is the double `1.75`. -/
theorem maxSpeed_eq : mulD (toDouble (CFG : Cfg α).speed) (toDouble 3.5) = 1.75 := by
  have h1 : toDouble (3.5 : α) = 3.5 := by
    rw [toDouble_eval (3.5 : α) 1 7881299347898368 (by norm_num)
      (by rw [abs_of_pos (by norm_num)]; norm_num)
      (by rw [abs_of_pos (by norm_num)]; norm_num)
      (by norm_num [abs_lt])]
    norm_num
  have h2 : toDouble ((0.5 : α) * 3.5) = 1.75 := by
    rw [toDouble_eval ((0.5 : α) * 3.5) 0 7881299347898368 (by norm_num)
      (by rw [abs_of_pos (by norm_num)]; norm_num)
      (by rw [abs_of_pos (by norm_num)]; norm_num)
      (by norm_num [abs_lt])]
    norm_num
  simp only [mulD, CFG]
  rw [toDouble_half, h1, h2]

/-- The double nearest to the drag `0.965`. -/
theorem toDouble_drag :
    toDouble (CFG : Cfg α).drag = 8691947280825057 / 9007199254740992 := by
  simp only [CFG]
  rw [toDouble_eval (0.965 : α) (-1) 8691947280825057 (by norm_num)
    (by rw [abs_of_pos (by norm_num)]; norm_num)
    (by rw [abs_of_pos (by norm_num)]; norm_num)
    (by norm_num [abs_lt])]
  norm_num

/-- The velocity of the burst particle before the speed cap: drag has brought
`10` down to the double `9.65`. -/
theorem preCapF_burst (M : MathLib α) (W H : α) :
    ((burstParticle : Particle α).preCapF M W H idleMouse sampleDraws).vx =
        5432467050515661 / 562949953421312 ∧
      ((burstParticle : Particle α).preCapF M W H idleMouse sampleDraws).vy = 0 ∧
      ((burstParticle : Particle α).preCapF M W H idleMouse sampleDraws).vz = 0 := by
  have hr : ¬ ((199 : α) ≤ 0) := by norm_num
  have hd : toDouble ((10 : α) * (8691947280825057 / 9007199254740992)) =
      5432467050515661 / 562949953421312 := by
    rw [toDouble_eval _ 3 5432467050515661 (by norm_num)
      (by rw [abs_of_pos (by norm_num)]; norm_num)
      (by rw [abs_of_pos (by norm_num)]; norm_num)
      (by norm_num [abs_lt])]
    norm_num
  have h200 : toDouble ((200 : α) - 1) = 199 := by
    rw [show (200 : α) - 1 = 199 by norm_num]; exact toDouble_199
  simp only [Particle.preCapF, Particle.applyDragF, Particle.attractF, Particle.turbulenceF,
    Particle.wanderF, burstParticle, idleMouse, sampleDraws, addD, subD, mulD, h200, hr,
    if_false, toDouble_half, sub_self, toDouble_zero, zero_mul, add_zero, toDouble_ten,
    toDouble_drag, hd, Bool.false_eq_true, and_self]

/-- The double nearest to the real square root of the double `93.1225`
(the rounded square of `9.65`) is `9.65` again. -/
theorem sqrt_burst :
    toDouble (Real.sqrt (1638228344921129 / 17592186044416)) =
      5432467050515661 / 562949953421312 := by
  have h0 : (0 : ℝ) ≤ Real.sqrt (1638228344921129 / 17592186044416) := Real.sqrt_nonneg _
  have lo : (10864934101031321 / 1125899906842624 : ℝ) <
      Real.sqrt (1638228344921129 / 17592186044416) := by
    rw [Real.lt_sqrt (by norm_num)]; norm_num
  have hi : Real.sqrt (1638228344921129 / 17592186044416) <
      (10864934101031323 / 1125899906842624 : ℝ) := by
    rw [Real.sqrt_lt' (by norm_num)]; norm_num
  have e : (2 : ℝ) ^ ((3 : ℤ) - 52) = 1 / 562949953421312 := by norm_num
  obtain ⟨s, hs⟩ : ∃ s, s = Real.sqrt (1638228344921129 / 17592186044416) := ⟨_, rfl⟩
  rw [← hs] at h0 lo hi ⊢
  rw [toDouble_eval s 3 5432467050515661 (by norm_num)
    (by rw [abs_of_nonneg h0]; norm_num; linarith)
    (by rw [abs_of_nonneg h0]; norm_num; linarith)
    (by
      rw [e, abs_lt]
      constructor
      · norm_num; linarith
      · norm_num; linarith)]
  norm_num

/-- The rounded sum of squares of the speed cap against the exact one. -/
theorem sumsq_rounded (a b e : α) :
    0 ≤ addD (addD (mulD a a) (mulD b b)) (mulD e e) ∧
      a * a + b * b + e * e ≤
        (1 + 301 / 100 / 2 ^ 53) * addD (addD (mulD a a) (mulD b b)) (mulD e e) +
          10 * 2 ^ (-1075 : ℤ) ∧
      addD (addD (mulD a a) (mulD b b)) (mulD e e) ≤
        (1 + 301 / 100 / 2 ^ 53) * (a * a + b * b + e * e) + 10 * 2 ^ (-1075 : ℤ) := by
  obtain ⟨hη, -, -⟩ := eta_facts (α := α)
  have ha0 := mul_self_nonneg a
  have hb0 := mul_self_nonneg b
  have he0 := mul_self_nonneg e
  have hA0 : 0 ≤ mulD a a := roundBits_nonneg _ _ _ ha0
  have hB0 : 0 ≤ mulD b b := roundBits_nonneg _ _ _ hb0
  have hE0 : 0 ≤ mulD e e := roundBits_nonneg _ _ _ he0
  have hA := abs_le.mp (toDouble_err (a * a))
  have hB := abs_le.mp (toDouble_err (b * b))
  have hE := abs_le.mp (toDouble_err (e * e))
  rw [abs_of_nonneg ha0] at hA
  rw [abs_of_nonneg hb0] at hB
  rw [abs_of_nonneg he0] at hE
  change _ ≤ mulD a a - a * a ∧ mulD a a - a * a ≤ _ at hA
  change _ ≤ mulD b b - b * b ∧ mulD b b - b * b ≤ _ at hB
  change _ ≤ mulD e e - e * e ∧ mulD e e - e * e ≤ _ at hE
  obtain ⟨A, hAe⟩ : ∃ A, A = mulD a a := ⟨_, rfl⟩
  obtain ⟨B, hBe⟩ : ∃ B, B = mulD b b := ⟨_, rfl⟩
  obtain ⟨E, hEe⟩ : ∃ E, E = mulD e e := ⟨_, rfl⟩
  rw [← hAe] at hA hA0 ⊢
  rw [← hBe] at hB hB0 ⊢
  rw [← hEe] at hE hE0 ⊢
  have hS10 : 0 ≤ addD A B := roundBits_nonneg _ _ _ (by linarith)
  have hS1 := abs_le.mp (toDouble_err (A + B))
  rw [abs_of_nonneg (by linarith : 0 ≤ A + B)] at hS1
  change _ ≤ addD A B - (A + B) ∧ addD A B - (A + B) ≤ _ at hS1
  obtain ⟨S1, hS1e⟩ : ∃ S1, S1 = addD A B := ⟨_, rfl⟩
  rw [← hS1e] at hS1 hS10 ⊢
  have hS0 : 0 ≤ addD S1 E := roundBits_nonneg _ _ _ (by linarith)
  have hS := abs_le.mp (toDouble_err (S1 + E))
  rw [abs_of_nonneg (by linarith : 0 ≤ S1 + E)] at hS
  change _ ≤ addD S1 E - (S1 + E) ∧ addD S1 E - (S1 + E) ≤ _ at hS
  obtain ⟨S, hSe⟩ : ∃ S, S = addD S1 E := ⟨_, rfl⟩
  rw [← hSe] at hS hS0 ⊢
  obtain ⟨η, hηe⟩ : ∃ η : α, η = 2 ^ (-1075 : ℤ) := ⟨_, rfl⟩
  rw [← hηe] at hA hB hE hS1 hS hη ⊢
  refine ⟨hS0, ?_, ?_⟩
  · linarith [hA.1, hB.1, hE.1, hS1.1, hS.1]
  · linarith [hA.2, hB.2, hE.2, hS1.2, hS.2]

/-- The speed cap in double arithmetic: whatever the velocity before the cap
(with components of magnitude at most `2^500`, so that no square overflows), the
velocity after it has magnitude at most `1.75 * (1 + 2^-50)`. -/
theorem capSpeedF_le (M : MathLib α) (hs : SqrtRounded M.sqrt) (c : Particle α)
    (hx : |c.vx| ≤ 2 ^ 500) (hy : |c.vy| ≤ 2 ^ 500) (hz : |c.vz| ≤ 2 ^ 500) :
    (Particle.capSpeedF M c).vx * (Particle.capSpeedF M c).vx +
        (Particle.capSpeedF M c).vy * (Particle.capSpeedF M c).vy +
        (Particle.capSpeedF M c).vz * (Particle.capSpeedF M c).vz ≤
      (1.75 * (1 + 1 / 2 ^ 50)) ^ 2 := by
  obtain ⟨hη0, hη1, hη2⟩ := eta_facts (α := α)
  obtain ⟨hS0, hN, hSu⟩ := sumsq_rounded c.vx c.vy c.vz
  obtain ⟨s, hs0, hss, hsq⟩ := hs _ hS0
  have hcap : Particle.capSpeedF M c =
      if toDouble s > 1.75 then
        { c with vx := mulD c.vx (divD 1.75 (toDouble s)),
                 vy := mulD c.vy (divD 1.75 (toDouble s)),
                 vz := mulD c.vz (divD 1.75 (toDouble s)) }
      else c := by
    unfold Particle.capSpeedF
    simp only [maxSpeed_eq, hsq]
  rw [hcap]
  have herr := abs_le.mp (toDouble_err s)
  rw [abs_of_nonneg hs0] at herr
  rw [← hss] at hN hSu
  have hra := toDouble_err (c.vx * divD 1.75 (toDouble s))
  have hrb := toDouble_err (c.vy * divD 1.75 (toDouble s))
  have hre := toDouble_err (c.vz * divD 1.75 (toDouble s))
  have hrr := toDouble_err (1.75 / toDouble s)
  have hr0' : 0 ≤ toDouble s → 0 ≤ divD 1.75 (toDouble s) := fun h =>
    roundBits_nonneg _ _ _ (div_nonneg (by norm_num) h)
  obtain ⟨spd, hspd⟩ : ∃ spd, spd = toDouble s := ⟨_, rfl⟩
  rw [← hspd] at herr hra hrb hre hrr hr0' ⊢
  obtain ⟨η, hηe⟩ : ∃ η : α, η = 2 ^ (-1075 : ℤ) := ⟨_, rfl⟩
  rw [← hηe] at hη0 hη1 hη2 hN hSu herr hra hrb hre hrr
  by_cases h : spd > 1.75
  · rw [if_pos h]
    have hspd0 : 0 < spd := by linarith only [h]
    have hr0 := hr0' (le_of_lt hspd0)
    -- the range of the computed speed
    have hxx := mul_self_le_mul_self (abs_nonneg c.vx) hx
    have hyy := mul_self_le_mul_self (abs_nonneg c.vy) hy
    have hzz := mul_self_le_mul_self (abs_nonneg c.vz) hz
    rw [abs_mul_abs_self] at hxx hyy hzz
    obtain ⟨n1, n2⟩ := range_numbers η hη1
    have hk : (1 + 301 / 100 / 2 ^ 53) * (c.vx * c.vx + c.vy * c.vy + c.vz * c.vz) ≤
        (1 + 301 / 100 / 2 ^ 53) *
          (2 ^ 500 * 2 ^ 500 + 2 ^ 500 * 2 ^ 500 + 2 ^ 500 * 2 ^ 500) :=
      mul_le_mul_of_nonneg_left (by linarith only [hxx, hyy, hzz]) (by norm_num)
    have hs501 : s ≤ 2 ^ 501 :=
      (mul_self_le_mul_self_iff hs0 (by positivity)).mpr (by linarith only [hSu, hk, n1])
    have hspd502 : spd ≤ 2 ^ 502 := by
      have : s / 2 ^ 53 ≤ 2 ^ 501 / 2 ^ 53 := div_le_div_of_nonneg_right hs501 (by positivity)
      linarith only [herr.2, hs501, this, n2]
    have hηspd : η * spd ≤ 1 / 2 ^ 200 :=
      le_trans (mul_le_mul_of_nonneg_left hspd502 (le_of_lt hη0)) hη2
    -- the scaling factor
    have hρ : 1.75 / spd * spd = 1.75 := div_mul_cancel₀ _ (ne_of_gt hspd0)
    have hρ0 : (0 : α) ≤ 1.75 / spd := div_nonneg (by norm_num) (le_of_lt hspd0)
    rw [abs_of_nonneg hρ0] at hrr
    change |divD 1.75 spd - 1.75 / spd| ≤ _ at hrr
    have hrr' := (abs_le.mp hrr).2
    obtain ⟨r, hr⟩ : ∃ r, r = divD 1.75 spd := ⟨_, rfl⟩
    rw [← hr] at hrr' hr0 hra hrb hre ⊢
    have hrs : r * spd ≤ 1.75 * (1 + 101 / 100 / 2 ^ 53) := by
      have h1 : r * spd ≤ (1.75 / spd + (1.75 / spd / 2 ^ 53 + η)) * spd :=
        mul_le_mul_of_nonneg_right (by linarith only [hrr']) (le_of_lt hspd0)
      have e : (1.75 / spd + (1.75 / spd / 2 ^ 53 + η)) * spd =
          1.75 / spd * spd * (1 + 1 / 2 ^ 53) + η * spd := by ring
      rw [e, hρ] at h1
      have h2 : (1.75 : α) * (1 + 1 / 2 ^ 53) + 1 / 2 ^ 200 ≤ 1.75 * (1 + 101 / 100 / 2 ^ 53) := by
        norm_num
      linarith only [h1, h2, hηspd]
    have hsle : s ≤ spd * (1 + 101 / 100 / 2 ^ 53) := by
      have h1 : (1 : α) / 2 ^ 200 ≤ 1.75 * (1 / 100 / 2 ^ 53 - 101 / 100 / 2 ^ 53 / 2 ^ 53) := by
        norm_num
      have h2 : (0 : α) ≤ 1 / 100 / 2 ^ 53 - 101 / 100 / 2 ^ 53 / 2 ^ 53 := by norm_num
      have h3 := mul_le_mul_of_nonneg_right (le_of_lt h) h2
      have e : spd * (1 + 101 / 100 / 2 ^ 53) * (1 - 1 / 2 ^ 53) =
          spd + spd * (1 / 100 / 2 ^ 53 - 101 / 100 / 2 ^ 53 / 2 ^ 53) := by ring
      have h4 : s * (1 - 1 / 2 ^ 53) ≤ spd * (1 + 101 / 100 / 2 ^ 53) * (1 - 1 / 2 ^ 53) := by
        rw [e]
        have e2 : s * (1 - 1 / 2 ^ 53) = s - s / 2 ^ 53 := by ring
        rw [e2]
        linarith only [herr.1, h1, h3, hη1]
      exact le_of_mul_le_mul_right h4 (by norm_num)
    have hP := scaled_sumsq c.vx c.vy c.vz r s spd (1 + 301 / 100 / 2 ^ 53)
      (1.75 * (1 + 101 / 100 / 2 ^ 53) * (1 + 101 / 100 / 2 ^ 53)) (1 + 101 / 100 / 2 ^ 53) η
      (le_of_lt hη0) (by norm_num) (by norm_num) hs0 hr0 h hN hsle hrs rfl (by norm_num)
    obtain ⟨c1, c2⟩ := cap_numbers η (le_of_lt hη0) hη1
    have hη1' : η ≤ 1 := by
      have : (1 : α) / 2 ^ 200 ≤ 1 := by norm_num
      linarith only [hη1, this]
    have hfin := rounded_sumsq (c.vx * r) (c.vy * r) (c.vz * r) (mulD c.vx r) (mulD c.vy r)
      (mulD c.vz r) _ η (le_of_lt hη0) hη1' hP c2 hra hrb hre
    exact le_trans hfin c1
  · rw [if_neg h]
    have hs1 : s ≤ 1.75 * (1 + 101 / 100 / 2 ^ 53) := by
      have h1 : (1 : α) / 2 ^ 200 ≤ 1.75 * (1 / 100 / 2 ^ 53 - 101 / 100 / 2 ^ 53 / 2 ^ 53) := by
        norm_num
      have e : (1.75 : α) * (1 + 101 / 100 / 2 ^ 53) * (1 - 1 / 2 ^ 53) =
          1.75 + 1.75 * (1 / 100 / 2 ^ 53 - 101 / 100 / 2 ^ 53 / 2 ^ 53) := by ring
      have h4 : s * (1 - 1 / 2 ^ 53) ≤ 1.75 * (1 + 101 / 100 / 2 ^ 53) * (1 - 1 / 2 ^ 53) := by
        rw [e]
        have e2 : s * (1 - 1 / 2 ^ 53) = s - s / 2 ^ 53 := by ring
        rw [e2]
        linarith only [herr.1, h1, hη1, not_lt.mp h]
      exact le_of_mul_le_mul_right h4 (by norm_num)
    have hs2 := mul_self_le_mul_self hs0 hs1
    have hs3 : (1 + 301 / 100 / 2 ^ 53) * (s * s) ≤ (1 + 301 / 100 / 2 ^ 53) *
        (1.75 * (1 + 101 / 100 / 2 ^ 53) * (1.75 * (1 + 101 / 100 / 2 ^ 53))) :=
      mul_le_mul_of_nonneg_left hs2 (by norm_num)
    have hu := uncapped_numbers η hη1
    linarith only [hN, hs3, hu]

/-- A rounding at most doubles a bound that is at least 1. -/
theorem toDouble_abs_le (x K : α) (hK : 1 ≤ K) (hx : |x| ≤ K) : |toDouble x| ≤ 2 * K := by
  obtain ⟨hη0, hη1, -⟩ := eta_facts (α := α)
  have h := toDouble_err x
  have h1 := abs_sub_abs_le_abs_sub (toDouble x) x
  have h2 : |x| / 2 ^ 53 ≤ K / 2 ^ 53 := div_le_div_of_nonneg_right hx (by positivity)
  have h3 : K / 2 ^ 53 + 1 / 2 ^ 200 ≤ K := by
    have : (1 : α) / 2 ^ 53 + 1 / 2 ^ 200 ≤ 1 := by norm_num
    have h4 := mul_le_mul_of_nonneg_left this (by linarith only [hK] : (0 : α) ≤ K)
    have e : K * (1 / 2 ^ 53 + 1 / 2 ^ 200) = K / 2 ^ 53 + K * (1 / 2 ^ 200) := by ring
    have h5 : (1 : α) * (1 / 2 ^ 200) ≤ K * (1 / 2 ^ 200) :=
      mul_le_mul_of_nonneg_right hK (by norm_num)
    linarith only [h4, e, h5]
  linarith only [h, h1, h2, h3, hη1, hx]

/-- Magnitude of a rounded sum. -/
theorem addD_abs_le (a b Ka Kb K : α) (ha : |a| ≤ Ka) (hb : |b| ≤ Kb) (h1 : 1 ≤ Ka + Kb)
    (hK : 2 * (Ka + Kb) ≤ K) : |addD a b| ≤ K :=
  le_trans (toDouble_abs_le (a + b) (Ka + Kb) h1
    (le_trans (abs_add a b) (add_le_add ha hb))) hK

/-- Magnitude of a rounded difference. -/
theorem subD_abs_le (a b Ka Kb K : α) (ha : |a| ≤ Ka) (hb : |b| ≤ Kb) (h1 : 1 ≤ Ka + Kb)
    (hK : 2 * (Ka + Kb) ≤ K) : |subD a b| ≤ K :=
  le_trans (toDouble_abs_le (a - b) (Ka + Kb) h1
    (le_trans (abs_sub a b) (add_le_add ha hb))) hK

/-- Magnitude of a rounded product. -/
theorem mulD_abs_le (a b Ka Kb K : α) (ha : |a| ≤ Ka) (hb : |b| ≤ Kb) (h1 : 1 ≤ Ka * Kb)
    (hK : 2 * (Ka * Kb) ≤ K) : |mulD a b| ≤ K := by
  have h : |a * b| ≤ Ka * Kb := by
    rw [abs_mul]
    exact mul_le_mul ha hb (abs_nonneg b) (le_trans (abs_nonneg a) ha)
  exact le_trans (toDouble_abs_le (a * b) (Ka * Kb) h1 h) hK

/-- Magnitude of a rounded quotient by a number of magnitude at least 1. -/
theorem divD_abs_le (a b Ka K : α) (ha : |a| ≤ Ka) (hb : 1 ≤ |b|) (h1 : 1 ≤ Ka)
    (hK : 2 * Ka ≤ K) : |divD a b| ≤ K := by
  have hb0 : 0 < |b| := lt_of_lt_of_le one_pos hb
  have h : |a / b| ≤ Ka := by
    rw [abs_div, div_le_iff₀ hb0]
    have : Ka * 1 ≤ Ka * |b| := mul_le_mul_of_nonneg_left hb (by linarith only [h1])
    linarith only [ha, this]
  exact le_trans (toDouble_abs_le (a / b) Ka h1 h) hK

/-- The double of a decimal literal of size at most 1 has size at most 2. -/
theorem literal_abs_le (x : α) (hx : |x| ≤ 1) : |toDouble x| ≤ 2 := by
  have := toDouble_abs_le x 1 (le_refl 1) hx
  linarith only [this]

/-- Magnitude of a centred draw `Math.random() - 0.5`. -/
theorem centred_draw_abs_le (r : α) (h : 0 ≤ r ∧ r ≤ 1) : |subD r (toDouble 0.5)| ≤ 4 :=
  subD_abs_le r (toDouble 0.5) 1 1 4 (abs_le_one_of_unit r h)
    (by rw [toDouble_half]; norm_num [abs_le]) (by norm_num) (by norm_num)

/-- Magnitude of one coordinate of a new wander target. -/
theorem newTarget_comp (r W c : α) (hr : 0 ≤ r ∧ r ≤ 1) (hW : |W| ≤ 2 ^ 401) (hc : |c| ≤ 6) :
    |mulD (mulD (subD r (toDouble 0.5)) W) c| ≤ 2 ^ 408 :=
  mulD_abs_le _ c (2 ^ 404) 6 _
    (mulD_abs_le _ W 4 (2 ^ 401) _ (centred_draw_abs_le r hr) hW (by norm_num) (by norm_num))
    hc (by norm_num) (by norm_num)

/-- Magnitude of one velocity component after the wander step. -/
theorem wander_comp (v t x c : α) (hv : |v| ≤ 2 ^ 400) (ht : |t| ≤ 2 ^ 408)
    (hx : |x| ≤ 2 ^ 400) (hc : |c| ≤ 2) : |addD v (mulD (subD t x) c)| ≤ 2 ^ 414 :=
  addD_abs_le v _ (2 ^ 400) (2 ^ 412) _ hv
    (mulD_abs_le _ c (2 ^ 410) 2 _
      (subD_abs_le t x (2 ^ 408) (2 ^ 400) _ ht hx (by norm_num) (by norm_num))
      hc (by norm_num) (by norm_num))
    (by norm_num) (by norm_num)

/-- Magnitude of the `x` or `y` velocity component after the turbulence step. -/
theorem turbulence_comp (v r c : α) (hv : |v| ≤ 2 ^ 414) (hr : 0 ≤ r ∧ r ≤ 1) (hc : |c| ≤ 2) :
    |addD v (mulD (subD r (toDouble 0.5)) c)| ≤ 2 ^ 416 :=
  addD_abs_le v _ (2 ^ 414) 16 _ hv
    (mulD_abs_le _ c 4 2 _ (centred_draw_abs_le r hr) hc (by norm_num) (by norm_num))
    (by norm_num) (by norm_num)

/-- Magnitude of the `z` velocity component after the turbulence step. -/
theorem turbulence_comp_z (v r c c2 : α) (hv : |v| ≤ 2 ^ 414) (hr : 0 ≤ r ∧ r ≤ 1)
    (hc : |c| ≤ 2) (hc2 : |c2| ≤ 2) :
    |addD v (mulD (mulD (subD r (toDouble 0.5)) c) c2)| ≤ 2 ^ 416 :=
  addD_abs_le v _ (2 ^ 414) 64 _ hv
    (mulD_abs_le _ c2 16 2 _
      (mulD_abs_le _ c 4 2 _ (centred_draw_abs_le r hr) hc (by norm_num) (by norm_num))
      hc2 (by norm_num) (by norm_num))
    (by norm_num) (by norm_num)

/-- Magnitude of the attraction strength `f` for a distance `d` with `1 < d < R`. -/
theorem strength_abs_le (d R a b : α) (hd : 1 < d) (hR : d < R) (ha : |a| ≤ 6) (hb : |b| ≤ 2) :
    |mulD (mulD (subD 1 (divD d R)) a) b| ≤ 2 ^ 9 := by
  have hd0 : 0 < d := lt_trans one_pos hd
  have hR0 : 0 < R := lt_trans hd0 hR
  have hq : |d / R| ≤ 1 := by
    rw [abs_div, abs_of_pos hd0, abs_of_pos hR0, div_le_one hR0]
    exact le_of_lt hR
  have h1 : |divD d R| ≤ 2 := by
    have := toDouble_abs_le (d / R) 1 (le_refl 1) hq
    exact le_trans this (by norm_num)
  exact mulD_abs_le _ b 72 2 _
    (mulD_abs_le _ a 6 6 _
      (subD_abs_le 1 _ 1 2 _ (by norm_num) h1 (by norm_num) (by norm_num))
      ha (by norm_num) (by norm_num))
    hb (by norm_num) (by norm_num)

/-- Magnitude of the `x` or `y` velocity component after the attraction step. -/
theorem attract_comp (v dx d f : α) (hv : |v| ≤ 2 ^ 416) (hdx : |dx| ≤ 2 ^ 402) (hd : 1 < d)
    (hf : |f| ≤ 2 ^ 9) : |addD v (mulD (divD dx d) f)| ≤ 2 ^ 418 :=
  addD_abs_le v _ (2 ^ 416) (2 ^ 413) _ hv
    (mulD_abs_le _ f (2 ^ 403) (2 ^ 9) _
      (divD_abs_le dx d (2 ^ 402) _ hdx (le_trans (le_of_lt hd) (le_abs_self d)) (by norm_num)
        (by norm_num))
      hf (by norm_num) (by norm_num))
    (by norm_num) (by norm_num)

/-- Magnitude of the `z` velocity component after the attraction step. -/
theorem attract_comp_z (v dx d f c : α) (hv : |v| ≤ 2 ^ 416) (hdx : |dx| ≤ 2 ^ 402)
    (hd : 1 < d) (hf : |f| ≤ 2 ^ 9) (hc : |c| ≤ 2) :
    |addD v (mulD (mulD (divD dx d) f) c)| ≤ 2 ^ 418 :=
  addD_abs_le v _ (2 ^ 416) (2 ^ 415) _ hv
    (mulD_abs_le _ c (2 ^ 413) 2 _
      (mulD_abs_le _ f (2 ^ 403) (2 ^ 9) _
        (divD_abs_le dx d (2 ^ 402) _ hdx (le_trans (le_of_lt hd) (le_abs_self d)) (by norm_num)
          (by norm_num))
        hf (by norm_num) (by norm_num))
      hc (by norm_num) (by norm_num))
    (by norm_num) (by norm_num)

/-- Magnitude of a velocity component after the drag step. -/
theorem drag_comp (v c : α) (hv : |v| ≤ 2 ^ 418) (hc : |c| ≤ 2) : |mulD v c| ≤ 2 ^ 500 :=
  mulD_abs_le v c (2 ^ 418) 2 _ hv hc (by norm_num) (by norm_num)

/-- Range of the velocity after the wander step; the position is not touched. -/
theorem wanderF_range (W H : α) (r : TargetDraws α) (p : Particle α)
    (hv : p.VelLe (2 ^ 400)) (hp : p.PosLe (2 ^ 400)) (ht : p.TargetLe (2 ^ 400))
    (hW : |W| ≤ 2 ^ 400) (hH : |H| ≤ 2 ^ 400)
    (hrx : 0 ≤ r.rx ∧ r.rx ≤ 1) (hry : 0 ≤ r.ry ∧ r.ry ≤ 1) (hrz : 0 ≤ r.rz ∧ r.rz ≤ 1) :
    (Particle.wanderF W H r p).VelLe (2 ^ 414) ∧ (Particle.wanderF W H r p).PosLe (2 ^ 400) := by
  obtain ⟨hvx, hvy, hvz⟩ := hv
  obtain ⟨hpx, hpy, hpz⟩ := hp
  obtain ⟨htx, hty, htz⟩ := ht
  have c7 : |toDouble (0.00007 : α)| ≤ 2 := literal_abs_le _ (by norm_num [abs_le])
  have c5 : |toDouble (0.00005 : α)| ≤ 2 := literal_abs_le _ (by norm_num [abs_le])
  have c2 : |toDouble (2.0 : α)| ≤ 6 :=
    le_trans (toDouble_abs_le _ 3 (by norm_num) (by norm_num [abs_le])) (by norm_num)
  have c28 : |toDouble (2.8 : α)| ≤ 6 :=
    le_trans (toDouble_abs_le _ 3 (by norm_num) (by norm_num [abs_le])) (by norm_num)
  have cd : |toDouble (CFG : Cfg α).depth| ≤ 2 ^ 401 :=
    le_trans (toDouble_abs_le _ (2 ^ 400) (by norm_num) (by simp only [CFG]; norm_num [abs_le]))
      (by norm_num)
  have hW' : |W| ≤ 2 ^ 401 := le_trans hW (by norm_num)
  have hH' : |H| ≤ 2 ^ 401 := le_trans hH (by norm_num)
  have e8 : (2 : α) ^ 400 ≤ 2 ^ 408 := by norm_num
  unfold Particle.wanderF Particle.VelLe Particle.PosLe
  by_cases h : subD p.retarget 1 ≤ 0
  · simp only [h, if_true, Particle.newTargetF]
    exact ⟨⟨wander_comp _ _ _ _ hvx (newTarget_comp _ _ _ hrx hW' c2) hpx c7,
      wander_comp _ _ _ _ hvy (newTarget_comp _ _ _ hry hH' c2) hpy c7,
      wander_comp _ _ _ _ hvz (newTarget_comp _ _ _ hrz cd c28) hpz c5⟩, hpx, hpy, hpz⟩
  · simp only [h, if_false]
    exact ⟨⟨wander_comp _ _ _ _ hvx (le_trans htx e8) hpx c7,
      wander_comp _ _ _ _ hvy (le_trans hty e8) hpy c7,
      wander_comp _ _ _ _ hvz (le_trans htz e8) hpz c5⟩, hpx, hpy, hpz⟩

/-- Range of the velocity after the turbulence step; the position is not touched. -/
theorem turbulenceF_range (d : UpdateDraws α) (p : Particle α)
    (hv : p.VelLe (2 ^ 414)) (hp : p.PosLe (2 ^ 400))
    (hX : 0 ≤ d.turbX ∧ d.turbX ≤ 1) (hY : 0 ≤ d.turbY ∧ d.turbY ≤ 1)
    (hZ : 0 ≤ d.turbZ ∧ d.turbZ ≤ 1) :
    (Particle.turbulenceF d p).VelLe (2 ^ 416) ∧ (Particle.turbulenceF d p).PosLe (2 ^ 400) := by
  obtain ⟨hvx, hvy, hvz⟩ := hv
  have ct : |toDouble (CFG : Cfg α).turbulence| ≤ 2 :=
    literal_abs_le _ (by simp only [CFG]; norm_num [abs_le])
  have ch : |toDouble (0.5 : α)| ≤ 2 := literal_abs_le _ (by norm_num [abs_le])
  unfold Particle.turbulenceF Particle.VelLe Particle.PosLe
  exact ⟨⟨turbulence_comp _ _ _ hvx hX ct, turbulence_comp _ _ _ hvy hY ct,
    turbulence_comp_z _ _ _ _ hvz hZ ct ch⟩, hp⟩

/-- Range of the velocity after the attraction step. -/
theorem attractF_range (M : MathLib α) (m : Mouse3D α) (p : Particle α)
    (hv : p.VelLe (2 ^ 416)) (hp : p.PosLe (2 ^ 400))
    (hm : |m.x| ≤ 2 ^ 400 ∧ |m.y| ≤ 2 ^ 400 ∧ |m.z| ≤ 2 ^ 400) :
    (Particle.attractF M m p).VelLe (2 ^ 418) := by
  obtain ⟨hvx, hvy, hvz⟩ := hv
  obtain ⟨hpx, hpy, hpz⟩ := hp
  obtain ⟨hmx, hmy, hmz⟩ := hm
  have e : (2 : α) ^ 416 ≤ 2 ^ 418 := by norm_num
  have keep : p.VelLe (2 ^ 418) := ⟨le_trans hvx e, le_trans hvy e, le_trans hvz e⟩
  have cs : |toDouble (CFG : Cfg α).mouseStrength| ≤ 6 :=
    le_trans (toDouble_abs_le _ 3 (by norm_num) (by simp only [CFG]; norm_num [abs_le]))
      (by norm_num)
  have c13 : |toDouble (0.013 : α)| ≤ 2 := literal_abs_le _ (by norm_num [abs_le])
  have c45 : |toDouble (0.45 : α)| ≤ 2 := literal_abs_le _ (by norm_num [abs_le])
  have dx : |subD m.x p.x| ≤ 2 ^ 402 :=
    subD_abs_le _ _ (2 ^ 400) (2 ^ 400) _ hmx hpx (by norm_num) (by norm_num)
  have dy : |subD m.y p.y| ≤ 2 ^ 402 :=
    subD_abs_le _ _ (2 ^ 400) (2 ^ 400) _ hmy hpy (by norm_num) (by norm_num)
  have dz : |subD m.z p.z| ≤ 2 ^ 402 :=
    subD_abs_le _ _ (2 ^ 400) (2 ^ 400) _ hmz hpz (by norm_num) (by norm_num)
  unfold Particle.attractF
  by_cases ha : m.active = true
  · rw [if_pos ha]
    simp only []
    split_ifs with hc
    · have hf := strength_abs_le _ _ _ _ hc.2 hc.1 cs c13
      exact ⟨attract_comp _ _ _ _ hvx dx hc.2 hf, attract_comp _ _ _ _ hvy dy hc.2 hf,
        attract_comp_z _ _ _ _ _ hvz dz hc.2 hf c45⟩
    · exact keep
  · rw [if_neg ha]
    exact keep

/-- No overflow before the speed cap: from fields, pointer coordinates and
viewport sizes of magnitude at most `2^400` and draws in `[0, 1]`, the velocity
that enters the speed cap has components of magnitude at most `2^500`. -/
theorem preCapF_range (M : MathLib α) (W H : α) (m : Mouse3D α) (d : UpdateDraws α)
    (p : Particle α)
    (hv : p.VelLe (2 ^ 400)) (hp : p.PosLe (2 ^ 400)) (ht : p.TargetLe (2 ^ 400))
    (hm : |m.x| ≤ 2 ^ 400 ∧ |m.y| ≤ 2 ^ 400 ∧ |m.z| ≤ 2 ^ 400)
    (hW : |W| ≤ 2 ^ 400) (hH : |H| ≤ 2 ^ 400) (hd : d.InUnit) :
    (p.preCapF M W H m d).VelLe (2 ^ 500) := by
  obtain ⟨hrx, hry, hrz, -, hX, hY, hZ⟩ := hd
  obtain ⟨w1, w2⟩ := wanderF_range W H d.target p hv hp ht hW hH hrx hry hrz
  obtain ⟨t1, t2⟩ := turbulenceF_range d _ w1 w2 hX hY hZ
  obtain ⟨a1, a2, a3⟩ := attractF_range M m _ t1 t2 hm
  have cdr : |toDouble (CFG : Cfg α).drag| ≤ 2 :=
    literal_abs_le _ (by simp only [CFG]; norm_num [abs_le])
  unfold Particle.preCapF Particle.applyDragF Particle.VelLe
  exact ⟨drag_comp _ _ a1 cdr, drag_comp _ _ a2 cdr, drag_comp _ _ a3 cdr⟩

end RoundedLemmas

end Lemmas

section Properties

variable {α : Type} [LinearOrderedField α]

/-- C1 (wrap invariant): for a viewport with `W, H ≥ 0`, whatever the particle,
the pointer and the random draws, the position after one `update()` lies in
`[-1.3W, 1.3W] × [-1.3H, 1.3H] × [-1.7 depth, 1.7 depth]`; hence every particle
of a scene lies in that box after any positive number of `draw()` ticks. -/
theorem update_wrap_invariant (M : MathLib α) (W H : α) (hW : 0 ≤ W) (hH : 0 ≤ H)
    (m : Mouse3D α) (d : UpdateDraws α) (p : Particle α)
    (s : Scene α) (rnds : List (ℕ → UpdateDraws α)) (hsW : s.W = W) (hsH : s.H = H)
    (hne : rnds ≠ []) :
    (-(1.3 * W) ≤ (p.update M W H m d).x ∧ (p.update M W H m d).x ≤ 1.3 * W ∧
      -(1.3 * H) ≤ (p.update M W H m d).y ∧ (p.update M W H m d).y ≤ 1.3 * H ∧
      -(1.7 * (CFG : Cfg α).depth) ≤ (p.update M W H m d).z ∧
      (p.update M W H m d).z ≤ 1.7 * (CFG : Cfg α).depth) ∧
    (∀ q ∈ (runFrames M rnds s).particles,
      -(1.3 * W) ≤ q.x ∧ q.x ≤ 1.3 * W ∧ -(1.3 * H) ≤ q.y ∧ q.y ≤ 1.3 * H ∧
      -(1.7 * (CFG : Cfg α).depth) ≤ q.z ∧ q.z ≤ 1.7 * (CFG : Cfg α).depth) := by
  constructor
  · obtain ⟨⟨a, b⟩, ⟨c, d'⟩, e, f⟩ := update_inBox M W H hW hH m d p
    exact ⟨a, b, c, d', e, f⟩
  · intro q hq
    obtain ⟨⟨a, b⟩, ⟨c, d'⟩, e, f⟩ :=
      runFrames_inBox M W H hW hH rnds s hsW hsH (Or.inl hne) q hq
    exact ⟨a, b, c, d', e, f⟩

/-- Witness of C1 over the reals: the sample particle in an 800 x 600 viewport,
and the sample scene after two frames. -/
theorem update_wrap_invariant_witness :
    ((0 : ℝ) ≤ 800 ∧ (0 : ℝ) ≤ 600 ∧ (sampleScene : Scene ℝ).W = 800 ∧
      (sampleScene : Scene ℝ).H = 600 ∧
      [(sampleRnd : ℕ → UpdateDraws ℝ), sampleRnd] ≠ []) ∧
    ((-(1.3 * 800) ≤ (sampleParticle.update ⟨Real.sqrt, Real.cos, Real.sin, Real.rpow⟩
        800 600 sampleMouse sampleDraws).x ∧
      (sampleParticle.update ⟨Real.sqrt, Real.cos, Real.sin, Real.rpow⟩
        800 600 sampleMouse sampleDraws).x ≤ 1.3 * 800 ∧
      -(1.3 * 600) ≤ (sampleParticle.update ⟨Real.sqrt, Real.cos, Real.sin, Real.rpow⟩
        800 600 sampleMouse sampleDraws).y ∧
      (sampleParticle.update ⟨Real.sqrt, Real.cos, Real.sin, Real.rpow⟩
        800 600 sampleMouse sampleDraws).y ≤ 1.3 * 600 ∧
      -(1.7 * (CFG : Cfg ℝ).depth) ≤ (sampleParticle.update
        ⟨Real.sqrt, Real.cos, Real.sin, Real.rpow⟩ 800 600 sampleMouse sampleDraws).z ∧
      (sampleParticle.update ⟨Real.sqrt, Real.cos, Real.sin, Real.rpow⟩
        800 600 sampleMouse sampleDraws).z ≤ 1.7 * (CFG : Cfg ℝ).depth) ∧
    (∀ q ∈ (runFrames ⟨Real.sqrt, Real.cos, Real.sin, Real.rpow⟩
        [sampleRnd, sampleRnd] sampleScene).particles,
      -(1.3 * 800) ≤ q.x ∧ q.x ≤ 1.3 * 800 ∧ -(1.3 * 600) ≤ q.y ∧ q.y ≤ 1.3 * 600 ∧
      -(1.7 * (CFG : Cfg ℝ).depth) ≤ q.z ∧ q.z ≤ 1.7 * (CFG : Cfg ℝ).depth)) :=
  ⟨⟨by norm_num, by norm_num, rfl, rfl, by simp⟩,
    update_wrap_invariant ⟨Real.sqrt, Real.cos, Real.sin, Real.rpow⟩ 800 600
      (by norm_num) (by norm_num) sampleMouse sampleDraws sampleParticle sampleScene
      [sampleRnd, sampleRnd] rfl rfl (by simp)⟩

/-- C5 (range invariant of the table): with an exact square root and a power
function that keeps `[0,1]`, the target of a pair at distance `d ≥ 0` lies in
`[0,1]`, the smoothing step maps `[0,1]` into `[0,1]`, the connection loops keep
every table entry in `[0,1]` whatever the particles and the order, and a scene
that starts with an all-zero table has every entry in `[0,1]` after any number
of `draw()` ticks. -/
theorem pairAlpha_range_invariant (M : MathLib α) (hs : SqrtExact M.sqrt) (hp : PowUnit M.pow)
    (cd d T V : α) (hd : 0 ≤ d) (hT0 : 0 ≤ T) (hT1 : T ≤ 1) (hV0 : 0 ≤ V) (hV1 : V ≤ 1)
    (count : ℕ) (ps : List (Particle α)) (order : List ℕ) (pa : List α)
    (hpa : ∀ v ∈ pa, 0 ≤ v ∧ v ≤ 1)
    (s : Scene α) (n : ℕ) (hzero : s.pairAlpha = List.replicate n 0)
    (rnds : List (ℕ → UpdateDraws α)) :
    (0 ≤ targetAlpha M cd d ∧ targetAlpha M cd d ≤ 1) ∧
    (0 ≤ blend T V ∧ blend T V ≤ 1) ∧
    (∀ v ∈ connectAll M count cd ps order pa, 0 ≤ v ∧ v ≤ 1) ∧
    (∀ v ∈ (runFrames M rnds s).pairAlpha, 0 ≤ v ∧ v ≤ 1) := by
  refine ⟨targetAlpha_mem_unit M hp cd d hd, blend_mem_unit T V hT0 hT1 hV0 hV1,
    connectAll_mem_unit M hs hp count cd ps order pa hpa,
    runFrames_pairAlpha_mem_unit M hs hp rnds s ?_⟩
  intro v hv
  rw [hzero] at hv
  rw [List.eq_of_mem_replicate hv]
  exact ⟨le_refl 0, zero_le_one⟩

/-- Witness of C5 over the reals with the real square root and power: the
sample scene (all-zero table of size 4) run for two frames. -/
theorem pairAlpha_range_invariant_witness :
    (SqrtExact Real.sqrt ∧ PowUnit Real.rpow ∧ (0 : ℝ) ≤ 100 ∧ (0 : ℝ) ≤ 0.5 ∧ (0.5 : ℝ) ≤ 1 ∧
      (0 : ℝ) ≤ 0.25 ∧ (0.25 : ℝ) ≤ 1 ∧ (∀ v ∈ [(0 : ℝ), 1, 0.5, 0], 0 ≤ v ∧ v ≤ 1) ∧
      (sampleScene : Scene ℝ).pairAlpha = List.replicate 4 0) ∧
    ((0 ≤ targetAlpha ⟨Real.sqrt, Real.cos, Real.sin, Real.rpow⟩ (350 : ℝ) 100 ∧
      targetAlpha ⟨Real.sqrt, Real.cos, Real.sin, Real.rpow⟩ (350 : ℝ) 100 ≤ 1) ∧
    (0 ≤ blend (0.5 : ℝ) 0.25 ∧ blend (0.5 : ℝ) 0.25 ≤ 1) ∧
    (∀ v ∈ connectAll ⟨Real.sqrt, Real.cos, Real.sin, Real.rpow⟩ 2 (350 : ℝ)
        [sampleParticle, sampleParticle] [1, 0] [(0 : ℝ), 1, 0.5, 0], 0 ≤ v ∧ v ≤ 1) ∧
    (∀ v ∈ (runFrames ⟨Real.sqrt, Real.cos, Real.sin, Real.rpow⟩ [sampleRnd, sampleRnd]
        (sampleScene : Scene ℝ)).pairAlpha, 0 ≤ v ∧ v ≤ 1)) :=
  have h : SqrtExact Real.sqrt := fun x hx => ⟨Real.sqrt_nonneg x, Real.mul_self_sqrt hx⟩
  have hp : PowUnit Real.rpow := fun b e hb hb1 he =>
    ⟨Real.rpow_nonneg hb e, Real.rpow_le_one hb hb1 he⟩
  have hl : ∀ v ∈ [(0 : ℝ), 1, 0.5, 0], 0 ≤ v ∧ v ≤ 1 := by
    intro v hv
    simp only [List.mem_cons, List.mem_singleton, List.not_mem_nil, or_false] at hv
    rcases hv with h | h | h | h <;> rw [h] <;> norm_num
  ⟨⟨h, hp, by norm_num, by norm_num, by norm_num, by norm_num, by norm_num, hl, rfl⟩,
    pairAlpha_range_invariant ⟨Real.sqrt, Real.cos, Real.sin, Real.rpow⟩ h hp 350 100 0.5 0.25
      (by norm_num) (by norm_num) (by norm_num) (by norm_num) (by norm_num)
      2 [sampleParticle, sampleParticle] [1, 0] [(0 : ℝ), 1, 0.5, 0] hl
      sampleScene 4 rfl [sampleRnd, sampleRnd]⟩

/-- C7 (idle drift): from a scene with `rotX = 0.18`, `rotY = 0`, `frame = 0`,
`lastMouseFrame = -9999`, with `draw()` run once for each of the `N` elements
of `rnds` and no event in between, each of the `N` ticks takes the idle branch,
and afterwards `rotY = N * 0.00028`, `rotX = 0.18 + N * 0.00011`, `frame = N`. -/
theorem idle_drift (M : MathLib α) (s : Scene α) (rnds : List (ℕ → UpdateDraws α))
    (hX : s.rotX = 0.18) (hY : s.rotY = 0) (hf : s.frame = 0)
    (hl : s.lastMouseFrame = -9999) :
    (∀ k, k < rnds.length → idleTick (runFrames M (rnds.take k) s) = true) ∧
    (runFrames M rnds s).rotY = (rnds.length : α) * 0.00028 ∧
    (runFrames M rnds s).rotX = 0.18 + (rnds.length : α) * 0.00011 ∧
    (runFrames M rnds s).frame = rnds.length := by
  have h := runFrames_idle M rnds s (by rw [hf]) hl
  refine ⟨fun k _ => ?_, ?_, ?_, ?_⟩
  · have hk := runFrames_idle M (rnds.take k) s (by rw [hf]) hl
    simp only [idleTick, hk.1, hk.2.1, hf, decide_eq_true_eq]
    omega
  · rw [h.2.2.1, hY, zero_add]
  · rw [h.2.2.2, hX]
  · rw [h.1, hf, zero_add]

/-- Witness of C7: the sample scene (which has the initial scene state) run
for three frames. -/
theorem idle_drift_witness :
    ((sampleScene : Scene ℝ).rotX = 0.18 ∧ (sampleScene : Scene ℝ).rotY = 0 ∧
      (sampleScene : Scene ℝ).frame = 0 ∧ (sampleScene : Scene ℝ).lastMouseFrame = -9999) ∧
    ((∀ k, k < [(sampleRnd : ℕ → UpdateDraws ℝ), sampleRnd, sampleRnd].length →
        idleTick (runFrames ⟨Real.sqrt, Real.cos, Real.sin, Real.rpow⟩
          ([(sampleRnd : ℕ → UpdateDraws ℝ), sampleRnd, sampleRnd].take k) sampleScene) = true) ∧
      (runFrames ⟨Real.sqrt, Real.cos, Real.sin, Real.rpow⟩
        [(sampleRnd : ℕ → UpdateDraws ℝ), sampleRnd, sampleRnd] sampleScene).rotY =
          ([(sampleRnd : ℕ → UpdateDraws ℝ), sampleRnd, sampleRnd].length : ℝ) * 0.00028 ∧
      (runFrames ⟨Real.sqrt, Real.cos, Real.sin, Real.rpow⟩
        [(sampleRnd : ℕ → UpdateDraws ℝ), sampleRnd, sampleRnd] sampleScene).rotX =
          0.18 + ([(sampleRnd : ℕ → UpdateDraws ℝ), sampleRnd, sampleRnd].length : ℝ) * 0.00011 ∧
      (runFrames ⟨Real.sqrt, Real.cos, Real.sin, Real.rpow⟩
        [(sampleRnd : ℕ → UpdateDraws ℝ), sampleRnd, sampleRnd] sampleScene).frame =
          [(sampleRnd : ℕ → UpdateDraws ℝ), sampleRnd, sampleRnd].length) :=
  ⟨⟨rfl, by norm_num [sampleScene], rfl, rfl⟩,
    idle_drift ⟨Real.sqrt, Real.cos, Real.sin, Real.rpow⟩ sampleScene
      [sampleRnd, sampleRnd, sampleRnd] rfl (by norm_num [sampleScene]) rfl rfl⟩

/-- C8, as stated, fails: with the pointer active at the origin and every
turbulence draw 0.5, (1) a particle at `(50, 0, 0)` already moving toward the
origin with speed 1 loses speed toward the origin (drag outweighs the
attraction), and (2) a particle at rest at `(0, 0, 50)` whose wander target is
`(0, 0, 900)` gains velocity away from the origin. -/
theorem attraction_gain_counterexample :
    ((approachingParticle : Particle ℝ).x * approachingParticle.x +
        approachingParticle.y * approachingParticle.y +
        approachingParticle.z * approachingParticle.z = 50 * 50 ∧
      gainTowardOrigin (approachingParticle : Particle ℝ)
        (approachingParticle.update ⟨Real.sqrt, Real.cos, Real.sin, Real.rpow⟩
          800 600 sampleMouse sampleDraws) < 0) ∧
    ((pulledParticle : Particle ℝ).x * pulledParticle.x +
        pulledParticle.y * pulledParticle.y +
        pulledParticle.z * pulledParticle.z = 50 * 50 ∧
      gainTowardOrigin (pulledParticle : Particle ℝ)
        (pulledParticle.update ⟨Real.sqrt, Real.cos, Real.sin, Real.rpow⟩
          800 600 sampleMouse sampleDraws) < 0) := by
  have h : SqrtExact Real.sqrt := fun x hx => ⟨Real.sqrt_nonneg x, Real.mul_self_sqrt hx⟩
  constructor
  · refine ⟨by norm_num [approachingParticle], ?_⟩
    obtain ⟨hx, hy, hz⟩ := update_velocity_near_pointer
      ⟨Real.sqrt, Real.cos, Real.sin, Real.rpow⟩ h 800 600 sampleMouse sampleDraws
      approachingParticle rfl rfl rfl rfl (by norm_num [approachingParticle])
      (by norm_num [approachingParticle]) _ _ _ rfl rfl rfl
      (by norm_num [approachingParticle, sampleDraws])
    unfold gainTowardOrigin
    rw [hx, hy, hz]
    norm_num [approachingParticle, sampleDraws]
  · refine ⟨by norm_num [pulledParticle], ?_⟩
    obtain ⟨hx, hy, hz⟩ := update_velocity_near_pointer
      ⟨Real.sqrt, Real.cos, Real.sin, Real.rpow⟩ h 800 600 sampleMouse sampleDraws
      pulledParticle rfl rfl rfl rfl (by norm_num [pulledParticle])
      (by norm_num [pulledParticle]) _ _ _ rfl rfl rfl
      (by norm_num [pulledParticle, sampleDraws])
    unfold gainTowardOrigin
    rw [hx, hy, hz]
    norm_num [pulledParticle, sampleDraws]

/-- C8, amended: in exact arithmetic with an exact square root and the pointer
active at the origin, for every particle at distance 50 from the origin,
whatever its prior velocity, wander target and random draws, the velocity change
of one `update()` has a strictly positive dot product with the unit vector `u`
toward the origin exactly when `v·u < k * 0.965 * (w·u + a)`.  Here `v` is the
prior velocity, `w` the velocity after the wander and turbulence steps, `a` the
attraction's own component toward the origin (`pullTowardOrigin`, between
`0.45 f` and `f` for `f = (1 - 50/230) * 2.2 * 0.013`), `0.965` the drag and `k`
in `(0, 1]` the factor of the speed cap.  In particular the dot product is
positive whenever the particle is not already moving toward the origin
(`v·u ≤ 0`) and wander and turbulence take away less than the attraction adds
(`v·u - a < w·u`). -/
theorem attraction_gain_iff (M : MathLib α) (hs : SqrtExact M.sqrt) (W H : α)
    (m : Mouse3D α) (d : UpdateDraws α) (p : Particle α)
    (hm : m.active = true) (hmx : m.x = 0) (hmy : m.y = 0) (hmz : m.z = 0)
    (hdist : p.x * p.x + p.y * p.y + p.z * p.z = 50 * 50) :
    (0 < gainTowardOrigin p (p.update M W H m d) ↔
        towardOrigin p p < Particle.capFactor M (p.preCap M W H m d) * 0.965 *
          (towardOrigin p (Particle.turbulence d (Particle.wander W H d.target p)) +
            pullTowardOrigin p)) ∧
      (0 < Particle.capFactor M (p.preCap M W H m d) ∧
        Particle.capFactor M (p.preCap M W H m d) ≤ 1) ∧
      (0.45 * ((1 - 50 / 230) * 2.2 * 0.013) ≤ pullTowardOrigin p ∧
        pullTowardOrigin p ≤ (1 - 50 / 230) * 2.2 * 0.013) ∧
      (towardOrigin p p ≤ 0 →
        towardOrigin p p - pullTowardOrigin p <
          towardOrigin p (Particle.turbulence d (Particle.wander W H d.target p)) →
        0 < gainTowardOrigin p (p.update M W H m d)) := by
  have hg := gain_formula M hs W H m d p hm hmx hmy hmz hdist
  have hk := capFactor_mem M (p.preCap M W H m d)
  refine ⟨?_, hk, pullTowardOrigin_mem p hdist, fun hv he => ?_⟩
  · rw [hg]
    constructor <;> intro h <;> linarith
  · rw [hg]
    obtain ⟨k, hke⟩ : ∃ k, k = Particle.capFactor M (p.preCap M W H m d) := ⟨_, rfl⟩
    rw [← hke] at hk ⊢
    obtain ⟨e, hee⟩ : ∃ e, e = towardOrigin p
      (Particle.turbulence d (Particle.wander W H d.target p)) := ⟨_, rfl⟩
    rw [← hee] at he ⊢
    have h1 : 0 < k * 0.965 := mul_pos hk.1 (by norm_num)
    have h2 : k * 0.965 ≤ 1 := by linarith [hk.2]
    have h3 : 0 < k * 0.965 * (e + pullTowardOrigin p - towardOrigin p p) :=
      mul_pos h1 (by linarith)
    have h4 : 0 ≤ (1 - k * 0.965) * (-towardOrigin p p) :=
      mul_nonneg (by linarith) (by linarith)
    nlinarith [h3, h4]

/-- Witness of C8 amended, over the reals: the particle at `(50, 0, 0)` that moves
away from the origin with speed 1. -/
theorem attraction_gain_iff_witness :
    (SqrtExact Real.sqrt ∧
      (recedingParticle : Particle ℝ).x * recedingParticle.x +
        recedingParticle.y * recedingParticle.y + recedingParticle.z * recedingParticle.z
        = 50 * 50 ∧
      towardOrigin (recedingParticle : Particle ℝ) recedingParticle ≤ 0 ∧
      towardOrigin (recedingParticle : Particle ℝ) recedingParticle -
          pullTowardOrigin (recedingParticle : Particle ℝ) <
        towardOrigin (recedingParticle : Particle ℝ)
          (Particle.turbulence sampleDraws
            (Particle.wander 800 600 sampleDraws.target recedingParticle))) ∧
    0 < gainTowardOrigin (recedingParticle : Particle ℝ)
      (recedingParticle.update ⟨Real.sqrt, Real.cos, Real.sin, Real.rpow⟩
        800 600 sampleMouse sampleDraws) :=
  have h : SqrtExact Real.sqrt := fun x hx => ⟨Real.sqrt_nonneg x, Real.mul_self_sqrt hx⟩
  have hd : (recedingParticle : Particle ℝ).x * recedingParticle.x +
      recedingParticle.y * recedingParticle.y + recedingParticle.z * recedingParticle.z
      = 50 * 50 := by norm_num [recedingParticle]
  have hv : towardOrigin (recedingParticle : Particle ℝ) recedingParticle ≤ 0 := by
    norm_num [towardOrigin, recedingParticle]
  have he : towardOrigin (recedingParticle : Particle ℝ) recedingParticle -
      pullTowardOrigin (recedingParticle : Particle ℝ) <
      towardOrigin (recedingParticle : Particle ℝ)
        (Particle.turbulence sampleDraws
          (Particle.wander 800 600 sampleDraws.target recedingParticle)) := by
    norm_num [towardOrigin, pullTowardOrigin, Particle.turbulence, Particle.wander,
      recedingParticle, sampleDraws, CFG]
  ⟨⟨h, hd, hv, he⟩,
    (attraction_gain_iff ⟨Real.sqrt, Real.cos, Real.sin, Real.rpow⟩ h 800 600 sampleMouse
      sampleDraws recedingParticle rfl rfl rfl rfl hd).2.2.2 hv he⟩

/-- C9 (projection without rotation): with `cos 0 = 1`, `sin 0 = 0` and
`rotX = rotY = 0`, `project()` returns `fz = z`, `sx = cx + x * scale` and
`sy = cy + y * scale` for every point; and for a point with `z = 0` whose
perspective denominator `fov*zoom + depth` exceeds 1 the scale is
`fov*zoom / (fov*zoom + depth)`. -/
theorem project_no_rotation (M : MathLib α) (hcos : M.cos 0 = 1) (hsin : M.sin 0 = 0)
    (s : Scene α) (hX : s.rotX = 0) (hY : s.rotY = 0) (p p0 : Particle α) (hz : p0.z = 0)
    (hpersp : (CFG : Cfg α).fov * s.zoom + (CFG : Cfg α).depth > 1) :
    ((p.project M s).fz = p.z ∧
      (p.project M s).sx = s.cx + p.x * (p.project M s).scale ∧
      (p.project M s).sy = s.cy + p.y * (p.project M s).scale) ∧
    (p0.project M s).scale =
      (CFG : Cfg α).fov * s.zoom / ((CFG : Cfg α).fov * s.zoom + (CFG : Cfg α).depth) := by
  refine ⟨project_flat M hcos hsin s p hX hY, ?_⟩
  have hfz := (project_flat M hcos hsin s p0 hX hY).1
  rw [project_scale, hfz, hz, add_zero, if_pos hpersp]

/-- Witness of C9 over the reals with the real cosine and sine: the scene with
zero rotation, the sample particle and a particle at the origin. -/
theorem project_no_rotation_witness :
    (Real.cos 0 = 1 ∧ Real.sin 0 = 0 ∧ (flatScene : Scene ℝ).rotX = 0 ∧
      (flatScene : Scene ℝ).rotY = 0 ∧ (nearOrb : Particle ℝ).z = 0 ∧
      (CFG : Cfg ℝ).fov * (flatScene : Scene ℝ).zoom + (CFG : Cfg ℝ).depth > 1) ∧
    (((sampleParticle.project ⟨Real.sqrt, Real.cos, Real.sin, Real.rpow⟩
          (flatScene : Scene ℝ)).fz = sampleParticle.z ∧
      (sampleParticle.project ⟨Real.sqrt, Real.cos, Real.sin, Real.rpow⟩
          (flatScene : Scene ℝ)).sx = flatScene.cx + sampleParticle.x *
        (sampleParticle.project ⟨Real.sqrt, Real.cos, Real.sin, Real.rpow⟩
          (flatScene : Scene ℝ)).scale ∧
      (sampleParticle.project ⟨Real.sqrt, Real.cos, Real.sin, Real.rpow⟩
          (flatScene : Scene ℝ)).sy = flatScene.cy + sampleParticle.y *
        (sampleParticle.project ⟨Real.sqrt, Real.cos, Real.sin, Real.rpow⟩
          (flatScene : Scene ℝ)).scale) ∧
      (nearOrb.project ⟨Real.sqrt, Real.cos, Real.sin, Real.rpow⟩ (flatScene : Scene ℝ)).scale =
        (CFG : Cfg ℝ).fov * (flatScene : Scene ℝ).zoom /
          ((CFG : Cfg ℝ).fov * (flatScene : Scene ℝ).zoom + (CFG : Cfg ℝ).depth)) :=
  have hp : (CFG : Cfg ℝ).fov * (flatScene : Scene ℝ).zoom + (CFG : Cfg ℝ).depth > 1 := by
    norm_num [CFG, flatScene, sampleScene]
  ⟨⟨Real.cos_zero, Real.sin_zero, rfl, rfl, rfl, hp⟩,
    project_no_rotation ⟨Real.sqrt, Real.cos, Real.sin, Real.rpow⟩ Real.cos_zero Real.sin_zero
      flatScene rfl rfl sampleParticle nearOrb rfl hp⟩

/-- C10, evaluated on two particles (camera rotation zero, zoom 1.75): the
particle at the origin has the larger projected scale (it is the nearer one,
both perspective denominators exceed 1), yet the draw order is `[0, 1]`: the
near particle is painted first and the far one over it. -/
theorem orbs_drawn_near_first :
    drawOrder ([(nearOrb : Particle ℝ), farOrb].map
      (Particle.project ⟨Real.sqrt, Real.cos, Real.sin, Real.rpow⟩ flatScene)) = [0, 1] ∧
    (CFG : Cfg ℝ).fov * (flatScene : Scene ℝ).zoom +
      ((nearOrb : Particle ℝ).project ⟨Real.sqrt, Real.cos, Real.sin, Real.rpow⟩ flatScene).fz +
      (CFG : Cfg ℝ).depth > 1 ∧
    (CFG : Cfg ℝ).fov * (flatScene : Scene ℝ).zoom +
      ((farOrb : Particle ℝ).project ⟨Real.sqrt, Real.cos, Real.sin, Real.rpow⟩ flatScene).fz +
      (CFG : Cfg ℝ).depth > 1 ∧
    ((farOrb : Particle ℝ).project ⟨Real.sqrt, Real.cos, Real.sin, Real.rpow⟩ flatScene).scale <
      ((nearOrb : Particle ℝ).project ⟨Real.sqrt, Real.cos, Real.sin, Real.rpow⟩
        flatScene).scale := by
  have hn := project_flat ⟨Real.sqrt, Real.cos, Real.sin, Real.rpow⟩ Real.cos_zero
    Real.sin_zero (flatScene : Scene ℝ) nearOrb rfl rfl
  have hf := project_flat ⟨Real.sqrt, Real.cos, Real.sin, Real.rpow⟩ Real.cos_zero
    Real.sin_zero (flatScene : Scene ℝ) farOrb rfl rfl
  have hnz : (nearOrb : Particle ℝ).z = 0 := rfl
  have hfz : (farOrb : Particle ℝ).z = 100 := rfl
  have hzoom : (flatScene : Scene ℝ).zoom = 1.75 := rfl
  refine ⟨?_, ?_, ?_, ?_⟩
  · have h01 : fzLE ([(nearOrb : Particle ℝ), farOrb].map
        (Particle.project ⟨Real.sqrt, Real.cos, Real.sin, Real.rpow⟩ flatScene)) 0 1 := by
      show fzAt _ 0 ≤ fzAt _ 1
      simp only [fzAt, List.map_cons, List.map_nil, List.getElem?_cons_zero,
        List.getElem?_cons_succ, hn.1, hf.1, hnz, hfz]
      norm_num
    simp only [drawOrder, List.map_cons, List.map_nil, List.length_cons, List.length_nil]
    simp only [List.map_cons, List.map_nil] at h01
    rw [show List.range (0 + 1 + 1) = [0, 1] from rfl]
    simp only [List.insertionSort, List.orderedInsert, h01, if_true]
  · rw [hn.1, hnz, hzoom]; norm_num [CFG]
  · rw [hf.1, hfz, hzoom]; norm_num [CFG]
  · rw [project_scale, project_scale, hn.1, hf.1, hnz, hfz, hzoom]
    norm_num [CFG]

/-- C11, evaluated on two particles (camera rotation zero, `count = 2`, table
all zero): when particle 0 is the farther one the depth order is `[1, 0]`, the
loop visits the pair `(i, j) = (1, 0)` with `i > j` and writes slot
`1*2 + 0 = 2`; when particle 0 is the nearer one the order is `[0, 1]` and the
same pair of indices uses slot `0*2 + 1 = 1`. -/
theorem pair_slot_follows_depth_order :
    (loopPairs (drawOrder ([(farOrb : Particle ℝ), nearOrb].map
        (Particle.project ⟨Real.sqrt, Real.cos, Real.sin, Real.rpow⟩ flatScene))) = [(1, 0)] ∧
      connectAll ⟨Real.sqrt, Real.cos, Real.sin, Real.rpow⟩ 2 350 [(farOrb : Particle ℝ), nearOrb]
        (drawOrder ([(farOrb : Particle ℝ), nearOrb].map
          (Particle.project ⟨Real.sqrt, Real.cos, Real.sin, Real.rpow⟩ flatScene)))
        [0, 0, 0, 0] =
        [0, 0, blend (targetAlpha ⟨Real.sqrt, Real.cos, Real.sin, Real.rpow⟩ 350 100) 0, 0]) ∧
    (loopPairs (drawOrder ([(nearOrb : Particle ℝ), farOrb].map
        (Particle.project ⟨Real.sqrt, Real.cos, Real.sin, Real.rpow⟩ flatScene))) = [(0, 1)] ∧
      connectAll ⟨Real.sqrt, Real.cos, Real.sin, Real.rpow⟩ 2 350 [(nearOrb : Particle ℝ), farOrb]
        (drawOrder ([(nearOrb : Particle ℝ), farOrb].map
          (Particle.project ⟨Real.sqrt, Real.cos, Real.sin, Real.rpow⟩ flatScene)))
        [0, 0, 0, 0] =
        [0, blend (targetAlpha ⟨Real.sqrt, Real.cos, Real.sin, Real.rpow⟩ 350 100) 0, 0, 0]) ∧
    0 < blend (targetAlpha ⟨Real.sqrt, Real.cos, Real.sin, Real.rpow⟩ (350 : ℝ) 100) 0 := by
  have h : SqrtExact Real.sqrt := fun x hx => ⟨Real.sqrt_nonneg x, Real.mul_self_sqrt hx⟩
  have hn := project_flat ⟨Real.sqrt, Real.cos, Real.sin, Real.rpow⟩ Real.cos_zero
    Real.sin_zero (flatScene : Scene ℝ) nearOrb rfl rfl
  have hf := project_flat ⟨Real.sqrt, Real.cos, Real.sin, Real.rpow⟩ Real.cos_zero
    Real.sin_zero (flatScene : Scene ℝ) farOrb rfl rfl
  have hnz : (nearOrb : Particle ℝ).z = 0 := rfl
  have hfz : (farOrb : Particle ℝ).z = 100 := rfl
  have hd1 : dist3D ⟨Real.sqrt, Real.cos, Real.sin, Real.rpow⟩ (nearOrb : Particle ℝ) farOrb
      = 100 := by
    have e : ((nearOrb : Particle ℝ).x - (farOrb : Particle ℝ).x) * (nearOrb.x - farOrb.x) +
        (nearOrb.y - farOrb.y) * (nearOrb.y - farOrb.y) +
        (nearOrb.z - farOrb.z) * (nearOrb.z - farOrb.z) = 100 * 100 := by
      norm_num [nearOrb, farOrb]
    simp only [dist3D]
    rw [e]
    exact sqrt_mul_self_of_nonneg Real.sqrt h 100 (by norm_num)
  have ho1 : drawOrder ([(farOrb : Particle ℝ), nearOrb].map
      (Particle.project ⟨Real.sqrt, Real.cos, Real.sin, Real.rpow⟩ flatScene)) = [1, 0] := by
    have h01 : ¬ fzLE ([(farOrb : Particle ℝ), nearOrb].map
        (Particle.project ⟨Real.sqrt, Real.cos, Real.sin, Real.rpow⟩ flatScene)) 0 1 := by
      show ¬ (fzAt _ 0 ≤ fzAt _ 1)
      simp only [fzAt, List.map_cons, List.map_nil, List.getElem?_cons_zero,
        List.getElem?_cons_succ, hn.1, hf.1, hnz, hfz]
      norm_num
    simp only [drawOrder, List.map_cons, List.map_nil, List.length_cons, List.length_nil]
    simp only [List.map_cons, List.map_nil] at h01
    rw [show List.range (0 + 1 + 1) = [0, 1] from rfl]
    simp only [List.insertionSort, List.orderedInsert, h01, if_false]
  have ho2 : drawOrder ([(nearOrb : Particle ℝ), farOrb].map
      (Particle.project ⟨Real.sqrt, Real.cos, Real.sin, Real.rpow⟩ flatScene)) = [0, 1] := by
    have h01 : fzLE ([(nearOrb : Particle ℝ), farOrb].map
        (Particle.project ⟨Real.sqrt, Real.cos, Real.sin, Real.rpow⟩ flatScene)) 0 1 := by
      show fzAt _ 0 ≤ fzAt _ 1
      simp only [fzAt, List.map_cons, List.map_nil, List.getElem?_cons_zero,
        List.getElem?_cons_succ, hn.1, hf.1, hnz, hfz]
      norm_num
    simp only [drawOrder, List.map_cons, List.map_nil, List.length_cons, List.length_nil]
    simp only [List.map_cons, List.map_nil] at h01
    rw [show List.range (0 + 1 + 1) = [0, 1] from rfl]
    simp only [List.insertionSort, List.orderedInsert, h01, if_true]
  refine ⟨⟨?_, ?_⟩, ⟨?_, ?_⟩, ?_⟩
  · rw [ho1]; rfl
  · rw [ho1]
    simp only [connectAll, loopPairs, List.map_cons, List.map_nil, List.append_nil,
      List.foldl_cons, List.foldl_nil, connectPair, List.getElem?_cons_zero,
      List.getElem?_cons_succ, hd1]
    rfl
  · rw [ho2]; rfl
  · rw [ho2]
    simp only [connectAll, loopPairs, List.map_cons, List.map_nil, List.append_nil,
      List.foldl_cons, List.foldl_nil, connectPair, List.getElem?_cons_zero,
      List.getElem?_cons_succ, hd1]
    rfl
  · have ht : 0 < targetAlpha ⟨Real.sqrt, Real.cos, Real.sin, Real.rpow⟩ (350 : ℝ) 100 := by
      simp only [targetAlpha]
      rw [if_pos (by norm_num)]
      exact Real.rpow_pos_of_pos (by norm_num) _
    simp only [blend]
    rw [if_pos ht]
    linarith

/-- C12 (distance): with `sqrt(0) = 0`, `dist3D(a, a) = 0` for every point `a`,
and `dist3D(a, b) = dist3D(b, a)` for all points `a`, `b`. -/
theorem dist3D_self_and_symm (M : MathLib α) (h0 : M.sqrt 0 = 0) (a b : Particle α) :
    dist3D M a a = 0 ∧ dist3D M a b = dist3D M b a := by
  constructor
  · simp only [dist3D, sub_self, mul_zero, add_zero]
    exact h0
  · simp only [dist3D]
    congr 1
    ring

/-- Witness of C12 over the reals with the real square root. -/
theorem dist3D_self_and_symm_witness :
    Real.sqrt 0 = 0 ∧
      dist3D ⟨Real.sqrt, Real.cos, Real.sin, Real.rpow⟩ (nearOrb : Particle ℝ) nearOrb = 0 ∧
      dist3D ⟨Real.sqrt, Real.cos, Real.sin, Real.rpow⟩ (nearOrb : Particle ℝ) farOrb =
        dist3D ⟨Real.sqrt, Real.cos, Real.sin, Real.rpow⟩ (farOrb : Particle ℝ) nearOrb :=
  ⟨Real.sqrt_zero,
    dist3D_self_and_symm ⟨Real.sqrt, Real.cos, Real.sin, Real.rpow⟩ Real.sqrt_zero nearOrb farOrb⟩

/-- C14, evaluated: in the scene with the pointer at the viewport centre
(`mouse3D` at the origin) and a particle at rest at `(60, 0, 0)`, a touch at
screen point `(500, 300)` unprojects to `(100, 0, 0)`, yet the burst of the
touch handler is centred at the old `mouse3D = (0, 0, 0)`: the particle is
pushed in the `+x` direction (toward the touch point), where a burst centred
at the touch point would push it in the `-x` direction. -/
theorem touch_burst_uses_old_centre :
    ((updateMouse3D ⟨Real.sqrt, Real.cos, Real.sin, Real.rpow⟩
        { (touchScene : Scene ℝ) with mouseSCRx := 500, mouseSCRy := 300 }).mouse3D.x = 100 ∧
      (updateMouse3D ⟨Real.sqrt, Real.cos, Real.sin, Real.rpow⟩
        { (touchScene : Scene ℝ) with mouseSCRx := 500, mouseSCRy := 300 }).mouse3D.y = 0 ∧
      (updateMouse3D ⟨Real.sqrt, Real.cos, Real.sin, Real.rpow⟩
        { (touchScene : Scene ℝ) with mouseSCRx := 500, mouseSCRy := 300 }).mouse3D.z = 0) ∧
    (onTouchStart ⟨Real.sqrt, Real.cos, Real.sin, Real.rpow⟩ 500 300
        (touchScene : Scene ℝ)).particles =
      [repelOne ⟨Real.sqrt, Real.cos, Real.sin, Real.rpow⟩
        { x := 0, y := 0, z := 0, active := false } burstTarget] ∧
    0 < (repelOne ⟨Real.sqrt, Real.cos, Real.sin, Real.rpow⟩
        { x := 0, y := 0, z := 0, active := false } (burstTarget : Particle ℝ)).vx ∧
    (repelOne ⟨Real.sqrt, Real.cos, Real.sin, Real.rpow⟩
        (updateMouse3D ⟨Real.sqrt, Real.cos, Real.sin, Real.rpow⟩
          { (touchScene : Scene ℝ) with mouseSCRx := 500, mouseSCRy := 300 }).mouse3D
        (burstTarget : Particle ℝ)).vx < 0 := by
  have h : SqrtExact Real.sqrt := fun x hx => ⟨Real.sqrt_nonneg x, Real.mul_self_sqrt hx⟩
  have hm : (updateMouse3D ⟨Real.sqrt, Real.cos, Real.sin, Real.rpow⟩
      { (touchScene : Scene ℝ) with mouseSCRx := 500, mouseSCRy := 300 }).mouse3D =
      { x := 100, y := 0, z := 0, active := false } := by
    simp only [updateMouse3D, touchScene, sampleScene]
    norm_num
  refine ⟨?_, rfl, ?_, ?_⟩
  · rw [hm]; exact ⟨rfl, rfl, rfl⟩
  · rw [repelOne_at ⟨Real.sqrt, Real.cos, Real.sin, Real.rpow⟩ h _ burstTarget 60
      (by norm_num) (by norm_num) (by norm_num [burstTarget])]
    norm_num [burstTarget, restingParticle]
  · rw [hm, repelOne_at ⟨Real.sqrt, Real.cos, Real.sin, Real.rpow⟩ h _ burstTarget 40
      (by norm_num) (by norm_num) (by norm_num [burstTarget])]
    norm_num [burstTarget, restingParticle]

/-- C16 (unprojection inverts the rotation): with exact cosine and sine and a
positive zoom, for every rotation and pointer position the forward rotation of
`project()` maps the point computed by `updateMouse3D()` to
`(mx - cx, my - cy, 0)`; so its projection has `fz = 0`, scale
`s = fov*zoom / (fov*zoom + depth)` and screen position
`(cx + (mx - cx) * s, cy + (my - cy) * s)`, which is the pointer position
exactly when the pointer is at the viewport centre. -/
theorem unproject_inverts_rotation (M : MathLib α) (ht : TrigExact M.cos M.sin) (s : Scene α)
    (hzoom : 0 < s.zoom) (p : Particle α) (hx : p.x = (updateMouse3D M s).mouse3D.x)
    (hy : p.y = (updateMouse3D M s).mouse3D.y) (hz : p.z = (updateMouse3D M s).mouse3D.z) :
    p.rotated M s = (s.mouseSCRx - s.cx, s.mouseSCRy - s.cy, 0) ∧
    (p.project M s).fz = 0 ∧
    (p.project M s).scale =
      (CFG : Cfg α).fov * s.zoom / ((CFG : Cfg α).fov * s.zoom + (CFG : Cfg α).depth) ∧
    (p.project M s).sx = s.cx + (s.mouseSCRx - s.cx) *
      ((CFG : Cfg α).fov * s.zoom / ((CFG : Cfg α).fov * s.zoom + (CFG : Cfg α).depth)) ∧
    (p.project M s).sy = s.cy + (s.mouseSCRy - s.cy) *
      ((CFG : Cfg α).fov * s.zoom / ((CFG : Cfg α).fov * s.zoom + (CFG : Cfg α).depth)) ∧
    (((p.project M s).sx = s.mouseSCRx ∧ (p.project M s).sy = s.mouseSCRy) ↔
      (s.mouseSCRx = s.cx ∧ s.mouseSCRy = s.cy)) := by
  have hr := rotated_updateMouse3D M ht s p hx hy hz
  obtain ⟨hfz, hsx, hsy⟩ := project_eq_rotated M s p
  rw [hr] at hfz hsx hsy
  simp only [] at hfz hsx hsy
  have hfov : 0 < (CFG : Cfg α).fov * s.zoom := by
    simp only [CFG]; positivity
  have hdepth : (CFG : Cfg α).depth = 700 := rfl
  have hpersp : (CFG : Cfg α).fov * s.zoom + (p.project M s).fz + (CFG : Cfg α).depth > 1 := by
    rw [hfz, hdepth]; linarith
  have hscale : (p.project M s).scale =
      (CFG : Cfg α).fov * s.zoom / ((CFG : Cfg α).fov * s.zoom + (CFG : Cfg α).depth) := by
    rw [project_scale, if_pos hpersp, hfz, add_zero]
  have hden : 0 < (CFG : Cfg α).fov * s.zoom + (CFG : Cfg α).depth := by
    rw [hdepth]; linarith
  have hlt : (CFG : Cfg α).fov * s.zoom / ((CFG : Cfg α).fov * s.zoom + (CFG : Cfg α).depth)
      < 1 := by
    rw [div_lt_one hden, hdepth]; linarith
  rw [hscale] at hsx hsy
  refine ⟨hr, hfz, hscale, hsx, hsy, ?_⟩
  rw [hsx, hsy]
  constructor
  · rintro ⟨h1, h2⟩
    constructor
    · by_contra hne
      have hne' : s.mouseSCRx - s.cx ≠ 0 := sub_ne_zero.mpr hne
      have : (CFG : Cfg α).fov * s.zoom /
          ((CFG : Cfg α).fov * s.zoom + (CFG : Cfg α).depth) = 1 := by
        have h3 : (s.mouseSCRx - s.cx) * ((CFG : Cfg α).fov * s.zoom /
            ((CFG : Cfg α).fov * s.zoom + (CFG : Cfg α).depth)) = (s.mouseSCRx - s.cx) * 1 := by
          linarith
        exact mul_left_cancel₀ hne' h3
      linarith
    · by_contra hne
      have hne' : s.mouseSCRy - s.cy ≠ 0 := sub_ne_zero.mpr hne
      have : (CFG : Cfg α).fov * s.zoom /
          ((CFG : Cfg α).fov * s.zoom + (CFG : Cfg α).depth) = 1 := by
        have h3 : (s.mouseSCRy - s.cy) * ((CFG : Cfg α).fov * s.zoom /
            ((CFG : Cfg α).fov * s.zoom + (CFG : Cfg α).depth)) = (s.mouseSCRy - s.cy) * 1 := by
          linarith
        exact mul_left_cancel₀ hne' h3
      linarith
  · rintro ⟨h1, h2⟩
    rw [h1, h2]
    simp

/-- Witness of C16 over the reals with the real cosine and sine: the pointer at
`(500, 350)` in the 800 x 600 sample scene (rotX = 0.18, zoom = 1.75). -/
theorem unproject_inverts_rotation_witness :
    (TrigExact Real.cos Real.sin ∧ 0 < (pointerScene : Scene ℝ).zoom) ∧
    (Particle.rotated ⟨Real.sqrt, Real.cos, Real.sin, Real.rpow⟩ (pointerScene : Scene ℝ)
        (pointerParticle ⟨Real.sqrt, Real.cos, Real.sin, Real.rpow⟩ pointerScene) =
        ((pointerScene : Scene ℝ).mouseSCRx - (pointerScene : Scene ℝ).cx,
          (pointerScene : Scene ℝ).mouseSCRy - (pointerScene : Scene ℝ).cy, 0) ∧
      (Particle.project ⟨Real.sqrt, Real.cos, Real.sin, Real.rpow⟩ (pointerScene : Scene ℝ)
        (pointerParticle ⟨Real.sqrt, Real.cos, Real.sin, Real.rpow⟩ pointerScene)).fz = 0) :=
  have ht : TrigExact Real.cos Real.sin :=
    ⟨Real.cos_neg, Real.sin_neg, fun x => by rw [← sq, ← sq]; exact Real.cos_sq_add_sin_sq x⟩
  have hz : 0 < (pointerScene : Scene ℝ).zoom := by norm_num [pointerScene, sampleScene]
  ⟨⟨ht, hz⟩,
    (unproject_inverts_rotation ⟨Real.sqrt, Real.cos, Real.sin, Real.rpow⟩ ht pointerScene hz
      (pointerParticle ⟨Real.sqrt, Real.cos, Real.sin, Real.rpow⟩ pointerScene) rfl rfl rfl).1,
    (unproject_inverts_rotation ⟨Real.sqrt, Real.cos, Real.sin, Real.rpow⟩ ht pointerScene hz
      (pointerParticle ⟨Real.sqrt, Real.cos, Real.sin, Real.rpow⟩ pointerScene) rfl rfl
      rfl).2.1⟩

section ConfigProperties

variable [FloorRing α]

/-- C3 (device tier): the `count` and `connectDist3D` set by `adjustConfig`
depend on the window width alone: 60 and 210 below 768, 105 and 280 from 768
up to (not including) 1200, 150 and 350 from 1200 on; these are
`floor(150*0.4)`, `floor(350*0.6)`, `floor(150*0.7)`, `floor(350*0.8)`, 150, 350.
In particular the widths 500, 900 and 1600 give the counts 60, 105 and 150. -/
theorem adjustConfig_tier (innerWidth pi : α) (seeds : ℕ → ParticleSeed α) (s : Scene α) :
    ((adjustConfig innerWidth pi seeds s).count =
        if innerWidth < 768 then 60 else if innerWidth < 1200 then 105 else 150) ∧
    ((adjustConfig innerWidth pi seeds s).connectDist3D =
        if innerWidth < 768 then 210 else if innerWidth < 1200 then 280 else 350) ∧
    (⌊(150 : α) * 0.4⌋ = 60 ∧ ⌊(350 : α) * 0.6⌋ = 210 ∧ ⌊(150 : α) * 0.7⌋ = 105 ∧
      ⌊(350 : α) * 0.8⌋ = 280) ∧
    ((adjustConfig 500 pi seeds s).count = 60 ∧ (adjustConfig 900 pi seeds s).count = 105 ∧
      (adjustConfig 1600 pi seeds s).count = 150) := by
  have f1 : ⌊(150 : α) * 0.4⌋ = 60 := by rw [Int.floor_eq_iff]; norm_num
  have f2 : ⌊(350 : α) * 0.6⌋ = 210 := by rw [Int.floor_eq_iff]; norm_num
  have f3 : ⌊(150 : α) * 0.7⌋ = 105 := by rw [Int.floor_eq_iff]; norm_num
  have f4 : ⌊(350 : α) * 0.8⌋ = 280 := by rw [Int.floor_eq_iff]; norm_num
  have hc : ∀ w : α, (adjustConfig w pi seeds s).count =
      if w < 768 then 60 else if w < 1200 then 105 else 150 := by
    intro w
    rw [adjustConfig_count, setTier_count]
    simp only [CFG, Nat.cast_ofNat, f1, f3]
    split_ifs <;> rfl
  have hd : ∀ w : α, (adjustConfig w pi seeds s).connectDist3D =
      if w < 768 then 210 else if w < 1200 then 280 else 350 := by
    intro w
    rw [adjustConfig_connectDist3D, setTier_connectDist3D]
    simp only [CFG, f2, f4]
    split_ifs <;> norm_num
  refine ⟨hc innerWidth, hd innerWidth, ⟨f1, f2, f3, f4⟩, ?_, ?_, ?_⟩
  · rw [hc]; norm_num
  · rw [hc]; norm_num
  · rw [hc]; norm_num

/-- C6 (no reallocation): when the particle array is not empty and its length
equals the count derived from the width, `adjustConfig` changes nothing but
`count` and `connectDist3D`: the particle array (hence every position,
velocity, wander target, retarget counter and phase) and the `pairAlpha` table
are the ones it was given. -/
theorem adjustConfig_no_realloc (innerWidth pi : α) (seeds : ℕ → ParticleSeed α) (s : Scene α)
    (hne : s.particles.length ≠ 0)
    (hlen : s.particles.length =
      if innerWidth < 768 then 60 else if innerWidth < 1200 then 105 else 150) :
    (adjustConfig innerWidth pi seeds s).particles = s.particles ∧
    (adjustConfig innerWidth pi seeds s).pairAlpha = s.pairAlpha ∧
    adjustConfig innerWidth pi seeds s =
      { s with
        count := if innerWidth < 768 then 60 else if innerWidth < 1200 then 105 else 150
        connectDist3D :=
          if innerWidth < 768 then 210 else if innerWidth < 1200 then 280 else 350 } := by
  have f1 : ⌊(150 : α) * 0.4⌋ = 60 := by rw [Int.floor_eq_iff]; norm_num
  have f2 : ⌊(350 : α) * 0.6⌋ = 210 := by rw [Int.floor_eq_iff]; norm_num
  have f3 : ⌊(150 : α) * 0.7⌋ = 105 := by rw [Int.floor_eq_iff]; norm_num
  have f4 : ⌊(350 : α) * 0.8⌋ = 280 := by rw [Int.floor_eq_iff]; norm_num
  have hc : (setTier innerWidth s).count =
      if innerWidth < 768 then 60 else if innerWidth < 1200 then 105 else 150 := by
    rw [setTier_count]
    simp only [CFG, Nat.cast_ofNat, f1, f3]
    split_ifs <;> rfl
  have hd : (setTier innerWidth s).connectDist3D =
      if innerWidth < 768 then 210 else if innerWidth < 1200 then 280 else 350 := by
    rw [setTier_connectDist3D]
    simp only [CFG, f2, f4]
    split_ifs <;> norm_num
  have hkeep : adjustConfig innerWidth pi seeds s = setTier innerWidth s := by
    unfold adjustConfig
    simp only []
    rw [if_neg]
    rw [(setTier_rest innerWidth s).1, hc, ← hlen]
    simp [hne]
  have hst : setTier innerWidth s =
      { s with count := (setTier innerWidth s).count
               connectDist3D := (setTier innerWidth s).connectDist3D } := by
    unfold setTier
    split_ifs <;> rfl
  refine ⟨?_, ?_, ?_⟩
  · rw [hkeep]; exact (setTier_rest innerWidth s).1
  · rw [hkeep]; exact (setTier_rest innerWidth s).2
  · rw [hkeep, hst, hc, hd]

/-- Witness of C6: the 60-particle scene at width 500 (mobile tier). -/
theorem adjustConfig_no_realloc_witness :
    ((mobileScene : Scene ℚ).particles.length ≠ 0 ∧
      (mobileScene : Scene ℚ).particles.length =
        if (500 : ℚ) < 768 then 60 else if (500 : ℚ) < 1200 then 105 else 150) ∧
    ((adjustConfig 500 3 (fun _ => ⟨0, 0, 0, 0, 0, 0, ⟨0, 0, 0, 0⟩, 0, 0, 0, 0⟩)
        (mobileScene : Scene ℚ)).particles = mobileScene.particles ∧
      (adjustConfig 500 3 (fun _ => ⟨0, 0, 0, 0, 0, 0, ⟨0, 0, 0, 0⟩, 0, 0, 0, 0⟩)
        (mobileScene : Scene ℚ)).pairAlpha = mobileScene.pairAlpha ∧
      adjustConfig 500 3 (fun _ => ⟨0, 0, 0, 0, 0, 0, ⟨0, 0, 0, 0⟩, 0, 0, 0, 0⟩)
        (mobileScene : Scene ℚ) =
        { (mobileScene : Scene ℚ) with
          count := if (500 : ℚ) < 768 then 60 else if (500 : ℚ) < 1200 then 105 else 150
          connectDist3D :=
            if (500 : ℚ) < 768 then 210 else if (500 : ℚ) < 1200 then 280 else 350 }) :=
  have hlen : (mobileScene : Scene ℚ).particles.length = 60 := List.length_replicate 60 _
  have h1 : (mobileScene : Scene ℚ).particles.length ≠ 0 := by rw [hlen]; decide
  have h2 : (mobileScene : Scene ℚ).particles.length =
      if (500 : ℚ) < 768 then 60 else if (500 : ℚ) < 1200 then 105 else 150 := by
    rw [hlen, if_pos (by norm_num)]
  ⟨⟨h1, h2⟩, adjustConfig_no_realloc 500 3 _ mobileScene h1 h2⟩

/-- C15, evaluated at frames 1 and 2 on the line from `(0, 0)` to `(100, 0)`:
the parameter of photon 0 goes from 0.008 to 0.016 and that of photon 1 from
0.508 to 0.516 (neither wraps); both photons move from A toward B, from
`x = 0.8` to `x = 1.6` and from `x = 50.8` to `x = 51.6`. -/
theorem photons_move_same_way :
    ((photonT 1 0 : ℚ) = 0.008 ∧ (photonT 2 0 : ℚ) = 0.016 ∧
      (photonT 1 1 : ℚ) = 0.508 ∧ (photonT 2 1 : ℚ) = 0.516) ∧
    (photonPos (endA : Projection ℚ) endB (photonT 1 0) = (0.8, 0) ∧
      photonPos (endA : Projection ℚ) endB (photonT 2 0) = (1.6, 0) ∧
      photonPos (endA : Projection ℚ) endB (photonT 1 1) = (50.8, 0) ∧
      photonPos (endA : Projection ℚ) endB (photonT 2 1) = (51.6, 0)) := by
  have f1 : ⌊(0.008 : ℚ)⌋ = 0 := by rw [Int.floor_eq_iff]; norm_num
  have f2 : ⌊(0.016 : ℚ)⌋ = 0 := by rw [Int.floor_eq_iff]; norm_num
  have f3 : ⌊(0.508 : ℚ)⌋ = 0 := by rw [Int.floor_eq_iff]; norm_num
  have f4 : ⌊(0.516 : ℚ)⌋ = 0 := by rw [Int.floor_eq_iff]; norm_num
  have t1 : (photonT 1 0 : ℚ) = 0.008 := by
    unfold photonT
    rw [jsRem1_of_nonneg _ (by norm_num)]
    norm_num [f1]
  have t2 : (photonT 2 0 : ℚ) = 0.016 := by
    unfold photonT
    rw [jsRem1_of_nonneg _ (by norm_num)]
    norm_num [f2]
  have t3 : (photonT 1 1 : ℚ) = 0.508 := by
    unfold photonT
    rw [jsRem1_of_nonneg _ (by norm_num)]
    norm_num [f3]
  have t4 : (photonT 2 1 : ℚ) = 0.516 := by
    unfold photonT
    rw [jsRem1_of_nonneg _ (by norm_num)]
    norm_num [f4]
  refine ⟨⟨t1, t2, t3, t4⟩, ?_, ?_, ?_, ?_⟩
  · rw [t1]; norm_num [photonPos, endA, endB]
  · rw [t2]; norm_num [photonPos, endA, endB]
  · rw [t3]; norm_num [photonPos, endA, endB]
  · rw [t4]; norm_num [photonPos, endA, endB]

end ConfigProperties

section RoundedProperties

variable [FloorRing α]

/-- C2, as stated, fails in the double arithmetic the engine runs: the particle with
velocity `(10, 0, 0)` (pointer not active, wander target at its own position,
every draw 0.5) leaves `update()` with `vx = 7881299347898369 / 2^52`, which is
`1.7500000000000002`, and `vy = vz = 0`: its velocity magnitude is above `1.75`.
(Drag gives the double `9.65`; its square rounds to the double `93.1225`, whose
rounded root is `9.65` again; `1.75 / 9.65` rounds up, and so does the product.) -/
theorem speed_cap_counterexample :
    ((burstParticle : Particle ℝ).updateF
        ⟨fun x => toDouble (Real.sqrt x), Real.cos, Real.sin, Real.rpow⟩
        800 600 idleMouse sampleDraws).vx = 7881299347898369 / 4503599627370496 ∧
      ((burstParticle : Particle ℝ).updateF
        ⟨fun x => toDouble (Real.sqrt x), Real.cos, Real.sin, Real.rpow⟩
        800 600 idleMouse sampleDraws).vy = 0 ∧
      ((burstParticle : Particle ℝ).updateF
        ⟨fun x => toDouble (Real.sqrt x), Real.cos, Real.sin, Real.rpow⟩
        800 600 idleMouse sampleDraws).vz = 0 ∧
      (1.75 : ℝ) < 7881299347898369 / 4503599627370496 := by
  refine ⟨?_, ?_, ?_, by norm_num⟩
  all_goals
    obtain ⟨hx, hy, hz⟩ := preCapF_burst (α := ℝ)
      ⟨fun x => toDouble (Real.sqrt x), Real.cos, Real.sin, Real.rpow⟩ 800 600
    have h1 : toDouble ((5432467050515661 / 562949953421312 : ℝ) *
        (5432467050515661 / 562949953421312)) = 1638228344921129 / 17592186044416 := by
      rw [toDouble_eval _ 6 6552913379684516 (by norm_num)
        (by rw [abs_of_pos (by norm_num)]; norm_num)
        (by rw [abs_of_pos (by norm_num)]; norm_num)
        (by norm_num [abs_lt])]
      norm_num
    have h2 : toDouble (1638228344921129 / 17592186044416 : ℝ) =
        1638228344921129 / 17592186044416 := by
      rw [toDouble_eval _ 6 6552913379684516 (by norm_num)
        (by rw [abs_of_pos (by norm_num)]; norm_num)
        (by rw [abs_of_pos (by norm_num)]; norm_num)
        (by norm_num [abs_lt])]
      norm_num
    have h3 : (5432467050515661 / 562949953421312 : ℝ) > 1.75 := by norm_num
    have h4 : toDouble ((1.75 : ℝ) / (5432467050515661 / 562949953421312)) =
        6533719666651497 / 36028797018963968 := by
      rw [toDouble_eval _ (-3) 6533719666651497 (by norm_num)
        (by rw [abs_of_pos (by norm_num)]; norm_num)
        (by rw [abs_of_pos (by norm_num)]; norm_num)
        (by norm_num [abs_lt])]
      norm_num
    have h5 : toDouble ((5432467050515661 / 562949953421312 : ℝ) *
        (6533719666651497 / 36028797018963968)) = 7881299347898369 / 4503599627370496 := by
      rw [toDouble_eval _ 0 7881299347898369 (by norm_num)
        (by rw [abs_of_pos (by norm_num)]; norm_num)
        (by rw [abs_of_pos (by norm_num)]; norm_num)
        (by norm_num [abs_lt])]
      norm_num
    simp only [Particle.updateF, Particle.wrapF, Particle.integrateF, Particle.capSpeedF,
      hx, hy, hz, maxSpeed_eq]
    simp only [addD, mulD, divD, mul_zero, zero_mul, toDouble_zero, add_zero, h1, h2,
      sqrt_burst, h3, if_true, h4, h5]

/-- C2, amended (speed cap in double arithmetic): with a correctly rounded square
root, for every particle whose position, velocity and wander target have
components of magnitude at most `2^400`, every pointer with coordinates of
magnitude at most `2^400`, every viewport with `|W|, |H| ≤ 2^400` and all random
draws in `[0, 1]` (so that nothing overflows), the velocity after one `update()`
satisfies `vx² + vy² + vz² ≤ (1.75 * (1 + 2^-50))²`: its magnitude is at most
`1.75 * (1 + 2^-50)`, however large it was before.  The limit `speed * 3.5`
itself is the double `1.75`. -/
theorem updateF_speed_cap (M : MathLib α) (hs : SqrtRounded M.sqrt) (W H : α) (m : Mouse3D α)
    (d : UpdateDraws α) (p : Particle α)
    (hv : p.VelLe (2 ^ 400)) (hp : p.PosLe (2 ^ 400)) (ht : p.TargetLe (2 ^ 400))
    (hm : |m.x| ≤ 2 ^ 400 ∧ |m.y| ≤ 2 ^ 400 ∧ |m.z| ≤ 2 ^ 400)
    (hW : |W| ≤ 2 ^ 400) (hH : |H| ≤ 2 ^ 400) (hd : d.InUnit) :
    (p.updateF M W H m d).vx * (p.updateF M W H m d).vx +
        (p.updateF M W H m d).vy * (p.updateF M W H m d).vy +
        (p.updateF M W H m d).vz * (p.updateF M W H m d).vz ≤ (1.75 * (1 + 1 / 2 ^ 50)) ^ 2 ∧
      mulD (toDouble (CFG : Cfg α).speed) (toDouble 3.5) = 1.75 := by
  refine ⟨?_, maxSpeed_eq⟩
  obtain ⟨hx, hy, hz⟩ := preCapF_range M W H m d p hv hp ht hm hW hH hd
  exact capSpeedF_le M hs (p.preCapF M W H m d) hx hy hz

/-- Witness of C2 amended, over the reals with the rounded real square root: the
particle of the counterexample, which enters the update with speed 10. -/
theorem updateF_speed_cap_witness :
    (SqrtRounded (fun x : ℝ => toDouble (Real.sqrt x)) ∧
      (burstParticle : Particle ℝ).VelLe (2 ^ 400) ∧ (burstParticle : Particle ℝ).PosLe (2 ^ 400) ∧
      (burstParticle : Particle ℝ).TargetLe (2 ^ 400) ∧ (sampleDraws : UpdateDraws ℝ).InUnit) ∧
    ((burstParticle : Particle ℝ).updateF
        ⟨fun x => toDouble (Real.sqrt x), Real.cos, Real.sin, Real.rpow⟩
        800 600 idleMouse sampleDraws).vx *
      ((burstParticle : Particle ℝ).updateF
        ⟨fun x => toDouble (Real.sqrt x), Real.cos, Real.sin, Real.rpow⟩
        800 600 idleMouse sampleDraws).vx +
      ((burstParticle : Particle ℝ).updateF
        ⟨fun x => toDouble (Real.sqrt x), Real.cos, Real.sin, Real.rpow⟩
        800 600 idleMouse sampleDraws).vy *
      ((burstParticle : Particle ℝ).updateF
        ⟨fun x => toDouble (Real.sqrt x), Real.cos, Real.sin, Real.rpow⟩
        800 600 idleMouse sampleDraws).vy +
      ((burstParticle : Particle ℝ).updateF
        ⟨fun x => toDouble (Real.sqrt x), Real.cos, Real.sin, Real.rpow⟩
        800 600 idleMouse sampleDraws).vz *
      ((burstParticle : Particle ℝ).updateF
        ⟨fun x => toDouble (Real.sqrt x), Real.cos, Real.sin, Real.rpow⟩
        800 600 idleMouse sampleDraws).vz ≤ (1.75 * (1 + 1 / 2 ^ 50)) ^ 2 :=
  have h : SqrtRounded (fun x : ℝ => toDouble (Real.sqrt x)) :=
    fun x hx => ⟨Real.sqrt x, Real.sqrt_nonneg x, Real.mul_self_sqrt hx, rfl⟩
  have hv : (burstParticle : Particle ℝ).VelLe (2 ^ 400) := by
    norm_num [Particle.VelLe, burstParticle]
  have hp : (burstParticle : Particle ℝ).PosLe (2 ^ 400) := by
    norm_num [Particle.PosLe, burstParticle]
  have ht : (burstParticle : Particle ℝ).TargetLe (2 ^ 400) := by
    norm_num [Particle.TargetLe, burstParticle]
  have hd : (sampleDraws : UpdateDraws ℝ).InUnit := by
    norm_num [UpdateDraws.InUnit, sampleDraws]
  ⟨⟨h, hv, hp, ht, hd⟩,
    (updateF_speed_cap ⟨fun x => toDouble (Real.sqrt x), Real.cos, Real.sin, Real.rpow⟩ h
      800 600 idleMouse sampleDraws burstParticle hv hp ht (by norm_num [idleMouse])
      (by norm_num [abs_le]) (by norm_num [abs_le]) hd).1⟩

/-- C4, as stated, fails for the stored table: with the stored single
`V = 4194303 / 4194304` (which is `1 - 2^-22`) and the target `T = 1`, the step
computes the double `0.9999997854232788`, and the store into the `Float32Array`
rounds it back to `V`.  The next value equals `V` although `V ≠ T`; it is not
strictly between the two. -/
theorem blendF_stall_counterexample :
    blendF (1 : ℚ) (4194303 / 4194304) = 4194303 / 4194304 ∧ (4194303 / 4194304 : ℚ) < 1 := by
  refine ⟨?_, by norm_num⟩
  have hlt : (1 : ℚ) > 4194303 / 4194304 := by norm_num
  have e1 : toDouble ((1 : ℚ) - 4194303 / 4194304) = 1 / 4194304 := by
    rw [toDouble_eval _ (-22) 4503599627370496 (by norm_num)
      (by norm_num [abs_of_pos]) (by norm_num [abs_of_pos]) (by norm_num [abs_lt])]
    norm_num
  have e2 : toDouble ((1 / 4194304 : ℚ) * (3602879701896397 / 36028797018963968)) =
      3602879701896397 / 151115727451828646838272 := by
    rw [toDouble_eval _ (-26) 7205759403792794 (by norm_num)
      (by norm_num [abs_of_pos]) (by norm_num [abs_of_pos]) (by norm_num [abs_lt])]
    norm_num
  have e3 : toDouble ((4194303 / 4194304 : ℚ) + 3602879701896397 / 151115727451828646838272) =
      9007197322005709 / 9007199254740992 := by
    rw [toDouble_eval _ (-1) 9007197322005709 (by norm_num)
      (by norm_num [abs_of_pos]) (by norm_num [abs_of_pos]) (by norm_num [abs_lt])]
    norm_num
  have e4 : toFloat32 (9007197322005709 / 9007199254740992 : ℚ) = 4194303 / 4194304 := by
    rw [toFloat32_eval _ (-1) 16777212 (by norm_num)
      (by norm_num [abs_of_pos]) (by norm_num [abs_of_pos]) (by norm_num [abs_lt])]
    norm_num
  simp only [blendF, if_pos hlt]
  rw [toDouble_rise, e1, e2, e3, e4]

/-- C4, amended (no overshoot in the stored table): for a stored value `V ≥ 0` (a
single) and a target `T ≥ 0`, one smoothing step, computed in doubles and stored
as a single, never reaches or passes the target and never moves away from it:
`V ≤ next < T` when `V < T`, `T < next ≤ V` when `T < V`, and `next = V = T` when
`V = T`.  (Between `V` and `T` the step may leave the value where it is.) -/
theorem blendF_between (T V : α) (hV0 : 0 ≤ V) (hT0 : 0 ≤ T) (hV : toFloat32 V = V) :
    (V < T → V ≤ blendF T V ∧ blendF T V < T) ∧ (T < V → T < blendF T V ∧ blendF T V ≤ V) ∧
      (V = T → blendF T V = V ∧ blendF T V = T) := by
  refine ⟨fun h => blendF_rising T V hV0 hV h, fun h => blendF_falling T V hT0 hV h, fun h => ?_⟩
  subst h
  exact ⟨blendF_at_target V hV, blendF_at_target V hV⟩

/-- Witness of C4 amended: the stored value `1 - 2^-22` with the target 1 (the
rising case, where the step stalls), with the target 0 (the falling case) and
with itself as the target. -/
theorem blendF_between_witness :
    ((0 : ℚ) ≤ 4194303 / 4194304 ∧ toFloat32 (4194303 / 4194304 : ℚ) = 4194303 / 4194304) ∧
      ((4194303 / 4194304 : ℚ) ≤ blendF 1 (4194303 / 4194304) ∧
        blendF (1 : ℚ) (4194303 / 4194304) < 1) ∧
      ((0 : ℚ) < blendF 0 (4194303 / 4194304) ∧
        blendF (0 : ℚ) (4194303 / 4194304) ≤ 4194303 / 4194304) ∧
      blendF (4194303 / 4194304 : ℚ) (4194303 / 4194304) = 4194303 / 4194304 :=
  have h0 : (0 : ℚ) ≤ 4194303 / 4194304 := by norm_num
  have hV : toFloat32 (4194303 / 4194304 : ℚ) = 4194303 / 4194304 := by
    rw [toFloat32_eval _ (-1) 16777212 (by norm_num)
      (by norm_num [abs_of_pos]) (by norm_num [abs_of_pos]) (by norm_num [abs_lt])]
    norm_num
  ⟨⟨h0, hV⟩,
    (blendF_between (1 : ℚ) (4194303 / 4194304) h0 (by norm_num) hV).1 (by norm_num),
    (blendF_between (0 : ℚ) (4194303 / 4194304) h0 (le_refl 0) hV).2.1 (by norm_num),
    ((blendF_between (4194303 / 4194304 : ℚ) (4194303 / 4194304) h0 h0 hV).2.2 rfl).1⟩

/-- C13, as stated, fails for the stored table: at `V = 0.5` and `delta = 2^-30` the
rising step and the falling step both store `0.5` again.  Both changes are 0,
so the rising change is not strictly larger (and they are not `0.10 * delta`
and `0.038 * delta`). -/
theorem blendF_tie_counterexample :
    blendF ((1 / 2 : ℚ) + 1 / 2 ^ 30) (1 / 2) = 1 / 2 ∧
      blendF ((1 / 2 : ℚ) - 1 / 2 ^ 30) (1 / 2) = 1 / 2 ∧
      ¬ (|blendF ((1 / 2 : ℚ) - 1 / 2 ^ 30) (1 / 2) - 1 / 2| <
          |blendF ((1 / 2 : ℚ) + 1 / 2 ^ 30) (1 / 2) - 1 / 2|) := by
  have hgt : (1 / 2 : ℚ) + 1 / 2 ^ 30 > 1 / 2 := by norm_num
  have hng : ¬ ((1 / 2 : ℚ) - 1 / 2 ^ 30 > 1 / 2) := by norm_num
  have r1 : toDouble ((1 / 2 : ℚ) + 1 / 2 ^ 30 - 1 / 2) = 1 / 1073741824 := by
    rw [toDouble_eval _ (-30) 4503599627370496 (by norm_num)
      (by norm_num [abs_of_pos]) (by norm_num [abs_of_pos]) (by norm_num [abs_lt])]
    norm_num
  have r2 : toDouble ((1 / 1073741824 : ℚ) * (3602879701896397 / 36028797018963968)) =
      3602879701896397 / 38685626227668133590597632 := by
    rw [toDouble_eval _ (-34) 7205759403792794 (by norm_num)
      (by norm_num [abs_of_pos]) (by norm_num [abs_of_pos]) (by norm_num [abs_lt])]
    norm_num
  have r3 : toDouble ((1 / 2 : ℚ) + 3602879701896397 / 38685626227668133590597632) =
      4503599628209357 / 9007199254740992 := by
    rw [toDouble_eval _ (-1) 4503599628209357 (by norm_num)
      (by norm_num [abs_of_pos]) (by norm_num [abs_of_pos]) (by norm_num [abs_lt])]
    norm_num
  have r4 : toFloat32 (4503599628209357 / 9007199254740992 : ℚ) = 1 / 2 := by
    rw [toFloat32_eval _ (-1) 8388608 (by norm_num)
      (by norm_num [abs_of_pos]) (by norm_num [abs_of_pos]) (by norm_num [abs_lt])]
    norm_num
  have f1 : toDouble ((1 / 2 : ℚ) - 1 / 2 ^ 30 - 1 / 2) = -(1 / 1073741824) := by
    rw [toDouble_eval _ (-30) (-4503599627370496) (by norm_num)
      (by norm_num [abs_of_neg]) (by norm_num [abs_of_neg]) (by norm_num [abs_lt])]
    norm_num
  have f2 : toDouble (-(1 / 1073741824 : ℚ) * (5476377146882523 / 144115188075855872)) =
      -(5476377146882523 / 154742504910672534362390528) := by
    rw [toDouble_eval _ (-35) (-5476377146882523) (by norm_num)
      (by norm_num [abs_of_neg]) (by norm_num [abs_of_neg]) (by norm_num [abs_lt])]
    norm_num
  have f3 : toDouble ((1 / 2 : ℚ) + -(5476377146882523 / 154742504910672534362390528)) =
      4503599627051729 / 9007199254740992 := by
    rw [toDouble_eval _ (-2) 9007199254103458 (by norm_num)
      (by norm_num [abs_of_pos]) (by norm_num [abs_of_pos]) (by norm_num [abs_lt])]
    norm_num
  have f4 : toFloat32 (4503599627051729 / 9007199254740992 : ℚ) = 1 / 2 := by
    rw [toFloat32_eval _ (-2) 16777216 (by norm_num)
      (by norm_num [abs_of_pos]) (by norm_num [abs_of_pos]) (by norm_num [abs_lt])]
    norm_num
  have up : blendF ((1 / 2 : ℚ) + 1 / 2 ^ 30) (1 / 2) = 1 / 2 := by
    simp only [blendF, if_pos hgt]
    rw [toDouble_rise, r1, r2, r3, r4]
  have down : blendF ((1 / 2 : ℚ) - 1 / 2 ^ 30) (1 / 2) = 1 / 2 := by
    simp only [blendF, if_neg hng]
    rw [toDouble_fall, f1, f2, f3, f4]
  refine ⟨up, down, ?_⟩
  rw [up, down]
  norm_num

/-- C13, amended (rise beats fall in the stored table): for every current value
`V ≥ 0` and every `delta > 0`, the change stored by the step toward `V + delta`
is within `(V + delta) / 2^23 + 2^-149` of `0.10 * delta`, the change stored by
the step toward `V - delta` is within the same distance of `0.038 * delta`, and
when `delta ≥ V / 2^18 + 2^-144` the first change is strictly larger in
magnitude than the second. -/
theorem blendF_rises_faster (V delta : α) (hV0 : 0 ≤ V) (hd : 0 < delta) :
    |blendF (V + delta) V - V - 0.10 * delta| ≤ (V + delta) / 2 ^ 23 + 2 ^ (-149 : ℤ) ∧
      |V - blendF (V - delta) V - 0.038 * delta| ≤ (V + delta) / 2 ^ 23 + 2 ^ (-149 : ℤ) ∧
      (V / 2 ^ 18 + 2 ^ (-144 : ℤ) ≤ delta →
        |blendF (V - delta) V - V| < |blendF (V + delta) V - V|) := by
  obtain ⟨h1, h2⟩ := blendF_changes V delta hV0 hd
  obtain ⟨f1, f2, f3⟩ := two_zpow_facts (α := α)
  have hν : (0 : α) < 2 ^ (-150 : ℤ) := two_zpow_pos _
  have hη : (0 : α) < 2 ^ (-1075 : ℤ) := two_zpow_pos _
  obtain ⟨cr, hcr⟩ : ∃ c, c = blendF (V + delta) V - V := ⟨_, rfl⟩
  obtain ⟨cf, hcf⟩ : ∃ c, c = V - blendF (V - delta) V := ⟨_, rfl⟩
  have e : blendF (V - delta) V - V = -cf := by rw [hcf]; ring
  rw [e, abs_neg, ← hcr]
  rw [← hcr] at h1
  rw [← hcf] at h2
  have h1' := abs_le.mp h1
  have h2' := abs_le.mp h2
  rw [f2]
  refine ⟨?_, ?_, fun ht => ?_⟩
  · rw [abs_le]
    constructor <;> linarith [h1'.1, h1'.2]
  · rw [abs_le]
    constructor <;> linarith [h2'.1, h2'.2]
  · rw [f1] at ht
    have hcf' : |cf| < cr := by
      rw [abs_lt]
      constructor <;> linarith [h1'.1, h1'.2, h2'.1, h2'.2]
    exact lt_of_lt_of_le hcf' (le_abs_self cr)

/-- Witness of C13 amended: current value 0.5 and delta 0.25. -/
theorem blendF_rises_faster_witness :
    ((0 : ℚ) ≤ 1 / 2 ∧ (0 : ℚ) < 1 / 4 ∧ (1 / 2 : ℚ) / 2 ^ 18 + 2 ^ (-144 : ℤ) ≤ 1 / 4) ∧
      |blendF ((1 / 2 : ℚ) - 1 / 4) (1 / 2) - 1 / 2| <
        |blendF ((1 / 2 : ℚ) + 1 / 4) (1 / 2) - 1 / 2| :=
  ⟨⟨by norm_num, by norm_num, by norm_num⟩,
    (blendF_rises_faster (1 / 2 : ℚ) (1 / 4) (by norm_num) (by norm_num)).2.2 (by norm_num)⟩

end RoundedProperties

end Properties

end NeuralBg
